import Mathlib

/-!
# Hierarchical Z-buffer quadtree (`quadtree.h`, `quadtree.cpp`)

A shallow embedding of the location-code quadtree of the repository and a
verification of its specification; at the end of the definitions, the parent
link of `Object3D` (`object3d.h`, `object3d.cpp`).

Modelling conventions.

* `int` values are integers of 32 bits in two's complement. `+`, `-` and `*`
  on `int` give the mathematical result reduced into `[-2 ^ 31, 2 ^ 31)`
  (`int32`), which is what the compiled code computes; the C++ standard leaves
  signed overflow undefined. `/` on `int` is `Int.tdiv` (truncation toward
  zero). No sum or product overflows while `width` and `height` are below
  `2 ^ 30` and `width * height` is below `2 ^ 31`.
* `uint32_t` location codes and the `uint8_t` child mask are natural numbers
  reduced `% 2 ^ 32` and `% 2 ^ 8` where the code computes them.
* `std::unordered_map<uint32_t, QuadTreeNode>` is an association list in
  which the most recent binding of a key is the live one; `operator[]` on a
  missing key adds a slot whose node is default constructed, and
  `QuadTreeNode() {}` leaves every field indeterminate (`Slot.uninit`).
* A `QuadTreeNode*` is `NodePtr`: null, the heap allocated root, or the map
  slot of a key (references into an `unordered_map` stay valid on insertion).
* The recursion of `splitNode` is driven by fuel; a run that exhausts it, or
  that reads an indeterminate node, stops with `Step.stuck` in the state it
  reached.
* The two `float` arrays are not part of the state; only the failure of
  `new float[width * height]` on a negative length is modelled.
* An `Object3D*` is the address of an object or `none` for `nullptr`; memory
  maps addresses to objects, of which only `_parent` and `_children` are kept.
-/

set_option linter.dupNamespace false

/-- Mirror of `struct QuadBoundingBox`. -/
structure QuadBoundingBox where
  xl : Int
  xr : Int
  yl : Int
  yr : Int
  centerX : Int
  centerY : Int
deriving DecidableEq, Repr

/-- Mirror of `class QuadTreeNode`; `box` is the pointed-to box. -/
structure QuadTreeNode where
  box : QuadBoundingBox
  z : Rat
  locCode : Nat
  childExists : Nat
deriving DecidableEq, Repr

/-- Contents of a slot of the node map. -/
inductive Slot where
  | uninit : Slot
  | val (n : QuadTreeNode) : Slot
deriving DecidableEq, Repr

/-- Values of type `QuadTreeNode*`. -/
inductive NodePtr where
  | null : NodePtr
  | root : NodePtr
  | entry (key : Nat) : NodePtr
deriving DecidableEq, Repr

/-- The node map: most recent binding first. -/
abbrev NodeMap := List (Nat × Slot)

/-- Slot bound to `key`, if the key is in the map. -/
def NodeMap.find : NodeMap → Nat → Option Slot
  | [], _ => none
  | (k, v) :: rest, key => if k = key then some v else NodeMap.find rest key

/-- Assignment `m[key] = v`. -/
def NodeMap.assign (m : NodeMap) (key : Nat) (v : Slot) : NodeMap :=
  (key, v) :: m

/-- Keys of the map, each once. -/
def NodeMap.keys (m : NodeMap) : List Nat :=
  (m.map Prod.fst).dedup

/-- Mirror of the data members of `class QuadTree` (without the two arrays). -/
structure QuadTree where
  width : Int
  height : Int
  root : QuadTreeNode
  nodes : NodeMap
deriving Repr

/-- Fields read through a node pointer; `none` where they are not determinate. -/
def QuadTree.read (t : QuadTree) : NodePtr → Option QuadTreeNode
  | .null => none
  | .root => some t.root
  | .entry k =>
    match t.nodes.find k with
    | some (.val n) => some n
    | _ => none

/-- Store through a node pointer. -/
def QuadTree.write (t : QuadTree) : NodePtr → QuadTreeNode → QuadTree
  | .null, _ => t
  | .root, n => { t with root := n }
  | .entry k, n => { t with nodes := t.nodes.assign k (.val n) }

/-- The `int` that a computation with mathematical result `n` leaves. -/
def int32 (n : Int) : Int := (n + 2 ^ 31) % 2 ^ 32 - 2 ^ 31

/-- Conversion to `uint32_t`. -/
def uint32 (n : Nat) : Nat := n % 2 ^ 32

/-- Conversion to `uint8_t`. -/
def uint8 (n : Nat) : Nat := n % 2 ^ 8

/-- Why a run stopped before returning. -/
inductive Fault where
  | fuel : Fault
  | indeterminate : Fault
deriving DecidableEq, Repr

/-- Outcome of running a `void` member function on a tree. -/
inductive Step where
  | done (t : QuadTree) : Step
  | stuck (why : Fault) (t : QuadTree) : Step
deriving Repr

/-- State in which the run ended. -/
def Step.state : Step → QuadTree
  | .done t => t
  | .stuck _ t => t

/-- Sequencing of runs. -/
def Step.andThen (s : Step) (f : QuadTree → Step) : Step :=
  match s with
  | .done t => f t
  | .stuck w t => .stuck w t

/-- `QuadTree::lookupNode`: `return &nodes[locCode];`. -/
def lookupNode (t : QuadTree) (locCode : Nat) : QuadTree × NodePtr :=
  match t.nodes.find locCode with
  | some _ => (t, .entry locCode)
  | none => ({ t with nodes := t.nodes.assign locCode .uninit }, .entry locCode)

/-- `QuadTree::getParentNode`. -/
def getParentNode (t : QuadTree) (node : NodePtr) : Option (QuadTree × NodePtr) :=
  match t.read node with
  | none => none
  | some n =>
    let locCodeParent := n.locCode >>> 2
    some (lookupNode t locCodeParent)

/-- The loop of `getNodeTreeDepth`: `for (lc; lc != 1; lc >>= 2, ++depth);`. -/
def depthLoop : Nat → Nat → Nat → Option Nat
  | 0, lc, depth => if lc = 1 then some depth else none
  | fuel + 1, lc, depth => if lc = 1 then some depth else depthLoop fuel (lc >>> 2) (depth + 1)

/-- `QuadTree::getNodeTreeDepth`. -/
def getNodeTreeDepth (fuel : Nat) (t : QuadTree) (node : NodePtr) : Option Nat :=
  match t.read node with
  | none => none
  | some n => depthLoop fuel n.locCode 0

/-- The `continue` test of the first loop of `splitNode`. -/
def skipQuadrant (box : QuadBoundingBox) (i : Nat) : Bool :=
  (decide (box.xr ≤ box.centerX) && decide (i &&& 1 ≠ 0)) ||
    (decide (box.yr ≤ box.centerY) && decide (i &&& 2 ≠ 0))

/-- The expression `(lo + hi + 1) / 2` on `int` operands. -/
def centerOf (lo hi : Int) : Int :=
  (int32 (int32 (lo + hi) + 1)).tdiv 2

/-- The `switch (i)` of `splitNode`: the box of quadrant `i`. -/
def childBox (box : QuadBoundingBox) (i : Nat) : QuadBoundingBox :=
  match i with
  | 0 => ⟨box.xl, box.centerX, box.yl, box.centerY,
          centerOf box.xl box.centerX, centerOf box.yl box.centerY⟩
  | 1 => ⟨box.centerX, box.xr, box.yl, box.centerY,
          centerOf box.centerX box.xr, centerOf box.yl box.centerY⟩
  | 2 => ⟨box.xl, box.centerX, box.centerY, box.yr,
          centerOf box.xl box.centerX, centerOf box.centerY box.yr⟩
  | _ => ⟨box.centerX, box.xr, box.centerY, box.yr,
          centerOf box.centerX box.xr, centerOf box.centerY box.yr⟩

/-- Body of the first loop of `splitNode` for quadrant `i`. -/
def createChild (box : QuadBoundingBox) (node : NodePtr) (i : Nat) (t : QuadTree) : Step :=
  if skipQuadrant box i then .done t
  else
    match t.read node with
    | none => .stuck .indeterminate t
    | some n =>
      let nodeTemp : QuadTreeNode :=
        { box := childBox box i, z := n.z, locCode := uint32 ((n.locCode <<< 2) ||| i),
          childExists := 0 }
      let t1 := t.write node { n with childExists := uint8 (n.childExists ||| (1 <<< i)) }
      .done { t1 with nodes := t1.nodes.assign nodeTemp.locCode (.val nodeTemp) }

/-- Body of the second loop of `splitNode` for quadrant `i`; `self` is the
recursive call. -/
def descend (self : NodePtr → QuadTree → Step) (node : NodePtr) (i : Nat) (t : QuadTree) :
    Step :=
  match t.read node with
  | none => .stuck .indeterminate t
  | some n =>
    if n.childExists &&& (1 <<< i) ≠ 0 then
      let locCodeChild := uint32 ((n.locCode <<< 2) ||| i)
      let found := lookupNode t locCodeChild
      self found.2 found.1
    else .done t

/-- `QuadTree::splitNode`. -/
def splitNode : Nat → NodePtr → QuadTree → Step
  | 0, _, t => .stuck .fuel t
  | fuel + 1, node, t =>
    match t.read node with
    | none => .stuck .indeterminate t
    | some n =>
      let box := n.box
      if int32 (box.xr - box.xl) ≤ 1 ∧ int32 (box.yr - box.yl) ≤ 1 then .done t
      else
        let created :=
          [0, 1, 2, 3].foldl (fun s i => s.andThen (createChild box node i)) (.done t)
        [0, 1, 2].foldl (fun s i => s.andThen (descend (splitNode fuel) node i)) created

/-- The constant `FLT_MIN` of `<cfloat>`. -/
def FLT_MIN : Rat := 1 / 2 ^ 126

/-- `QuadTree::buildQuadTree`, on the root made by `new QuadTreeNode(1)`. -/
def buildQuadTree (fuel : Nat) (width height : Int) : Step :=
  let root : QuadTreeNode :=
    { box := ⟨0, width, 0, height, (int32 (width + 1)).tdiv 2, (int32 (height + 1)).tdiv 2⟩,
      z := FLT_MIN,
      locCode := 1, childExists := 0 }
  splitNode fuel .root { width := width, height := height, root := root, nodes := [] }

/-- The constructor `QuadTree::QuadTree`; `none` when `new float[width * height]`
throws `std::bad_array_new_length`, the `int` product being negative. -/
def QuadTree.QuadTree (fuel : Nat) (Width Height : Int) : Option Step :=
  if int32 (Width * Height) < 0 then none else some (buildQuadTree fuel Width Height)

/-! ## Specification-level definitions -/

/-- The region is at most 1 pixel on both axes. -/
def isLeafBox (B : QuadBoundingBox) : Prop :=
  B.xr - B.xl ≤ 1 ∧ B.yr - B.yl ≤ 1

/-- The test with which `splitNode` returns at once, on `int` operands. -/
def leafTest (B : QuadBoundingBox) : Prop :=
  int32 (B.xr - B.xl) ≤ 1 ∧ int32 (B.yr - B.yl) ≤ 1

instance leafTest.decide (B : QuadBoundingBox) : Decidable (leafTest B) :=
  inferInstanceAs (Decidable (_ ∧ _))

instance isLeafBox.decide (B : QuadBoundingBox) : Decidable (isLeafBox B) :=
  inferInstanceAs (Decidable (_ ∧ _))

/-- Value of `childExists` after the first loop of `splitNode` handled the
quadrants below `m`, on a node whose mask was `0`. -/
def partialMask (B : QuadBoundingBox) (m : Nat) : Nat :=
  (List.range m).foldl (fun acc i => if skipQuadrant B i then acc else uint8 (acc ||| (1 <<< i))) 0

/-- Value of `childExists` after the first loop of `splitNode` ran on a node
whose mask was `0`. -/
def childMask (B : QuadBoundingBox) : Nat :=
  partialMask B 4

/-- State of the first loop of `splitNode`, run from `t` on the node `n` of code
`c` behind `r`, once the quadrants below `m` are handled. -/
def FirstLoopInv (t : QuadTree) (r : NodePtr) (n : QuadTreeNode) (c m : Nat)
    (t1 : QuadTree) : Prop :=
  t1.width = t.width ∧ t1.height = t.height ∧
    t1.read r = some { n with childExists := partialMask n.box m } ∧
    (r ≠ .root → t1.root = t.root) ∧
    (∀ i, i < m → skipQuadrant n.box i = false →
      t1.nodes.find (4 * c + i) = some (.val ⟨childBox n.box i, n.z, 4 * c + i, 0⟩)) ∧
    (∀ k, k ≠ c → (∀ i, i < m → skipQuadrant n.box i = false → k ≠ 4 * c + i) →
      t1.nodes.find k = t.nodes.find k) ∧
    (r = .root → ∀ k, (∀ i, i < m → skipQuadrant n.box i = false → k ≠ 4 * c + i) →
      t1.nodes.find k = t.nodes.find k)

/-- Value of `childExists` once `splitNode` returned for a node of box `B`. -/
def maskAfterSplit (B : QuadBoundingBox) : Nat :=
  if isLeafBox B then 0 else childMask B

/-- A non-empty region with non-negative origin whose centre is the rounded-up
midpoint, with bounds below `2 ^ 30`, so that no `int` sum over it overflows. -/
def BoxOK (B : QuadBoundingBox) : Prop :=
  0 ≤ B.xl ∧ B.xl < B.xr ∧ 0 ≤ B.yl ∧ B.yl < B.yr ∧
    B.centerX = (B.xl + B.xr + 1) / 2 ∧ B.centerY = (B.yl + B.yr + 1) / 2 ∧
    B.xr < 2 ^ 30 ∧ B.yr < 2 ^ 30

/-- Both sides of the region are at most `2 ^ e` pixels. -/
def FitsIn (e : Nat) (B : QuadBoundingBox) : Prop :=
  B.xr - B.xl ≤ 2 ^ e ∧ B.yr - B.yl ≤ 2 ^ e

/-- Pixel `(x, y)` lies in the region `[xl, xr) x [yl, yr)`. -/
def QuadBoundingBox.contains (B : QuadBoundingBox) (x y : Int) : Prop :=
  B.xl ≤ x ∧ x < B.xr ∧ B.yl ≤ y ∧ y < B.yr

instance QuadBoundingBox.containsDecide (B : QuadBoundingBox) (x y : Int) :
    Decidable (B.contains x y) :=
  inferInstanceAs (Decidable (_ ∧ _ ∧ _ ∧ _))

/-- Code `k` is `c` or has `c` among its ancestors (`k >> 2j = c` for some `j`). -/
def Under (c k : Nat) : Prop := ∃ j, k / 4 ^ j = c

/-- Box of the node of code `k` in the tree that `splitNode` grows from a node
of code `c` and box `B`, computed from the quadrant digits of `k`; `none` when
that tree has no such node. -/
def boxUnder (c : Nat) (B : QuadBoundingBox) (k : Nat) : Option QuadBoundingBox :=
  if k = c then some B
  else if k = 0 then none
  else
    match boxUnder c B (k / 4) with
    | none => none
    | some Bp =>
      if isLeafBox Bp ∨ (k / 4 ≠ c ∧ (k / 4) % 4 = 3) ∨ skipQuadrant Bp (k % 4) = true then none
      else some (childBox Bp (k % 4))
termination_by k
decreasing_by omega

/-- The node that construction leaves under code `k` when its box is `Bk`. -/
def specNode (Bk : QuadBoundingBox) (z : Rat) (k : Nat) : QuadTreeNode :=
  { box := Bk, z := z, locCode := k, childExists := if k % 4 = 3 then 0 else maskAfterSplit Bk }

/-- The map `m` with the nodes of the tree grown from `(c, B)` laid over it. -/
def overlay (c : Nat) (B : QuadBoundingBox) (z : Rat) (m : NodeMap) (k : Nat) : Option Slot :=
  match boxUnder c B k with
  | some Bk => some (.val (specNode Bk z k))
  | none => m.find k

/-- What a returned call of `splitNode` on the node `n` of code `c` behind `r`
leaves: the node with its final mask, the tree grown from it laid over the
map, everything else as it was. -/
def SplitPost (t : QuadTree) (r : NodePtr) (n : QuadTreeNode) (c : Nat) (t1 : QuadTree) : Prop :=
  t1.width = t.width ∧ t1.height = t.height ∧
    t1.read r = some { n with childExists := maskAfterSplit n.box } ∧
    (r ≠ .root → t1.root = t.root) ∧
    (∀ k, k ≠ c → t1.nodes.find k = overlay c n.box n.z t.nodes k) ∧
    (r = .root → t1.nodes.find c = t.nodes.find c)

/-- The call `self` returns with `SplitPost` on every fresh node whose box has
sides of at most `2 ^ e` pixels and whose subtree codes fit in 32 bits. -/
def SplitsWell (e : Nat) (self : NodePtr → QuadTree → Step) : Prop :=
  ∀ (t : QuadTree) (r : NodePtr) (n : QuadTreeNode) (c : Nat),
    t.read r = some n → n.locCode = c → n.childExists = 0 → (r = .root ∨ r = .entry c) →
    1 ≤ c → (c + 1) * 4 ^ e ≤ 2 ^ 32 → BoxOK n.box → FitsIn e n.box →
    ∃ t1, self r t = .done t1 ∧ SplitPost t r n c t1

/-- State of the second loop of `splitNode`, entered in `t1` from a call in
`t`, once the quadrants below `m` are handled. -/
def SecondLoopInv (t t1 : QuadTree) (r : NodePtr) (n : QuadTreeNode) (c m : Nat)
    (tm : QuadTree) : Prop :=
  tm.width = t.width ∧ tm.height = t.height ∧
    tm.read r = some { n with childExists := childMask n.box } ∧
    (r ≠ .root → tm.root = t.root) ∧
    (∀ i, m ≤ i → i < 4 → skipQuadrant n.box i = false →
      tm.nodes.find (4 * c + i) = some (.val ⟨childBox n.box i, n.z, 4 * c + i, 0⟩)) ∧
    (∀ k, k ≠ c → (∃ i, i < m ∧ Under (4 * c + i) k) →
      tm.nodes.find k = overlay c n.box n.z t.nodes k) ∧
    (∀ k, k ≠ c → (¬ ∃ i, i < m ∧ Under (4 * c + i) k) → tm.nodes.find k = t1.nodes.find k) ∧
    (r = .root → tm.nodes.find c = t.nodes.find c)

/-- The box that `buildQuadTree` gives the root. -/
def rootBox (width height : Int) : QuadBoundingBox :=
  ⟨0, width, 0, height, (int32 (width + 1)).tdiv 2, (int32 (height + 1)).tdiv 2⟩

/-- The tree is the one construction leaves for a frame buffer of at most
`32768 x 32768` pixels: the root outside the map, and in the map exactly the
nodes that `boxUnder` computes from the root box. -/
def Built (t : QuadTree) : Prop :=
  BoxOK t.root.box ∧ FitsIn 15 t.root.box ∧ t.root.locCode = 1 ∧
    t.root.childExists = maskAfterSplit t.root.box ∧
    ∀ k, t.nodes.find k =
      if k = 1 then none
      else (boxUnder 1 t.root.box k).map (fun Bk => Slot.val (specNode Bk t.root.z k))

/-- Whether `P` holds of the root and of every node that is live in the map. -/
def liveAll (t : QuadTree) (P : QuadTreeNode → Bool) : Bool :=
  P t.root && t.nodes.all fun e =>
    match e.2 with
    | .uninit => true
    | .val n => P n || (t.nodes.find e.1 != some e.2)

/-- Whether the run returned in a state satisfying `P`. -/
def Step.returned (s : Step) (P : QuadTree → Bool) : Bool :=
  match s with
  | .done t => P t
  | .stuck _ _ => false

/-- Whether the run was cut off for want of fuel. -/
def Step.outOfFuel : Step → Bool
  | .stuck .fuel _ => true
  | _ => false

/-- The root and every node ever assigned into the map have a box with `P`. -/
def EveryBox (P : QuadBoundingBox → Prop) (t : QuadTree) : Prop :=
  P t.root.box ∧ ∀ e ∈ t.nodes, ∀ n, e.2 = Slot.val n → P n.box

/-- The entry assigns a freshly constructed node, one with `childExists = 0`,
as `nodes[nodeTemp->locCode] = *nodeTemp` does. The other assignments to the
map, those of `node->childExists |= (1 << i)`, store a mask that is not `0`. -/
def isInsertion (e : Nat × Slot) : Bool :=
  match e.2 with
  | .val n => n.childExists == 0
  | .uninit => false

/-- No insertion among the assignments `added` (most recent first), made on
top of the map `base`, went to a key that the map already had. -/
def InsertsFresh (base : NodeMap) : NodeMap → Prop
  | [] => True
  | e :: rest =>
    InsertsFresh base rest ∧ (isInsertion e = true → NodeMap.find (rest ++ base) e.1 = none)

/-- Every returned call of `self` on a fresh node, as in `SplitsWell`, whose
subtree codes are not yet in the map only appends assignments to the map, and
none of its insertions goes to a key the map already has. -/
def SplitsFresh (e : Nat) (self : NodePtr → QuadTree → Step) : Prop :=
  ∀ (t : QuadTree) (r : NodePtr) (n : QuadTreeNode) (c : Nat),
    t.read r = some n → n.locCode = c → n.childExists = 0 → (r = .root ∨ r = .entry c) →
    1 ≤ c → (c + 1) * 4 ^ e ≤ 2 ^ 32 → BoxOK n.box → FitsIn e n.box →
    (∀ k, Under c k → k ≠ c → t.nodes.find k = none) →
    ∀ t1, self r t = .done t1 →
      ∃ added, t1.nodes = added ++ t.nodes ∧ InsertsFresh t.nodes added


/-! ## Definitions for runs on frame buffers of any size -/

/-- Bit `i` of a child mask is set, as the second loop of `splitNode` tests it. -/
def maskBit (x i : Nat) : Prop := x &&& (1 <<< i) ≠ 0

/-- Location code that a node behind the pointer has in a sound tree. -/
def codeOf : NodePtr → Nat
  | .null => 0
  | .root => 1
  | .entry k => k

/-- Key under which `splitNode` stores quadrant `i` of a node of code `c`. -/
def childKey (c i : Nat) : Nat := uint32 ((c <<< 2) ||| i)

/-- What every state of a construction satisfies, whatever the size. -/
def Sound (t : QuadTree) : Prop :=
  (∀ p n, t.read p = some n → n.locCode = codeOf p) ∧
    (∀ k, t.nodes.find k ≠ none → ∃ n, t.read (.entry k) = some n) ∧
    (∀ k n, t.read (.entry k) = some n → ∀ j, j < 3 → childKey k j = k →
      ¬ maskBit n.childExists j) ∧
    (∀ p n, t.read p = some n → ∀ i, i < 3 → maskBit n.childExists i →
      skipQuadrant n.box i = false ∨ ∃ k, p = .entry k ∧ ∃ j, j < i ∧ childKey k j = k) ∧
    EveryBox BoxOK t

/-- Every mask bit below 3 that is set in `t1` was set behind the same pointer
in `t`, or the key of that child is among the assignments `added`. -/
def BitsFrom (t : QuadTree) (added : NodeMap) (t1 : QuadTree) : Prop :=
  ∀ p n1, t1.read p = some n1 → ∀ i, i < 3 → maskBit n1.childExists i →
    NodeMap.find added (childKey (codeOf p) i) ≠ none ∨
      ∃ n, t.read p = some n ∧ maskBit n.childExists i

/-- The call `self` returns on every node of a sound tree whose box has sides
of at most `2 ^ e` pixels; it leaves a sound tree and only adds assignments of
such boxes. -/
def Descends (e : Nat) (self : NodePtr → QuadTree → Step) : Prop :=
  ∀ (t : QuadTree) (r : NodePtr) (n : QuadTreeNode), Sound t → t.read r = some n →
    FitsIn e n.box →
    ∃ t1 added, self r t = .done t1 ∧ Sound t1 ∧ t1.nodes = added ++ t.nodes ∧
      (∀ x ∈ added, ∀ m, x.2 = Slot.val m → FitsIn e m.box) ∧ BitsFrom t added t1

/-- The first loop of the call on `r` has stored, for a quadrant below `m`,
a child under the key of the node it runs on. -/
def Overwrote (B : QuadBoundingBox) (r : NodePtr) (m : Nat) : Prop :=
  ∃ k, r = .entry k ∧ ∃ j, j < m ∧ skipQuadrant B j = false ∧ childKey k j = k

/-- State of the first loop of `splitNode`, run from the sound tree `t` on the
node `n` behind `r`, once the quadrants below `m` are handled; no assumption
on the keys. -/
def FirstLoopGen (t : QuadTree) (r : NodePtr) (n : QuadTreeNode) (e m : Nat)
    (s : QuadTree) : Prop :=
  ∃ added cur, s.nodes = added ++ t.nodes ∧ Sound s ∧ s.read r = some cur ∧
    FitsIn (e + 1) cur.box ∧ (Overwrote n.box r m ∨ cur.box = n.box) ∧
    (∀ x ∈ added, ∀ mm, x.2 = Slot.val mm →
      FitsIn (e + 1) mm.box ∧ (r ≠ .entry x.1 → FitsIn e mm.box)) ∧
    BitsFrom t added s ∧
    (∀ i, i < 3 → maskBit cur.childExists i →
      NodeMap.find added (childKey (codeOf r) i) ≠ none ∨
        (¬ Overwrote n.box r m ∧ m ≤ i ∧ maskBit n.childExists i))

/-- State of the second loop of `splitNode`, run from the sound tree `t` on
the node behind `r`; no assumption on the keys. -/
def SecondLoopGen (t : QuadTree) (r : NodePtr) (e : Nat) (s : QuadTree) : Prop :=
  ∃ added, s.nodes = added ++ t.nodes ∧ Sound s ∧
    (∀ x ∈ added, ∀ mm, x.2 = Slot.val mm →
      FitsIn (e + 1) mm.box ∧ (r ≠ .entry x.1 → FitsIn e mm.box)) ∧
    BitsFrom t added s ∧ (∃ cur, s.read r = some cur) ∧
    (∀ cur, s.read r = some cur → ∀ i, i < 3 → maskBit cur.childExists i →
      NodeMap.find added (childKey (codeOf r) i) ≠ none)

/-- The body of `splitNode` with `self` for the recursive call. -/
def splitBody (self : NodePtr → QuadTree → Step) (node : NodePtr) (t : QuadTree) : Step :=
  match t.read node with
  | none => .stuck .indeterminate t
  | some n =>
    let box := n.box
    if int32 (box.xr - box.xl) ≤ 1 ∧ int32 (box.yr - box.yl) ≤ 1 then .done t
    else
      let created :=
        [0, 1, 2, 3].foldl (fun s i => s.andThen (createChild box node i)) (.done t)
      [0, 1, 2].foldl (fun s i => s.andThen (descend self node i)) created

/-- A call that may only be stopped by the leaf test: it creates no node. -/
def leafCall (node : NodePtr) (t : QuadTree) : Step :=
  match t.read node with
  | none => .stuck .indeterminate t
  | some n =>
    let box := n.box
    if int32 (box.xr - box.xl) ≤ 1 ∧ int32 (box.yr - box.yl) ≤ 1 then .done t else .stuck .fuel t

/-- `splitNode` with at most `depth` levels of subdividing calls: a call nested
`depth` levels below the first one has to be stopped by the leaf test. -/
def splitWithin : Nat → NodePtr → QuadTree → Step
  | 0 => leafCall
  | depth + 1 => splitBody (splitWithin depth)

/-- `buildQuadTree` with `splitWithin` for `splitNode`. -/
def buildWithin (depth : Nat) (width height : Int) : Step :=
  let root : QuadTreeNode :=
    { box := ⟨0, width, 0, height, (int32 (width + 1)).tdiv 2, (int32 (height + 1)).tdiv 2⟩,
      z := FLT_MIN,
      locCode := 1, childExists := 0 }
  splitWithin depth .root { width := width, height := height, root := root, nodes := [] }

/-- What every state of a construction satisfies, for any width and height:
a node has the code of its pointer, no slot of the map is default constructed,
and the key of every child whose bit is set in a mask is in the map. -/
def Linked (t : QuadTree) : Prop :=
  (∀ p n, t.read p = some n → n.locCode = codeOf p) ∧
    (∀ k, t.nodes.find k ≠ none → ∃ n, t.read (.entry k) = some n) ∧
    (∀ p n, t.read p = some n → ∀ i, i < 4 → maskBit n.childExists i →
      t.nodes.find (childKey (codeOf p) i) ≠ none)

/-- The region that the specification gives quadrant `i` of a node of region
`B`: in x the range `[xl, centerX)` when bit 0 of `i` is 0 and `[centerX, xr)`
when it is 1, in y the range `[yl, centerY)` when bit 1 of `i` is 0 and
`[centerY, yr)` when it is 1, and as centre `((lo + hi + 1) / 2)` of its own
bounds on each axis, `/` being the division of `int`. -/
def IsQuadrantOf (B : QuadBoundingBox) (i : Nat) (C : QuadBoundingBox) : Prop :=
  C.xl = (if i.testBit 0 then B.centerX else B.xl) ∧
    C.xr = (if i.testBit 0 then B.xr else B.centerX) ∧
    C.yl = (if i.testBit 1 then B.centerY else B.yl) ∧
    C.yr = (if i.testBit 1 then B.yr else B.centerY) ∧
    C.centerX = (C.xl + C.xr + 1).tdiv 2 ∧ C.centerY = (C.yl + C.yr + 1).tdiv 2

/-! ## `Object3D::setParent` (`object3d.h`, `object3d.cpp`) -/

/-- Mirror of the data members of `class Object3D` that `setParent` uses. A
value of type `Object3D*` is the address of an object, or `none` for
`nullptr`; `_children` is the `std::list<Object3D*>`. -/
structure Object3D where
  _parent : Option Nat
  _children : List Nat
deriving DecidableEq, Repr

/-- The objects in memory, by address. -/
abbrev Heap := Nat → Object3D

/-- Memory with the object at address `a` replaced. -/
def Heap.store (h : Heap) (a : Nat) (o : Object3D) : Heap :=
  fun b => if b = a then o else h b

/-- Outcome of a call of a member function of `Object3D`. -/
inductive Outcome where
  | returned (h : Heap) : Outcome
  | nullDereference (h : Heap) : Outcome

/-- `Object3D::getParent`. -/
def Object3D.getParent (h : Heap) (self : Nat) : Option Nat :=
  (h self)._parent

/-- `Object3D::setParent` called on the object at address `self`. The
`assert` on a string literal has no effect. `std::list::remove` removes every
element equal to its argument. The statement `parent->_children.push_back(this)`
runs whatever `parent` is; through a null pointer it is undefined behaviour,
`Outcome.nullDereference` with the memory reached until then. -/
def Object3D.setParent (h : Heap) (self : Nat) (parent : Option Nat) (stayInWorld : Bool) :
    Outcome :=
  let already : Bool :=
    match parent with
    | some p => (h p)._children.any (fun child => child == self)
    | none => false
  if already then .returned h
  else
    let h0 : Heap := if stayInWorld then h else h
    let h1 : Heap :=
      match (h0 self)._parent with
      | some q => h0.store q { h0 q with _children := (h0 q)._children.filter (fun c => c != self) }
      | none => h0
    match parent with
    | none => .nullDereference h1
    | some p =>
      let h2 := h1.store p { h1 p with _children := (h1 p)._children ++ [self] }
      .returned (h2.store self { h2 self with _parent := some p })
/-! ## The node map -/

theorem find_assign (m : NodeMap) (key : Nat) (v : Slot) (k : Nat) :
    (m.assign key v).find k = if key = k then some v else m.find k := rfl

theorem find_cons (m : NodeMap) (key : Nat) (v : Slot) (k : Nat) :
    NodeMap.find ((key, v) :: m) k = if key = k then some v else m.find k := rfl

theorem find_nil (k : Nat) : NodeMap.find [] k = none := rfl

theorem mem_of_find {m : NodeMap} {k : Nat} {s : Slot} (h : m.find k = some s) :
    (k, s) ∈ m := by
  induction m with
  | nil => simp [NodeMap.find] at h
  | cons p rest ih =>
    obtain ⟨k', v⟩ := p
    rw [find_cons] at h
    by_cases hk : k' = k
    · simp only [hk, if_true, Option.some.injEq] at h
      subst hk; subst h
      exact List.mem_cons_self _ _
    · simp only [hk, if_false] at h
      exact List.mem_cons_of_mem _ (ih h)

/-! ## `int` arithmetic -/

theorem int32_eq {n : Int} (h0 : -2 ^ 31 ≤ n) (h1 : n < 2 ^ 31) : int32 n = n := by
  unfold int32
  norm_num at h0 h1 ⊢
  omega

theorem int32_range (n : Int) : -2 ^ 31 ≤ int32 n ∧ int32 n < 2 ^ 31 := by
  unfold int32
  norm_num
  omega

theorem centerOf_eq {lo hi : Int} (h0 : -2 ^ 31 < lo + hi) (h1 : lo + hi + 1 < 2 ^ 31) :
    centerOf lo hi = (lo + hi + 1).tdiv 2 := by
  unfold centerOf
  norm_num at h0 h1
  rw [int32_eq (n := lo + hi) (by norm_num; omega) (by norm_num; omega),
    int32_eq (n := lo + hi + 1) (by norm_num; omega) (by norm_num; omega)]

theorem leafTest_iff {B : QuadBoundingBox} (hx0 : -2 ^ 31 ≤ B.xr - B.xl)
    (hx1 : B.xr - B.xl < 2 ^ 31) (hy0 : -2 ^ 31 ≤ B.yr - B.yl) (hy1 : B.yr - B.yl < 2 ^ 31) :
    leafTest B ↔ isLeafBox B := by
  unfold leafTest isLeafBox
  rw [int32_eq hx0 hx1, int32_eq hy0 hy1]

theorem leafTest_of_ok {B : QuadBoundingBox} (hB : BoxOK B) : leafTest B ↔ isLeafBox B := by
  obtain ⟨h1, h2, h3, h4, -, -, h7, h8⟩ := hB
  norm_num at h7 h8
  exact leafTest_iff (by norm_num; omega) (by norm_num; omega) (by norm_num; omega)
    (by norm_num; omega)

/-! ## Location-code arithmetic -/

theorem shift_or (c i : Nat) (h : i < 4) : (c <<< 2) ||| i = 4 * c + i := by
  rw [Nat.shiftLeft_eq, Nat.mul_comm, ← Nat.mul_add_lt_is_or (by omega : i < 2 ^ 2)]

theorem childCode (c i : Nat) (h : i < 4) (hc : 4 * c + 3 < 2 ^ 32) :
    uint32 ((c <<< 2) ||| i) = 4 * c + i := by
  rw [shift_or c i h, uint32]
  exact Nat.mod_eq_of_lt (by omega)

theorem shiftRight_two (c : Nat) : c >>> 2 = c / 4 := by
  rw [Nat.shiftRight_eq_div_pow]

theorem div_pow_succ (k j : Nat) : k / 4 ^ (j + 1) = k / 4 / 4 ^ j := by
  rw [pow_succ', Nat.div_div_eq_div_mul]

theorem div_pow_succ_right (k j : Nat) : k / 4 ^ (j + 1) = k / 4 ^ j / 4 := by
  rw [pow_succ, Nat.div_div_eq_div_mul]

theorem Under.refl (c : Nat) : Under c c := ⟨0, by simp⟩

theorem Under.le {c k : Nat} (h : Under c k) : c ≤ k := by
  obtain ⟨j, rfl⟩ := h
  exact Nat.div_le_self _ _

theorem Under.parent {c k : Nat} (h : Under c (k / 4)) : Under c k := by
  obtain ⟨j, hj⟩ := h
  exact ⟨j + 1, by rw [div_pow_succ, hj]⟩

theorem Under.of_child {c i k : Nat} (hi : i < 4) (h : Under (4 * c + i) k) : Under c k := by
  obtain ⟨j, hj⟩ := h
  exact ⟨j + 1, by rw [div_pow_succ_right, hj]; omega⟩

theorem Under.step {c k : Nat} (h : Under c k) (hne : k ≠ c) : Under c (k / 4) := by
  obtain ⟨j, hj⟩ := h
  cases j with
  | zero => simp at hj; exact absurd hj hne
  | succ j => exact ⟨j, by rw [← div_pow_succ]; exact hj⟩

theorem Under.child {c k : Nat} (h : Under c k) (hne : k ≠ c) :
    ∃ i, i < 4 ∧ Under (4 * c + i) k := by
  obtain ⟨j, hj⟩ := h
  cases j with
  | zero => simp at hj; exact absurd hj hne
  | succ j =>
    refine ⟨k / 4 ^ j % 4, Nat.mod_lt _ (by decide), j, ?_⟩
    rw [div_pow_succ_right] at hj
    omega

theorem Under.sibling {c i i' k : Nat} (hc : 1 ≤ c) (hi : i < 4) (hi' : i' < 4)
    (h : Under (4 * c + i) k) (h' : Under (4 * c + i') k) : i = i' := by
  obtain ⟨j, hj⟩ := h
  obtain ⟨j', hj'⟩ := h'
  have key : ∀ (a b m : Nat), a / 4 = c → 4 * c ≤ b → a / 4 ^ (m + 1) = b → False := by
    intro a b m ha hb hab
    rw [div_pow_succ, ha] at hab
    have := Nat.div_le_self c (4 ^ m)
    omega
  rcases Nat.lt_trichotomy j j' with hlt | heq | hgt
  · obtain ⟨m, rfl⟩ : ∃ m, j' = j + (m + 1) := ⟨j' - j - 1, by omega⟩
    rw [pow_add, ← Nat.div_div_eq_div_mul, hj] at hj'
    exact (key (4 * c + i) (4 * c + i') m (by omega) (by omega) hj').elim
  · subst heq; omega
  · obtain ⟨m, rfl⟩ : ∃ m, j = j' + (m + 1) := ⟨j - j' - 1, by omega⟩
    rw [pow_add, ← Nat.div_div_eq_div_mul, hj'] at hj
    exact (key (4 * c + i') (4 * c + i) m (by omega) (by omega) hj).elim

theorem Under.rec_on {a : Nat} {P : Nat → Prop} (base : P a)
    (step : ∀ k, Under a (k / 4) → P (k / 4) → P k) : ∀ {k}, Under a k → P k := by
  intro k h
  obtain ⟨j, hj⟩ := h
  induction j generalizing k with
  | zero => simp at hj; exact hj ▸ base
  | succ j ih =>
    rw [div_pow_succ] at hj
    exact step k ⟨j, hj⟩ (ih hj)

/-! ## The boxes of the tree -/

theorem boxUnder_self (c : Nat) (B : QuadBoundingBox) : boxUnder c B c = some B := by
  rw [boxUnder]; simp

theorem boxUnder_zero {c : Nat} (B : QuadBoundingBox) (hc : c ≠ 0) : boxUnder c B 0 = none := by
  rw [boxUnder]; simp [Ne.symm hc]

theorem boxUnder_step {c : Nat} (B : QuadBoundingBox) {k : Nat} (hk : k ≠ c) (h0 : k ≠ 0) :
    boxUnder c B k =
      match boxUnder c B (k / 4) with
      | none => none
      | some Bp =>
        if isLeafBox Bp ∨ (k / 4 ≠ c ∧ (k / 4) % 4 = 3) ∨ skipQuadrant Bp (k % 4) = true then none
        else some (childBox Bp (k % 4)) := by
  rw [boxUnder]; simp only [hk, h0, if_false]

theorem boxUnder_none_of_parent {c : Nat} {B : QuadBoundingBox} {k : Nat} (hk : k ≠ c)
    (h : boxUnder c B (k / 4) = none) : boxUnder c B k = none := by
  by_cases h0 : k = 0
  · subst h0; exact boxUnder_zero B (Ne.symm hk)
  · rw [boxUnder_step B hk h0, h]

theorem boxUnder_inv {c : Nat} {B : QuadBoundingBox} {k : Nat} {Bk : QuadBoundingBox}
    (hk : k ≠ c) (h : boxUnder c B k = some Bk) :
    ∃ Bp, boxUnder c B (k / 4) = some Bp ∧ ¬ isLeafBox Bp ∧ (k / 4 = c ∨ (k / 4) % 4 ≠ 3) ∧
      skipQuadrant Bp (k % 4) = false ∧ Bk = childBox Bp (k % 4) := by
  by_cases h0 : k = 0
  · subst h0; rw [boxUnder_zero B (Ne.symm hk)] at h; cases h
  · rw [boxUnder_step B hk h0] at h
    cases hp : boxUnder c B (k / 4) with
    | none => rw [hp] at h; cases h
    | some Bp =>
      rw [hp] at h
      simp only at h
      split at h
      · cases h
      · rename_i hcond
        simp only [not_or, not_and, Bool.not_eq_true] at hcond
        refine ⟨Bp, rfl, hcond.1, ?_, hcond.2.2, (Option.some.inj h).symm⟩
        by_cases hc : k / 4 = c
        · exact Or.inl hc
        · exact Or.inr (hcond.2.1 hc)

theorem boxUnder_under {c : Nat} {B : QuadBoundingBox} :
    ∀ {k : Nat} {Bk : QuadBoundingBox}, boxUnder c B k = some Bk → Under c k := by
  intro k
  induction k using Nat.strong_induction_on with
  | _ k ih =>
    intro Bk h
    by_cases hk : k = c
    · subst hk; exact Under.refl _
    · obtain ⟨Bp, hp, -⟩ := boxUnder_inv hk h
      have h0 : k ≠ 0 := by
        rintro rfl
        rw [boxUnder_zero B (Ne.symm hk)] at h; cases h
      exact Under.parent (ih (k / 4) (by omega) hp)

theorem boxUnder_none_of_not_under {c : Nat} {B : QuadBoundingBox} {k : Nat}
    (h : ¬ Under c k) : boxUnder c B k = none := by
  cases hb : boxUnder c B k with
  | none => rfl
  | some Bk => exact absurd (boxUnder_under hb) h

theorem boxUnder_child {c : Nat} {B : QuadBoundingBox} {p i : Nat} {Bp : QuadBoundingBox}
    (hc : 1 ≤ c) (hp : boxUnder c B p = some Bp) (hl : ¬ isLeafBox Bp)
    (h3 : p = c ∨ p % 4 ≠ 3) (hi : i < 4) (hs : skipQuadrant Bp i = false) :
    boxUnder c B (4 * p + i) = some (childBox Bp i) := by
  have hle := (boxUnder_under hp).le
  have hdiv : (4 * p + i) / 4 = p := by omega
  have hmod : (4 * p + i) % 4 = i := by omega
  rw [boxUnder_step B (by omega) (by omega), hdiv, hmod, hp]
  simp only
  rw [if_neg]
  simp only [not_or, not_and, Bool.not_eq_true]
  exact ⟨hl, fun hne => by rcases h3 with h | h; exact absurd h hne; exact h, hs⟩

/-- Below a child on which `splitNode` recurses, the tree of the parent is the
tree of the child. -/
theorem boxUnder_descend {c : Nat} {B : QuadBoundingBox} {i : Nat} (hc : 1 ≤ c) (hi : i < 3)
    (hl : ¬ isLeafBox B) (hs : skipQuadrant B i = false) :
    ∀ {k : Nat}, Under (4 * c + i) k →
      boxUnder c B k = boxUnder (4 * c + i) (childBox B i) k := by
  intro k hk
  refine Under.rec_on (P := fun k => Under (4 * c + i) k →
      boxUnder c B k = boxUnder (4 * c + i) (childBox B i) k) ?_ ?_ hk hk
  · intro _
    rw [boxUnder_self]
    have := boxUnder_child (p := c) (i := i) hc (boxUnder_self c B) hl (Or.inl rfl) (by omega) hs
    exact this
  · intro k hpar ih hk
    by_cases hself : k = 4 * c + i
    · subst hself
      rw [boxUnder_self]
      exact boxUnder_child (p := c) hc (boxUnder_self c B) hl (Or.inl rfl) (by omega) hs
    · have hle := hpar.le
      have hk0 : k ≠ 0 := by omega
      have hkc : k ≠ c := by omega
      rw [boxUnder_step B hkc hk0, boxUnder_step _ hself hk0, ih hpar]
      cases boxUnder (4 * c + i) (childBox B i) (k / 4) with
      | none => rfl
      | some Bp =>
        simp only
        have e1 : (k / 4 ≠ c ∧ k / 4 % 4 = 3) ↔ (k / 4 ≠ 4 * c + i ∧ k / 4 % 4 = 3) := by
          constructor
          · rintro ⟨-, h⟩; exact ⟨by omega, h⟩
          · rintro ⟨-, h⟩; exact ⟨by omega, h⟩
        simp only [e1]

/-- Nothing lies below a quadrant that was skipped, below a leaf-sized node, or
below the fourth quadrant. -/
theorem boxUnder_barren {c : Nat} {B : QuadBoundingBox} {i : Nat} (hc : 1 ≤ c) (hi : i < 4)
    (h : isLeafBox B ∨ skipQuadrant B i = true ∨ i = 3) :
    ∀ {k : Nat}, Under (4 * c + i) k → k ≠ 4 * c + i → boxUnder c B k = none := by
  have first : (isLeafBox B ∨ skipQuadrant B i = true) → boxUnder c B (4 * c + i) = none := by
    intro h'
    have hdiv : (4 * c + i) / 4 = c := by omega
    have hmod : (4 * c + i) % 4 = i := by omega
    rw [boxUnder_step B (by omega) (by omega), hdiv, hmod, boxUnder_self]
    simp only
    rw [if_pos]
    rcases h' with h' | h'
    · exact Or.inl h'
    · exact Or.inr (Or.inr h')
  intro k hk
  refine Under.rec_on (P := fun k => k ≠ 4 * c + i → boxUnder c B k = none) ?_ ?_ hk
  · intro h'; exact absurd rfl h'
  · intro k hpar ih hne
    have hle := hpar.le
    by_cases hself : k / 4 = 4 * c + i
    · rcases h with h | h | h
      · exact boxUnder_none_of_parent (by omega) (hself ▸ first (Or.inl h))
      · exact boxUnder_none_of_parent (by omega) (hself ▸ first (Or.inr h))
      · rw [boxUnder_step B (by omega) (by omega)]
        cases boxUnder c B (k / 4) with
        | none => rfl
        | some Bp =>
          simp only
          rw [if_pos]
          exact Or.inr (Or.inl ⟨by omega, by omega⟩)
    · exact boxUnder_none_of_parent (by omega) (ih hself)

theorem boxUnder_barren_self {c : Nat} {B : QuadBoundingBox} {i : Nat} (hc : 1 ≤ c) (hi : i < 4)
    (h : isLeafBox B ∨ skipQuadrant B i = true) : boxUnder c B (4 * c + i) = none := by
  have hdiv : (4 * c + i) / 4 = c := by omega
  have hmod : (4 * c + i) % 4 = i := by omega
  rw [boxUnder_step B (by omega) (by omega), hdiv, hmod, boxUnder_self]
  simp only
  rw [if_pos]
  rcases h with h | h
  · exact Or.inl h
  · exact Or.inr (Or.inr h)

theorem boxUnder_leaf {c : Nat} {B : QuadBoundingBox} (hc : 1 ≤ c) (hl : isLeafBox B)
    {k : Nat} (hk : k ≠ c) : boxUnder c B k = none := by
  by_cases hu : Under c k
  · obtain ⟨i, hi, hui⟩ := hu.child hk
    by_cases hself : k = 4 * c + i
    · subst hself; exact boxUnder_barren_self hc hi (Or.inl hl)
    · exact boxUnder_barren hc hi (Or.inl hl) hui hself
  · exact boxUnder_none_of_not_under hu

/-! ## The first loop of `splitNode` -/

theorem skipQuadrant_zero (B : QuadBoundingBox) : skipQuadrant B 0 = false := by
  simp [skipQuadrant]

theorem skipQuadrant_one (B : QuadBoundingBox) :
    skipQuadrant B 1 = decide (B.xr ≤ B.centerX) := by
  simp [skipQuadrant]

theorem skipQuadrant_two (B : QuadBoundingBox) :
    skipQuadrant B 2 = decide (B.yr ≤ B.centerY) := by
  simp [skipQuadrant]

theorem skipQuadrant_three (B : QuadBoundingBox) :
    skipQuadrant B 3 = (decide (B.xr ≤ B.centerX) || decide (B.yr ≤ B.centerY)) := by
  simp [skipQuadrant]

theorem read_root (t : QuadTree) : t.read .root = some t.root := rfl

theorem read_entry (t : QuadTree) (k : Nat) :
    t.read (.entry k) = match t.nodes.find k with
      | some (.val n) => some n
      | _ => none := rfl

theorem read_entry_of_find {t : QuadTree} {k : Nat} {n : QuadTreeNode}
    (h : t.nodes.find k = some (.val n)) : t.read (.entry k) = some n := by
  rw [read_entry, h]

theorem find_of_read_entry {t : QuadTree} {k : Nat} {n : QuadTreeNode}
    (h : t.read (.entry k) = some n) : t.nodes.find k = some (.val n) := by
  rw [read_entry] at h
  split at h
  · rename_i m hm; cases h; exact hm
  · cases h

theorem createChild_skip {t : QuadTree} {r : NodePtr} {i : Nat} (B : QuadBoundingBox)
    (hs : skipQuadrant B i = true) : createChild B r i t = .done t := by
  simp only [createChild, hs, if_true]

theorem createChild_eq {t : QuadTree} {r : NodePtr} {n : QuadTreeNode} {i : Nat}
    (B : QuadBoundingBox) (hread : t.read r = some n) (hs : skipQuadrant B i = false) :
    createChild B r i t = .done
      { t.write r { n with childExists := uint8 (n.childExists ||| (1 <<< i)) } with
        nodes := (t.write r { n with childExists := uint8 (n.childExists ||| (1 <<< i)) }
          ).nodes.assign (uint32 ((n.locCode <<< 2) ||| i))
            (.val ⟨childBox B i, n.z, uint32 ((n.locCode <<< 2) ||| i), 0⟩) } := by
  simp only [createChild, hs, hread, Bool.false_eq_true, if_false]

/-- One quadrant that is not skipped: the node gets the bit, the map gets the
child, nothing else changes. -/
theorem createChild_spec {t : QuadTree} {r : NodePtr} {n : QuadTreeNode} {c i : Nat}
    (B : QuadBoundingBox) (hread : t.read r = some n) (hloc : n.locCode = c)
    (hr : r = .root ∨ r = .entry c) (hc : 1 ≤ c) (hcode : 4 * c + 3 < 2 ^ 32) (hi : i < 4)
    (hs : skipQuadrant B i = false) :
    ∃ t1, createChild B r i t = .done t1 ∧ t1.width = t.width ∧ t1.height = t.height ∧
      t1.read r = some { n with childExists := uint8 (n.childExists ||| (1 <<< i)) } ∧
      (r ≠ .root → t1.root = t.root) ∧
      t1.nodes.find (4 * c + i) = some (.val ⟨childBox B i, n.z, 4 * c + i, 0⟩) ∧
      (∀ k, k ≠ c → k ≠ 4 * c + i → t1.nodes.find k = t.nodes.find k) ∧
      (r = .root → ∀ k, k ≠ 4 * c + i → t1.nodes.find k = t.nodes.find k) := by
  have hcode' : uint32 ((n.locCode <<< 2) ||| i) = 4 * c + i := by
    rw [hloc]; exact childCode c i hi hcode
  refine ⟨_, createChild_eq B hread hs, ?_⟩
  rcases hr with rfl | rfl
  · refine ⟨rfl, rfl, ?_, ?_, ?_, ?_, ?_⟩
    · simp [QuadTree.read, QuadTree.write]
    · intro h; exact absurd rfl h
    · simp [QuadTree.write, find_assign, hcode']
    · intro k _ hk
      simp [QuadTree.write, find_assign, hcode', Ne.symm hk]
    · intro _ k hk
      simp [QuadTree.write, find_assign, hcode', Ne.symm hk]
  · refine ⟨rfl, rfl, ?_, ?_, ?_, ?_, ?_⟩
    · have : 4 * c + i ≠ c := by omega
      simp [QuadTree.read, QuadTree.write, find_assign, hcode', this]
    · intro _; rfl
    · simp [QuadTree.write, find_assign, hcode']
    · intro k hk hk'
      simp [QuadTree.write, find_assign, hcode', Ne.symm hk, Ne.symm hk']
    · intro h; cases h

theorem partialMask_succ (B : QuadBoundingBox) (m : Nat) :
    partialMask B (m + 1) =
      if skipQuadrant B m then partialMask B m
      else uint8 (partialMask B m ||| (1 <<< m)) := by
  simp [partialMask, List.range_succ, List.foldl_append]

theorem firstLoop_start {t : QuadTree} {r : NodePtr} {n : QuadTreeNode} (c : Nat)
    (hread : t.read r = some n) (hce : n.childExists = 0) : FirstLoopInv t r n c 0 t := by
  refine ⟨rfl, rfl, ?_, fun _ => rfl, ?_, fun _ _ _ => rfl, fun _ _ _ => rfl⟩
  · rw [hread]
    have : partialMask n.box 0 = n.childExists := by rw [hce]; rfl
    rw [this]
  · intro i hi; omega

theorem firstLoop_step {t : QuadTree} {r : NodePtr} {n : QuadTreeNode} {c m : Nat}
    {t1 : QuadTree} (hloc : n.locCode = c) (hr : r = .root ∨ r = .entry c) (hc : 1 ≤ c)
    (hcode : 4 * c + 3 < 2 ^ 32) (hm : m < 4) (h : FirstLoopInv t r n c m t1) :
    ∃ t2, createChild n.box r m t1 = .done t2 ∧ FirstLoopInv t r n c (m + 1) t2 := by
  obtain ⟨hw, hh, hrd, hroot, hkids, hframe, hframe'⟩ := h
  cases hs : skipQuadrant n.box m with
  | true =>
    refine ⟨t1, createChild_skip n.box hs, hw, hh, ?_, hroot, ?_, ?_, ?_⟩
    · rw [hrd, partialMask_succ, hs]; rfl
    · intro i hi hsi
      have : i ≠ m := by rintro rfl; rw [hs] at hsi; cases hsi
      exact hkids i (by omega) hsi
    · intro k hk hne
      exact hframe k hk (fun i hi hsi => hne i (by omega) hsi)
    · intro hrr k hne
      exact hframe' hrr k (fun i hi hsi => hne i (by omega) hsi)
  | false =>
    obtain ⟨t2, h2, hw2, hh2, hrd2, hroot2, hkid2, hfr2, hfr2'⟩ :=
      createChild_spec (i := m) n.box hrd hloc hr hc hcode hm hs
    refine ⟨t2, h2, hw2.trans hw, hh2.trans hh, ?_, ?_, ?_, ?_, ?_⟩
    · rw [hrd2, partialMask_succ, hs]; rfl
    · intro h; rw [hroot2 h, hroot h]
    · intro i hi hsi
      by_cases him : i = m
      · subst him; exact hkid2
      · rw [hfr2 _ (by omega) (by omega)]
        exact hkids i (by omega) hsi
    · intro k hk hne
      rw [hfr2 k hk (hne m (by omega) hs)]
      exact hframe k hk (fun i hi hsi => hne i (by omega) hsi)
    · intro hrr k hne
      rw [hfr2' hrr k (hne m (by omega) hs)]
      exact hframe' hrr k (fun i hi hsi => hne i (by omega) hsi)

/-- The first loop of `splitNode` on a node whose mask is `0`. -/
theorem firstLoop_spec {t : QuadTree} {r : NodePtr} {n : QuadTreeNode} {c : Nat}
    (hread : t.read r = some n) (hce : n.childExists = 0) (hloc : n.locCode = c)
    (hr : r = .root ∨ r = .entry c) (hc : 1 ≤ c) (hcode : 4 * c + 3 < 2 ^ 32) :
    ∃ t1, [0, 1, 2, 3].foldl (fun (s : Step) i => s.andThen (createChild n.box r i)) (.done t) =
        .done t1 ∧
      FirstLoopInv t r n c 4 t1 := by
  obtain ⟨t1, e1, h1⟩ := firstLoop_step hloc hr hc hcode (by decide) (firstLoop_start c hread hce)
  obtain ⟨t2, e2, h2⟩ := firstLoop_step hloc hr hc hcode (by decide) h1
  obtain ⟨t3, e3, h3⟩ := firstLoop_step hloc hr hc hcode (by decide) h2
  obtain ⟨t4, e4, h4⟩ := firstLoop_step hloc hr hc hcode (by decide) h3
  refine ⟨t4, ?_, h4⟩
  simp only [List.foldl, Step.andThen, e1, e2, e3, e4]

theorem childMask_eq (B : QuadBoundingBox) :
    childMask B =
      if B.xr ≤ B.centerX then (if B.yr ≤ B.centerY then 1 else 5)
      else (if B.yr ≤ B.centerY then 3 else 15) := by
  have e : childMask B = partialMask B (0 + 1 + 1 + 1 + 1) := rfl
  have e0 : partialMask B 0 = 0 := rfl
  rw [e, partialMask_succ, partialMask_succ, partialMask_succ, partialMask_succ, e0]
  by_cases hx : B.xr ≤ B.centerX <;> by_cases hy : B.yr ≤ B.centerY <;>
    simp [skipQuadrant_zero, skipQuadrant_one, skipQuadrant_two, skipQuadrant_three, hx, hy,
      uint8]

theorem childMask_bit (B : QuadBoundingBox) {i : Nat} (hi : i < 4) :
    childMask B &&& (1 <<< i) ≠ 0 ↔ skipQuadrant B i = false := by
  rw [childMask_eq]
  have h4 : i = 0 ∨ i = 1 ∨ i = 2 ∨ i = 3 := by omega
  rcases h4 with rfl | rfl | rfl | rfl <;>
    by_cases hx : B.xr ≤ B.centerX <;> by_cases hy : B.yr ≤ B.centerY <;>
    simp [skipQuadrant_zero, skipQuadrant_one, skipQuadrant_two, skipQuadrant_three, hx, hy] <;>
    decide

theorem childMask_pos (B : QuadBoundingBox) : childMask B ≠ 0 := by
  rw [childMask_eq]
  by_cases hx : B.xr ≤ B.centerX <;> by_cases hy : B.yr ≤ B.centerY <;> simp [hx, hy]

/-! ## Geometry of the quadrants -/

theorem tdiv_two {a : Int} (h : 0 ≤ a) : a.tdiv 2 = a / 2 :=
  Int.tdiv_eq_ediv h (by decide)

theorem four_cases {i : Nat} (hi : i < 4) : i = 0 ∨ i = 1 ∨ i = 2 ∨ i = 3 := by omega

theorem childBox_ok {B : QuadBoundingBox} {i : Nat} (hB : BoxOK B) (hi : i < 4)
    (hs : skipQuadrant B i = false) : BoxOK (childBox B i) := by
  obtain ⟨h1, h2, h3, h4, h5, h6, h7, h8⟩ := hB
  norm_num at h7 h8
  have tx0 : centerOf B.xl B.centerX = (B.xl + B.centerX + 1) / 2 := by
    rw [centerOf_eq (by norm_num; omega) (by norm_num; omega), tdiv_two (by omega)]
  have tx1 : centerOf B.centerX B.xr = (B.centerX + B.xr + 1) / 2 := by
    rw [centerOf_eq (by norm_num; omega) (by norm_num; omega), tdiv_two (by omega)]
  have ty0 : centerOf B.yl B.centerY = (B.yl + B.centerY + 1) / 2 := by
    rw [centerOf_eq (by norm_num; omega) (by norm_num; omega), tdiv_two (by omega)]
  have ty1 : centerOf B.centerY B.yr = (B.centerY + B.yr + 1) / 2 := by
    rw [centerOf_eq (by norm_num; omega) (by norm_num; omega), tdiv_two (by omega)]
  rcases four_cases hi with rfl | rfl | rfl | rfl
  · simp only [childBox, BoxOK]
    refine ⟨h1, by omega, h3, by omega, tx0, ty0, by norm_num; omega, by norm_num; omega⟩
  · simp only [skipQuadrant_one, decide_eq_false_iff_not] at hs
    simp only [childBox, BoxOK]
    refine ⟨by omega, by omega, h3, by omega, tx1, ty0, by norm_num; omega, by norm_num; omega⟩
  · simp only [skipQuadrant_two, decide_eq_false_iff_not] at hs
    simp only [childBox, BoxOK]
    refine ⟨h1, by omega, by omega, by omega, tx0, ty1, by norm_num; omega, by norm_num; omega⟩
  · simp only [skipQuadrant_three, Bool.or_eq_false_iff, decide_eq_false_iff_not] at hs
    simp only [childBox, BoxOK]
    refine ⟨by omega, by omega, by omega, by omega, tx1, ty1, by norm_num; omega,
      by norm_num; omega⟩

theorem childBox_fits {B : QuadBoundingBox} {e i : Nat} (hB : BoxOK B) (hf : FitsIn (e + 1) B)
    (hi : i < 4) : FitsIn e (childBox B i) := by
  obtain ⟨h1, h2, h3, h4, h5, h6⟩ := hB
  obtain ⟨f1, f2⟩ := hf
  have hp : (2 : Int) ^ (e + 1) = 2 * 2 ^ e := by ring
  rw [hp] at f1 f2
  rcases four_cases hi with rfl | rfl | rfl | rfl <;>
    simp only [childBox, FitsIn] <;> constructor <;> omega

theorem fitsIn_zero_leaf {B : QuadBoundingBox} (hf : FitsIn 0 B) : isLeafBox B := by
  obtain ⟨f1, f2⟩ := hf
  simp only [pow_zero] at f1 f2
  exact ⟨f1, f2⟩

theorem childBox_sub {B : QuadBoundingBox} {i : Nat} (hB : BoxOK B) (hi : i < 4) {x y : Int}
    (h : (childBox B i).contains x y) : B.contains x y := by
  obtain ⟨h1, h2, h3, h4, h5, h6⟩ := hB
  rcases four_cases hi with rfl | rfl | rfl | rfl <;>
    simp only [childBox, QuadBoundingBox.contains] at h ⊢ <;>
    refine ⟨by omega, by omega, by omega, by omega⟩

theorem childBox_cover {B : QuadBoundingBox} (hB : BoxOK B) {x y : Int} (h : B.contains x y) :
    ∃ i, i < 4 ∧ skipQuadrant B i = false ∧ (childBox B i).contains x y := by
  obtain ⟨h1, h2, h3, h4, h5, h6⟩ := hB
  obtain ⟨c1, c2, c3, c4⟩ := h
  by_cases hx : x < B.centerX <;> by_cases hy : y < B.centerY
  · exact ⟨0, by decide, skipQuadrant_zero B, by
      simp only [childBox, QuadBoundingBox.contains]; omega⟩
  · refine ⟨2, by decide, ?_, by simp only [childBox, QuadBoundingBox.contains]; omega⟩
    simp only [skipQuadrant_two, decide_eq_false_iff_not]; omega
  · refine ⟨1, by decide, ?_, by simp only [childBox, QuadBoundingBox.contains]; omega⟩
    simp only [skipQuadrant_one, decide_eq_false_iff_not]; omega
  · refine ⟨3, by decide, ?_, by simp only [childBox, QuadBoundingBox.contains]; omega⟩
    simp only [skipQuadrant_three, Bool.or_eq_false_iff, decide_eq_false_iff_not]; omega

theorem childBox_disjoint {B : QuadBoundingBox} {i j : Nat} (hi : i < 4) (hj : j < 4)
    {x y : Int} (h : (childBox B i).contains x y) (h' : (childBox B j).contains x y) :
    i = j := by
  rcases four_cases hi with rfl | rfl | rfl | rfl <;>
    rcases four_cases hj with rfl | rfl | rfl | rfl <;>
    simp only [childBox, QuadBoundingBox.contains] at h h' <;>
    first | rfl | omega

/-- A quadrant of a node that is split misses a pixel of the node. -/
theorem childBox_strict {B : QuadBoundingBox} {i : Nat} (hB : BoxOK B) (hl : ¬ isLeafBox B)
    (hi : i < 4) : ∃ x y, B.contains x y ∧ ¬ (childBox B i).contains x y := by
  obtain ⟨h1, h2, h3, h4, h5, h6⟩ := hB
  simp only [isLeafBox, not_and_or, not_le] at hl
  rcases hl with hl | hl
  · rcases four_cases hi with rfl | rfl | rfl | rfl
    · exact ⟨B.xr - 1, B.yl, ⟨by omega, by omega, by omega, by omega⟩, by
        simp only [childBox, QuadBoundingBox.contains]; omega⟩
    · exact ⟨B.xl, B.yl, ⟨by omega, by omega, by omega, by omega⟩, by
        simp only [childBox, QuadBoundingBox.contains]; omega⟩
    · exact ⟨B.xr - 1, B.yl, ⟨by omega, by omega, by omega, by omega⟩, by
        simp only [childBox, QuadBoundingBox.contains]; omega⟩
    · exact ⟨B.xl, B.yl, ⟨by omega, by omega, by omega, by omega⟩, by
        simp only [childBox, QuadBoundingBox.contains]; omega⟩
  · rcases four_cases hi with rfl | rfl | rfl | rfl
    · exact ⟨B.xl, B.yr - 1, ⟨by omega, by omega, by omega, by omega⟩, by
        simp only [childBox, QuadBoundingBox.contains]; omega⟩
    · exact ⟨B.xl, B.yr - 1, ⟨by omega, by omega, by omega, by omega⟩, by
        simp only [childBox, QuadBoundingBox.contains]; omega⟩
    · exact ⟨B.xl, B.yl, ⟨by omega, by omega, by omega, by omega⟩, by
        simp only [childBox, QuadBoundingBox.contains]; omega⟩
    · exact ⟨B.xl, B.yl, ⟨by omega, by omega, by omega, by omega⟩, by
        simp only [childBox, QuadBoundingBox.contains]; omega⟩

/-! ## The second loop of `splitNode` -/

theorem descend_of_bit {self : NodePtr → QuadTree → Step} {t : QuadTree} {r : NodePtr}
    {n : QuadTreeNode} {i : Nat} {s : Slot} (hread : t.read r = some n)
    (hbit : n.childExists &&& (1 <<< i) ≠ 0)
    (hfind : t.nodes.find (uint32 ((n.locCode <<< 2) ||| i)) = some s) :
    descend self r i t = self (.entry (uint32 ((n.locCode <<< 2) ||| i))) t := by
  simp only [descend, hread, hbit, if_true, lookupNode, hfind, ne_eq, not_false_eq_true]

theorem descend_of_no_bit {self : NodePtr → QuadTree → Step} {t : QuadTree} {r : NodePtr}
    {n : QuadTreeNode} {i : Nat} (hread : t.read r = some n)
    (hbit : ¬ n.childExists &&& (1 <<< i) ≠ 0) : descend self r i t = .done t := by
  simp only [descend, hread, hbit, if_false]

theorem overlay_of_none {c : Nat} {B : QuadBoundingBox} {z : Rat} {m : NodeMap} {k : Nat}
    (h : boxUnder c B k = none) : overlay c B z m k = m.find k := by
  simp only [overlay, h]

theorem overlay_of_some {c : Nat} {B : QuadBoundingBox} {z : Rat} {m : NodeMap} {k : Nat}
    {Bk : QuadBoundingBox} (h : boxUnder c B k = some Bk) :
    overlay c B z m k = some (.val (specNode Bk z k)) := by
  simp only [overlay, h]

theorem childCode_bound {c e i : Nat} (hi : i < 4) (h : (c + 1) * 4 ^ (e + 1) ≤ 2 ^ 32) :
    (4 * c + i + 1) * 4 ^ e ≤ 2 ^ 32 := by
  have h1 : (4 * c + i + 1) * 4 ^ e ≤ (4 * (c + 1)) * 4 ^ e :=
    Nat.mul_le_mul_right _ (by omega)
  have h2 : (4 * (c + 1)) * 4 ^ e = (c + 1) * 4 ^ (e + 1) := by ring
  omega

theorem childCode_fits {c e : Nat} (h : (c + 1) * 4 ^ (e + 1) ≤ 2 ^ 32) :
    4 * c + 3 < 2 ^ 32 := by
  have h1 : 1 ≤ 4 ^ e := Nat.one_le_pow _ _ (by decide)
  have h2 : (c + 1) * 4 ^ (e + 1) = 4 * (c + 1) * 4 ^ e := by ring
  have h3 : 4 * (c + 1) * 1 ≤ 4 * (c + 1) * 4 ^ e := Nat.mul_le_mul_left _ h1
  omega

theorem not_under_child_self {c i : Nat} (hc : 1 ≤ c) : ¬ Under (4 * c + i) c := by
  intro h
  have := h.le
  omega

theorem not_under_sibling {c i j : Nat} (hc : 1 ≤ c) (hi : i < 4) (hj : j < 4) (hne : i ≠ j) :
    ¬ Under (4 * c + i) (4 * c + j) := by
  intro h
  exact hne (Under.sibling hc hi hj h (Under.refl _))

theorem firstLoop_untouched {t t1 : QuadTree} {r : NodePtr} {n : QuadTreeNode} {c i k : Nat}
    (h1 : FirstLoopInv t r n c 4 t1) (hc : 1 ≤ c) (hi : i < 4) (hk : k ≠ c)
    (hu : Under (4 * c + i) k) (hne : k = 4 * c + i → skipQuadrant n.box i = true) :
    t1.nodes.find k = t.nodes.find k := by
  apply h1.2.2.2.2.2.1 k hk
  intro j hj hsj hkj
  subst hkj
  have hji : i = j := Under.sibling hc hi hj hu (Under.refl _)
  subst hji
  rw [hne rfl] at hsj
  cases hsj

theorem secondLoop_start {t t1 : QuadTree} {r : NodePtr} {n : QuadTreeNode} {c : Nat}
    (hc : 1 ≤ c) (h1 : FirstLoopInv t r n c 4 t1) : SecondLoopInv t t1 r n c 0 t1 := by
  obtain ⟨hw, hh, hrd, hroot, hkids, hframe, hframe'⟩ := h1
  refine ⟨hw, hh, hrd, hroot, fun i _ hi hs => hkids i hi hs, ?_, fun _ _ _ => rfl, ?_⟩
  · rintro k _ ⟨i, hi, _⟩
    omega
  · intro hr
    exact hframe' hr c (fun i _ _ => by omega)

theorem secondLoop_step {e : Nat} {self : NodePtr → QuadTree → Step} (hself : SplitsWell e self)
    {t t1 tm : QuadTree} {r : NodePtr} {n : QuadTreeNode} {c m : Nat}
    (hloc : n.locCode = c) (hr : r = .root ∨ r = .entry c) (hc : 1 ≤ c)
    (hcode : (c + 1) * 4 ^ (e + 1) ≤ 2 ^ 32) (hB : BoxOK n.box) (hf : FitsIn (e + 1) n.box)
    (hl : ¬ isLeafBox n.box) (h1 : FirstLoopInv t r n c 4 t1) (hm : m < 3)
    (h : SecondLoopInv t t1 r n c m tm) :
    ∃ t2, descend self r m tm = .done t2 ∧ SecondLoopInv t t1 r n c (m + 1) t2 := by
  obtain ⟨hw, hh, hrd, hroot, hkids, hdone, hrest, hrootc⟩ := h
  have hfit := childCode_fits hcode
  have hcm : uint32 ((c <<< 2) ||| m) = 4 * c + m := childCode c m (by omega) hfit
  cases hs : skipQuadrant n.box m with
  | true =>
    have hbit : ¬ (childMask n.box &&& (1 <<< m) ≠ 0) := by
      rw [childMask_bit n.box (by omega : m < 4), hs]; simp
    refine ⟨tm, descend_of_no_bit hrd hbit, hw, hh, hrd, hroot, ?_, ?_, ?_, hrootc⟩
    · intro i hi
      exact hkids i (by omega)
    · rintro k hk ⟨i, hi, hu⟩
      by_cases him : i < m
      · exact hdone k hk ⟨i, him, hu⟩
      · have hime : i = m := by omega
        subst hime
        have hnot : ¬ ∃ j, j < i ∧ Under (4 * c + j) k := by
          rintro ⟨j, hj, huj⟩
          have := Under.sibling hc (by omega) (by omega) huj hu
          omega
        rw [hrest k hk hnot]
        have hnone : boxUnder c n.box k = none := by
          by_cases hself' : k = 4 * c + i
          · subst hself'; exact boxUnder_barren_self hc (by omega) (Or.inr hs)
          · exact boxUnder_barren hc (by omega) (Or.inr (Or.inl hs)) hu hself'
        rw [overlay_of_none hnone]
        exact firstLoop_untouched h1 hc (by omega) hk hu (fun _ => hs)
    · intro k hk hnot
      exact hrest k hk (fun ⟨i, hi, hu⟩ => hnot ⟨i, by omega, hu⟩)
  | false =>
    have hbit : childMask n.box &&& (1 <<< m) ≠ 0 := (childMask_bit n.box (by omega)).2 hs
    have hchild := hkids m (le_refl _) (by omega) hs
    have hdesc : descend self r m tm = self (.entry (4 * c + m)) tm := by
      have := @descend_of_bit self tm r _ m _ hrd hbit
        (by simp only [hloc, hcm]; exact hchild)
      simpa only [hloc, hcm] using this
    obtain ⟨t2, h2, hw2, hh2, hrd2, hroot2, hfind2, -⟩ :=
      hself tm (.entry (4 * c + m)) ⟨childBox n.box m, n.z, 4 * c + m, 0⟩ (4 * c + m)
        (read_entry_of_find hchild) rfl rfl (Or.inr rfl) (by omega)
        (childCode_bound (by omega) hcode) (childBox_ok hB (by omega) hs)
        (childBox_fits hB hf (by omega))
    have hout : ∀ k, ¬ Under (4 * c + m) k → t2.nodes.find k = tm.nodes.find k := by
      intro k hk
      have hne : k ≠ 4 * c + m := by rintro rfl; exact hk (Under.refl _)
      rw [hfind2 k hne, overlay_of_none (boxUnder_none_of_not_under hk)]
    have hroot2' : t2.root = tm.root := hroot2 (by simp)
    refine ⟨t2, hdesc.trans h2, hw2.trans hw, hh2.trans hh, ?_, ?_, ?_, ?_, ?_, ?_⟩
    · rcases hr with rfl | rfl
      · rw [read_root, hroot2', ← read_root]; exact hrd
      · rw [read_entry, hout c (not_under_child_self hc), ← read_entry]; exact hrd
    · intro hne
      rw [hroot2']; exact hroot hne
    · intro i hi hi4 hsi
      rw [hout _ (not_under_sibling hc (by omega) hi4 (by omega))]
      exact hkids i (by omega) hi4 hsi
    · rintro k hk ⟨i, hi, hu⟩
      by_cases hum : Under (4 * c + m) k
      · by_cases hkm : k = 4 * c + m
        · subst hkm
          have hmod : (4 * c + m) % 4 ≠ 3 := by omega
          rw [find_of_read_entry hrd2, overlay_of_some
            (boxUnder_child hc (boxUnder_self c n.box) hl (Or.inl rfl) (by omega) hs)]
          simp only [specNode, hmod, if_false]
        · rw [hfind2 k hkm]
          have hd := boxUnder_descend hc hm hl hs hum
          cases hb : boxUnder (4 * c + m) (childBox n.box m) k with
          | some Bk =>
            rw [overlay_of_some hb, overlay_of_some (hd.trans hb)]
          | none =>
            rw [overlay_of_none hb, overlay_of_none (hd.trans hb)]
            have hnot : ¬ ∃ j, j < m ∧ Under (4 * c + j) k := by
              rintro ⟨j, hj, huj⟩
              have := Under.sibling hc (by omega) (by omega) huj hum
              omega
            rw [hrest k hk hnot]
            exact firstLoop_untouched h1 hc (by omega) hk hum (fun h => absurd h hkm)
      · have him : i < m := by
          by_contra hcon
          have hime : i = m := by omega
          subst hime
          exact hum hu
        rw [hout k hum]
        exact hdone k hk ⟨i, him, hu⟩
    · intro k hk hnot
      have hum : ¬ Under (4 * c + m) k := fun h => hnot ⟨m, by omega, h⟩
      rw [hout k hum]
      exact hrest k hk (fun ⟨i, hi, hu⟩ => hnot ⟨i, by omega, hu⟩)
    · intro hrr
      rw [hout c (not_under_child_self hc)]
      exact hrootc hrr

theorem secondLoop_finish {t t1 t3 : QuadTree} {r : NodePtr} {n : QuadTreeNode} {c : Nat}
    (hc : 1 ≤ c) (hl : ¬ isLeafBox n.box) (h1 : FirstLoopInv t r n c 4 t1)
    (h : SecondLoopInv t t1 r n c 3 t3) : SplitPost t r n c t3 := by
  obtain ⟨hw, hh, hrd, hroot, hkids, hdone, hrest, hrootc⟩ := h
  refine ⟨hw, hh, ?_, hroot, ?_, hrootc⟩
  · rw [hrd]; simp only [maskAfterSplit, hl, if_false]
  · intro k hk
    by_cases hex : ∃ i, i < 3 ∧ Under (4 * c + i) k
    · exact hdone k hk hex
    · rw [hrest k hk hex]
      by_cases hu : Under c k
      · obtain ⟨i, hi, hui⟩ := hu.child hk
        have hi3 : i = 3 := by
          by_contra hne
          exact hex ⟨i, by omega, hui⟩
        subst hi3
        by_cases hk3 : k = 4 * c + 3
        · subst hk3
          cases hs : skipQuadrant n.box 3 with
          | true =>
            rw [overlay_of_none (boxUnder_barren_self hc (by decide) (Or.inr hs))]
            exact firstLoop_untouched h1 hc (by decide) hk hui (fun _ => hs)
          | false =>
            have hmod : (4 * c + 3) % 4 = 3 := by omega
            rw [h1.2.2.2.2.1 3 (by decide) hs, overlay_of_some
              (boxUnder_child hc (boxUnder_self c n.box) hl (Or.inl rfl) (by decide) hs)]
            simp only [specNode, hmod, if_true]
        · rw [overlay_of_none (boxUnder_barren hc (by decide) (Or.inr (Or.inr rfl)) hui hk3)]
          exact firstLoop_untouched h1 hc (by decide) hk hui (fun h => absurd h hk3)
      · rw [overlay_of_none (boxUnder_none_of_not_under hu)]
        apply h1.2.2.2.2.2.1 k hk
        intro j hj _ hkj
        subst hkj
        exact hu (Under.of_child hj (Under.refl _))

theorem splitNode_succ {fuel : Nat} {r : NodePtr} {t : QuadTree} {n : QuadTreeNode}
    (hread : t.read r = some n) :
    splitNode (fuel + 1) r t =
      if leafTest n.box then .done t
      else
        [0, 1, 2].foldl (fun (s : Step) i => s.andThen (descend (splitNode fuel) r i))
          ([0, 1, 2, 3].foldl (fun (s : Step) i => s.andThen (createChild n.box r i)) (.done t)) := by
  simp only [splitNode, hread]
  rfl

theorem splitNode_succ_ok {fuel : Nat} {r : NodePtr} {t : QuadTree} {n : QuadTreeNode}
    (hread : t.read r = some n) (hB : BoxOK n.box) :
    splitNode (fuel + 1) r t =
      if isLeafBox n.box then .done t
      else
        [0, 1, 2].foldl (fun (s : Step) i => s.andThen (descend (splitNode fuel) r i))
          ([0, 1, 2, 3].foldl (fun (s : Step) i => s.andThen (createChild n.box r i)) (.done t)) := by
  rw [splitNode_succ hread]
  by_cases hl : isLeafBox n.box
  · rw [if_pos hl, if_pos ((leafTest_of_ok hB).2 hl)]
  · rw [if_neg hl, if_neg (fun h => hl ((leafTest_of_ok hB).1 h))]

/-- With enough fuel and no 32-bit overflow below it, `splitNode` returns and
leaves exactly the tree of `boxUnder`. -/
theorem splitNode_spec (e : Nat) : ∀ fuel, e < fuel → SplitsWell e (splitNode fuel) := by
  induction e with
  | zero =>
    intro fuel hfuel t r n c hread hloc hce hr hc hcode hB hf
    obtain ⟨fuel, rfl⟩ : ∃ f, fuel = f + 1 := ⟨fuel - 1, by omega⟩
    have hl := fitsIn_zero_leaf hf
    refine ⟨t, ?_, rfl, rfl, ?_, fun _ => rfl, ?_, fun _ => rfl⟩
    · rw [splitNode_succ_ok hread hB, if_pos hl]
    · rw [hread]; simp only [maskAfterSplit, hl, if_true, ← hce]
    · intro k hk
      rw [overlay_of_none (boxUnder_leaf hc hl hk)]
  | succ e ih =>
    intro fuel hfuel t r n c hread hloc hce hr hc hcode hB hf
    obtain ⟨fuel, rfl⟩ : ∃ f, fuel = f + 1 := ⟨fuel - 1, by omega⟩
    by_cases hl : isLeafBox n.box
    · refine ⟨t, ?_, rfl, rfl, ?_, fun _ => rfl, ?_, fun _ => rfl⟩
      · rw [splitNode_succ_ok hread hB, if_pos hl]
      · rw [hread]; simp only [maskAfterSplit, hl, if_true, ← hce]
      · intro k hk
        rw [overlay_of_none (boxUnder_leaf hc hl hk)]
    · have hself := ih fuel (by omega)
      obtain ⟨t1, e1, h1⟩ := firstLoop_spec hread hce hloc hr hc (childCode_fits hcode)
      obtain ⟨t2, e2, h2⟩ :=
        secondLoop_step hself hloc hr hc hcode hB hf hl h1 (by decide) (secondLoop_start hc h1)
      obtain ⟨t3, e3, h3⟩ := secondLoop_step hself hloc hr hc hcode hB hf hl h1 (by decide) h2
      obtain ⟨t4, e4, h4⟩ := secondLoop_step hself hloc hr hc hcode hB hf hl h1 (by decide) h3
      refine ⟨t4, ?_, secondLoop_finish hc hl h1 h4⟩
      rw [splitNode_succ_ok hread hB, if_neg hl, e1]
      simp only [List.foldl, Step.andThen, e2, e3, e4]

/-! ## The constructed tree -/

theorem rootBox_ok {W H : Int} (hW : 1 ≤ W) (hH : 1 ≤ H) (hW' : W < 2 ^ 30)
    (hH' : H < 2 ^ 30) : BoxOK (rootBox W H) := by
  have hW1 := hW'
  have hH1 := hH'
  norm_num at hW1 hH1
  refine ⟨le_refl _, by simp only [rootBox]; omega, le_refl _, by simp only [rootBox]; omega,
    ?_, ?_, hW', hH'⟩
  · simp only [rootBox]
    rw [int32_eq (by norm_num; omega) (by norm_num; omega), tdiv_two (by omega)]; simp
  · simp only [rootBox]
    rw [int32_eq (by norm_num; omega) (by norm_num; omega), tdiv_two (by omega)]; simp

theorem rootBox_ok_small {W H : Int} (hW : 1 ≤ W) (hH : 1 ≤ H) (hW' : W ≤ 32768)
    (hH' : H ≤ 32768) : BoxOK (rootBox W H) :=
  rootBox_ok hW hH (by norm_num; omega) (by norm_num; omega)

/-- Construction of a frame buffer of at most `32768 x 32768` pixels returns,
given fuel for 16 nested calls, and the tree is `Built`. -/
theorem buildQuadTree_built {W H : Int} (hW : 1 ≤ W) (hH : 1 ≤ H) (hW' : W ≤ 32768)
    (hH' : H ≤ 32768) {fuel : Nat} (hfuel : 16 ≤ fuel) :
    ∃ t, buildQuadTree fuel W H = .done t ∧ t.width = W ∧ t.height = H ∧
      t.root.box = rootBox W H ∧ t.root.z = FLT_MIN ∧ Built t := by
  have hok := rootBox_ok_small hW hH hW' hH'
  have hfit : FitsIn 15 (rootBox W H) := by
    constructor <;> simp only [rootBox] <;> norm_num <;> omega
  obtain ⟨t, ht, hw, hh, hrd, -, hfind, hone⟩ :=
    splitNode_spec 15 fuel (by omega)
      { width := W, height := H, root := ⟨rootBox W H, FLT_MIN, 1, 0⟩, nodes := [] } .root
      ⟨rootBox W H, FLT_MIN, 1, 0⟩ 1 rfl rfl rfl (Or.inl rfl) (le_refl _) (by norm_num) hok hfit
  rw [read_root] at hrd
  have hroot := Option.some.inj hrd
  refine ⟨t, ht, hw, hh, by rw [hroot], by rw [hroot], ?_⟩
  refine ⟨by rw [hroot]; exact hok, by rw [hroot]; exact hfit, by rw [hroot], by rw [hroot], ?_⟩
  intro k
  by_cases hk : k = 1
  · subst hk
    rw [hone rfl]; rfl
  · rw [hfind k hk, if_neg hk, hroot]
    simp only [overlay]
    cases boxUnder 1 (rootBox W H) k <;> rfl

theorem boxUnder_ok {c : Nat} {B : QuadBoundingBox} (hB : BoxOK B) :
    ∀ {k : Nat} {Bk : QuadBoundingBox}, boxUnder c B k = some Bk → BoxOK Bk := by
  intro k
  induction k using Nat.strong_induction_on with
  | _ k ih =>
    intro Bk h
    by_cases hk : k = c
    · subst hk
      rw [boxUnder_self] at h
      cases h; exact hB
    · obtain ⟨Bp, hp, -, -, hs, rfl⟩ := boxUnder_inv hk h
      have h0 : k ≠ 0 := by
        rintro rfl
        rw [boxUnder_zero B (Ne.symm hk)] at h; cases h
      exact childBox_ok (ih (k / 4) (by omega) hp) (Nat.mod_lt _ (by decide)) hs

/-- A node `j` levels below a node whose sides are at most `2 ^ e` has sides of
at most `2 ^ (e - j)`, and `j ≤ e`. -/
theorem boxUnder_level {c e : Nat} {B : QuadBoundingBox} (hB : BoxOK B) (hf : FitsIn e B) :
    ∀ {k : Nat} {Bk : QuadBoundingBox}, boxUnder c B k = some Bk →
      ∃ j, j ≤ e ∧ k / 4 ^ j = c ∧ FitsIn (e - j) Bk := by
  intro k
  induction k using Nat.strong_induction_on with
  | _ k ih =>
    intro Bk h
    by_cases hk : k = c
    · subst hk
      rw [boxUnder_self] at h
      cases h
      exact ⟨0, Nat.zero_le _, by simp, hf⟩
    · obtain ⟨Bp, hp, hl, -, hs, rfl⟩ := boxUnder_inv hk h
      have h0 : k ≠ 0 := by
        rintro rfl
        rw [boxUnder_zero B (Ne.symm hk)] at h; cases h
      obtain ⟨j, hj, hdiv, hfit⟩ := ih (k / 4) (by omega) hp
      have hlt : j < e := by
        by_contra hcon
        have hz : e - j = 0 := by omega
        rw [hz] at hfit
        exact hl (fitsIn_zero_leaf hfit)
      obtain ⟨d, hd⟩ : ∃ d, e - j = d + 1 := ⟨e - j - 1, by omega⟩
      rw [hd] at hfit
      refine ⟨j + 1, hlt, by rw [div_pow_succ, hdiv], ?_⟩
      have hd' : e - (j + 1) = d := by omega
      rw [hd']
      exact childBox_fits (boxUnder_ok hB hp) hfit (Nat.mod_lt _ (by decide))

theorem boxUnder_within {c : Nat} {B : QuadBoundingBox} (hB : BoxOK B) {x y : Int} :
    ∀ {k : Nat} {Bk : QuadBoundingBox}, boxUnder c B k = some Bk → Bk.contains x y →
      B.contains x y := by
  intro k
  induction k using Nat.strong_induction_on with
  | _ k ih =>
    intro Bk h hxy
    by_cases hk : k = c
    · subst hk
      rw [boxUnder_self] at h
      cases h; exact hxy
    · obtain ⟨Bp, hp, -, -, hs, rfl⟩ := boxUnder_inv hk h
      have h0 : k ≠ 0 := by
        rintro rfl
        rw [boxUnder_zero B (Ne.symm hk)] at h; cases h
      exact ih (k / 4) (by omega) hp
        (childBox_sub (boxUnder_ok hB hp) (Nat.mod_lt _ (by decide)) hxy)

/-- Every node on the way from `k2` up to a proper ancestor `k1` was split. -/
theorem boxUnder_ancestor {c : Nat} {B : QuadBoundingBox} (hc : 1 ≤ c) :
    ∀ {k2 k1 : Nat} {B2 : QuadBoundingBox}, boxUnder c B k2 = some B2 → Under c k1 →
      Under k1 k2 → k1 ≠ k2 →
      ∃ B1, boxUnder c B k1 = some B1 ∧ ¬ isLeafBox B1 ∧ (k1 = c ∨ k1 % 4 ≠ 3) := by
  intro k2
  induction k2 using Nat.strong_induction_on with
  | _ k2 ih =>
    intro k1 B2 h hk1 hu hne
    have hle1 := hk1.le
    have hle2 := hu.le
    have hk2c : k2 ≠ c := by
      rintro rfl
      omega
    obtain ⟨Bp, hp, hl, h3, -, -⟩ := boxUnder_inv hk2c h
    by_cases hpar : k2 / 4 = k1
    · subst hpar
      exact ⟨Bp, hp, hl, h3⟩
    · exact ih (k2 / 4) (by omega) hp hk1 (hu.step (Ne.symm hne)) (Ne.symm hpar)

/-- Of two nodes whose boxes share a pixel, the one with the smaller code is
an ancestor of the other. -/
theorem boxUnder_comparable {c : Nat} {B : QuadBoundingBox} (hc : 1 ≤ c) (hB : BoxOK B)
    {x y : Int} :
    ∀ {k2 k1 : Nat} {B1 B2 : QuadBoundingBox}, k1 ≤ k2 → boxUnder c B k1 = some B1 →
      boxUnder c B k2 = some B2 → B1.contains x y → B2.contains x y → Under k1 k2 := by
  intro k2
  induction k2 using Nat.strong_induction_on with
  | _ k2 ih =>
    intro k1 B1 B2 hle h1 h2 c1 c2
    by_cases heq : k1 = k2
    · subst heq; exact Under.refl _
    · have hc1 := (boxUnder_under h1).le
      have hk2c : k2 ≠ c := by omega
      obtain ⟨Bp, hp, -, -, hs2, hB2⟩ := boxUnder_inv hk2c h2
      have hcp := (boxUnder_under hp).le
      have hpin : Bp.contains x y :=
        childBox_sub (boxUnder_ok hB hp) (Nat.mod_lt _ (by decide)) (hB2 ▸ c2)
      by_cases hcase : k1 ≤ k2 / 4
      · exact Under.parent (ih (k2 / 4) (by omega) hcase h1 hp c1 hpin)
      · exfalso
        have hup : Under (k2 / 4) k1 := ih k1 (by omega) (by omega) hp h1 hpin c1
        obtain ⟨i, hi, hui⟩ := hup.child (by omega)
        by_cases hsib : k1 = 4 * (k2 / 4) + i
        · have hk1c : k1 ≠ c := by omega
          obtain ⟨Bp', hp', -, -, -, hB1⟩ := boxUnder_inv hk1c h1
          have hdiv : k1 / 4 = k2 / 4 := by omega
          rw [hdiv, hp] at hp'
          cases hp'
          have := childBox_disjoint (Nat.mod_lt _ (by decide)) (Nat.mod_lt _ (by decide))
            (hB1 ▸ c1) (hB2 ▸ c2)
          omega
        · have := (hui.step hsib).le
          omega

theorem boxUnder_leaf_exists {B : QuadBoundingBox} (hB : BoxOK B) {x y : Int} :
    ∀ (e : Nat) {k : Nat} {Bk : QuadBoundingBox}, boxUnder 1 B k = some Bk → FitsIn e Bk →
      Bk.contains x y →
      ∃ k1 B1, boxUnder 1 B k1 = some B1 ∧ B1.contains x y ∧ (isLeafBox B1 ∨ k1 % 4 = 3) := by
  intro e
  induction e with
  | zero =>
    intro k Bk h hf hxy
    exact ⟨k, Bk, h, hxy, Or.inl (fitsIn_zero_leaf hf)⟩
  | succ e ih =>
    intro k Bk h hf hxy
    by_cases hl : isLeafBox Bk
    · exact ⟨k, Bk, h, hxy, Or.inl hl⟩
    · by_cases h3 : k % 4 = 3
      · exact ⟨k, Bk, h, hxy, Or.inr h3⟩
      · have hBk := boxUnder_ok hB h
        obtain ⟨i, hi, hs, hin⟩ := childBox_cover hBk hxy
        exact ih (boxUnder_child (le_refl 1) h hl (Or.inr h3) hi hs) (childBox_fits hBk hf hi) hin

/-! ## Reading the constructed tree -/

theorem Built.find_iff {t : QuadTree} (hb : Built t) {k : Nat} {s : Slot} :
    t.nodes.find k = some s ↔
      k ≠ 1 ∧ ∃ Bk, boxUnder 1 t.root.box k = some Bk ∧ s = .val (specNode Bk t.root.z k) := by
  rw [hb.2.2.2.2 k]
  by_cases hk : k = 1
  · simp [hk]
  · simp only [hk, if_false, ne_eq, not_false_eq_true, true_and]
    cases boxUnder 1 t.root.box k with
    | none => simp
    | some Bk =>
      simp only [Option.map_some', Option.some.injEq]
      constructor
      · intro h; exact ⟨Bk, rfl, h.symm⟩
      · rintro ⟨Bk', h, rfl⟩; cases h; rfl

/-- What a node pointer of the constructed tree points at. -/
theorem Built.read_inv {t : QuadTree} (hb : Built t) {p : NodePtr} {n : QuadTreeNode}
    (h : t.read p = some n) :
    boxUnder 1 t.root.box n.locCode = some n.box ∧ n.z = t.root.z ∧
      n.childExists = (if n.locCode % 4 = 3 then 0 else maskAfterSplit n.box) ∧
      ((p = .root ∧ n.locCode = 1) ∨ (p = .entry n.locCode ∧ n.locCode ≠ 1)) := by
  cases p with
  | null => cases h
  | root =>
    rw [read_root] at h
    cases h
    obtain ⟨-, -, hloc, hce, -⟩ := hb
    refine ⟨by rw [hloc]; exact boxUnder_self _ _, rfl, ?_, Or.inl ⟨rfl, hloc⟩⟩
    rw [hce, hloc]; rfl
  | entry k =>
    obtain ⟨hk, Bk, hbox, hs⟩ := hb.find_iff.1 (find_of_read_entry h)
    cases hs
    exact ⟨hbox, rfl, rfl, Or.inr ⟨rfl, hk⟩⟩

theorem Built.read_of_box {t : QuadTree} (hb : Built t) {k : Nat} {Bk : QuadBoundingBox}
    (h : boxUnder 1 t.root.box k = some Bk) :
    ∃ p n, t.read p = some n ∧ n.locCode = k ∧ n.box = Bk ∧
      (k ≠ 1 → p = .entry k) ∧ (k = 1 → p = .root) := by
  by_cases hk : k = 1
  · subst hk
    rw [boxUnder_self] at h
    cases h
    exact ⟨.root, t.root, rfl, hb.2.2.1, rfl, fun h => absurd rfl h, fun _ => rfl⟩
  · refine ⟨.entry k, specNode Bk t.root.z k, ?_, rfl, rfl, fun _ => rfl, fun h => absurd h hk⟩
    exact read_entry_of_find (hb.find_iff.2 ⟨hk, Bk, h, rfl⟩)

theorem maskAfterSplit_eq_zero (B : QuadBoundingBox) : maskAfterSplit B = 0 ↔ isLeafBox B := by
  unfold maskAfterSplit
  by_cases hl : isLeafBox B
  · simp [hl]
  · simp [hl, childMask_pos B]

/-- A node of the constructed tree has no children exactly when its box is
leaf-sized or it is a fourth quadrant. -/
theorem Built.leaf_iff {t : QuadTree} (hb : Built t) {p : NodePtr} {n : QuadTreeNode}
    (h : t.read p = some n) :
    n.childExists = 0 ↔ isLeafBox n.box ∨ n.locCode % 4 = 3 := by
  rw [(hb.read_inv h).2.2.1]
  by_cases h3 : n.locCode % 4 = 3
  · simp [h3]
  · simp only [h3, if_false, or_false]
    exact maskAfterSplit_eq_zero _

theorem Built.ptr_unique {t : QuadTree} (hb : Built t) {p1 p2 : NodePtr}
    {n1 n2 : QuadTreeNode} (h1 : t.read p1 = some n1) (h2 : t.read p2 = some n2)
    (hcode : n1.locCode = n2.locCode) : p1 = p2 := by
  rcases (hb.read_inv h1).2.2.2 with ⟨r1, c1⟩ | ⟨r1, c1⟩ <;>
    rcases (hb.read_inv h2).2.2.2 with ⟨r2, c2⟩ | ⟨r2, c2⟩
  · rw [r1, r2]
  · exact absurd (hcode ▸ c1) c2
  · exact absurd (hcode ▸ c2) c1
  · rw [r1, r2, hcode]

/-! ## More fuel does not change a run that returned -/

theorem andThen_done {s : Step} {f : QuadTree → Step} {t1 : QuadTree}
    (h : s.andThen f = .done t1) : ∃ t0, s = .done t0 ∧ f t0 = .done t1 := by
  cases s with
  | done t0 => exact ⟨t0, rfl, h⟩
  | stuck w t0 => cases h

theorem descend_mono {self self1 : NodePtr → QuadTree → Step}
    (hs : ∀ r t t1, self r t = .done t1 → self1 r t = .done t1) {r : NodePtr} {i : Nat}
    {t t1 : QuadTree} (h : descend self r i t = .done t1) : descend self1 r i t = .done t1 := by
  unfold descend at h ⊢
  cases hr : t.read r with
  | none => rw [hr] at h; cases h
  | some n =>
    rw [hr] at h
    simp only at h ⊢
    split
    · rename_i hbit
      rw [if_pos hbit] at h
      exact hs _ _ _ h
    · rename_i hbit
      rw [if_neg hbit] at h
      exact h

theorem splitNode_mono_succ : ∀ (fuel : Nat) (r : NodePtr) (t t1 : QuadTree),
    splitNode fuel r t = .done t1 → splitNode (fuel + 1) r t = .done t1 := by
  intro fuel
  induction fuel with
  | zero => intro r t t1 h; cases h
  | succ fuel ih =>
    intro r t t1 h
    cases hr : t.read r with
    | none => simp only [splitNode, hr] at h; cases h
    | some n =>
      rw [splitNode_succ hr] at h ⊢
      by_cases hl : leafTest n.box
      · rw [if_pos hl] at h ⊢; exact h
      · rw [if_neg hl] at h ⊢
        simp only [List.foldl] at h ⊢
        obtain ⟨t4, h3, e3⟩ := andThen_done h
        obtain ⟨t3, h2, e2⟩ := andThen_done h3
        obtain ⟨t2, h1, e1⟩ := andThen_done h2
        rw [h1]
        simp only [Step.andThen, descend_mono ih e1, descend_mono ih e2, descend_mono ih e3]

theorem splitNode_mono {fuel fuel1 : Nat} (hle : fuel ≤ fuel1) {r : NodePtr} {t t1 : QuadTree}
    (h : splitNode fuel r t = .done t1) : splitNode fuel1 r t = .done t1 := by
  induction hle with
  | refl => exact h
  | step _ ih => exact splitNode_mono_succ _ _ _ _ ih

/-- A construction that returned returns the same tree for any larger fuel. -/
theorem buildQuadTree_mono {fuel fuel1 : Nat} (hle : fuel ≤ fuel1) {W H : Int} {t : QuadTree}
    (h : buildQuadTree fuel W H = .done t) : buildQuadTree fuel1 W H = .done t :=
  splitNode_mono hle h

/-- Whatever the fuel, a construction that returns returns one and the same tree. -/
theorem buildQuadTree_unique {fuel fuel1 : Nat} {W H : Int} {t t1 : QuadTree}
    (h : buildQuadTree fuel W H = .done t) (h1 : buildQuadTree fuel1 W H = .done t1) :
    t = t1 := by
  have a := buildQuadTree_mono (Nat.le_max_left fuel fuel1) h
  have b := buildQuadTree_mono (Nat.le_max_right fuel fuel1) h1
  rw [a] at b
  exact Step.done.inj b

/-! ## Checking a concrete tree -/

theorem liveAll_sound {t : QuadTree} {P : QuadTreeNode → Bool} (h : liveAll t P = true)
    {p : NodePtr} {n : QuadTreeNode} (hr : t.read p = some n) : P n = true := by
  simp only [liveAll, Bool.and_eq_true, List.all_eq_true] at h
  cases p with
  | null => cases hr
  | root => rw [read_root] at hr; cases hr; exact h.1
  | entry k =>
    have hf := find_of_read_entry hr
    have := h.2 _ (mem_of_find hf)
    simp only [Bool.or_eq_true, bne_iff_ne, ne_eq] at this
    rcases this with h1 | h1
    · exact h1
    · exact absurd hf h1

theorem returned_sound {s : Step} {P : QuadTree → Bool} (h : s.returned P = true) :
    ∃ t, s = .done t ∧ P t = true := by
  cases s with
  | done t => exact ⟨t, rfl, h⟩
  | stuck w t => cases h

theorem quadTree_eq_some {fuel : Nat} {W H : Int} {s : Step}
    (h : QuadTree.QuadTree fuel W H = some s) : buildQuadTree fuel W H = s := by
  unfold QuadTree.QuadTree at h
  split at h
  · cases h
  · exact Option.some.inj h

theorem quadTree_of_pos {fuel : Nat} {W H : Int} (hW : 0 ≤ W) (hH : 0 ≤ H)
    (hWH : W * H < 2 ^ 31) : QuadTree.QuadTree fuel W H = some (buildQuadTree fuel W H) := by
  unfold QuadTree.QuadTree
  have h0 : 0 ≤ W * H := mul_nonneg hW hH
  rw [int32_eq (by norm_num; omega) hWH, if_neg (not_lt.2 h0)]

theorem quadTree_of_small {fuel : Nat} {W H : Int} (hW : 0 ≤ W) (hH : 0 ≤ H) (hW' : W ≤ 32768)
    (hH' : H ≤ 32768) : QuadTree.QuadTree fuel W H = some (buildQuadTree fuel W H) := by
  refine quadTree_of_pos hW hH ?_
  have h : W * H ≤ 32768 * 32768 := mul_le_mul hW' hH' hH (by omega)
  norm_num at h ⊢
  omega

/-! ## C1: coverage -/

/-- C1, as amended: for a frame buffer of `1 ≤ width, height ≤ 32768` pixels
construction returns, and every pixel `(x, y)` with `0 ≤ x < width` and
`0 ≤ y < height` lies in the region of exactly one leaf, a leaf being a node
with `childExists = 0` (the root included). -/
theorem coverage_exactly_one_leaf (W H : Int) (fuel : Nat) (hW : 1 ≤ W) (hW' : W ≤ 32768)
    (hH : 1 ≤ H) (hH' : H ≤ 32768) (hfuel : 16 ≤ fuel) :
    ∃ t, QuadTree.QuadTree fuel W H = some (.done t) ∧
      ∀ x y : Int, 0 ≤ x → x < W → 0 ≤ y → y < H →
        ∃! p : NodePtr, ∃ n, t.read p = some n ∧ n.childExists = 0 ∧ n.box.contains x y := by
  obtain ⟨t, ht, -, -, hbox, -, hb⟩ := buildQuadTree_built hW hH hW' hH' hfuel
  refine ⟨t, by rw [quadTree_of_small (by omega) (by omega) (by omega) (by omega), ht], ?_⟩
  intro x y hx hx' hy hy'
  have hB := hb.1
  have hroot : t.root.box.contains x y := by
    rw [hbox]; exact ⟨hx, hx', hy, hy'⟩
  obtain ⟨k1, B1, hk1, hin1, hleaf1⟩ :=
    boxUnder_leaf_exists hB 15 (boxUnder_self 1 t.root.box) hb.2.1 hroot
  obtain ⟨p, n, hrd, hloc, hnb, -, -⟩ := hb.read_of_box hk1
  refine ⟨p, ⟨n, hrd, (hb.leaf_iff hrd).2 (by rw [hnb, hloc]; exact hleaf1),
    by rw [hnb]; exact hin1⟩, ?_⟩
  rintro q ⟨m, hrm, hzm, hinm⟩
  have hn := hb.read_inv hrd
  have hm := hb.read_inv hrm
  have hzn : n.childExists = 0 := (hb.leaf_iff hrd).2 (by rw [hnb, hloc]; exact hleaf1)
  have hinn : n.box.contains x y := by rw [hnb]; exact hin1
  have key : ∀ {a b : QuadTreeNode}, boxUnder 1 t.root.box a.locCode = some a.box →
      boxUnder 1 t.root.box b.locCode = some b.box → a.box.contains x y →
      b.box.contains x y →
      a.childExists = (if a.locCode % 4 = 3 then 0 else maskAfterSplit a.box) →
      a.childExists = 0 → a.locCode ≤ b.locCode → a.locCode = b.locCode := by
    intro a b ha hb' ca cb hca hza hle
    by_contra hne
    have hu := boxUnder_comparable (le_refl 1) hB hle ha hb' ca cb
    obtain ⟨Ba, hBa, hl, h3⟩ := boxUnder_ancestor (le_refl 1) hb' (boxUnder_under ha) hu hne
    rw [ha] at hBa
    cases hBa
    have h3' : a.locCode % 4 ≠ 3 := by
      rcases h3 with h3 | h3
      · rw [h3]; decide
      · exact h3
    rw [hca, if_neg h3'] at hza
    exact hl ((maskAfterSplit_eq_zero _).1 hza)
  rcases Nat.le_total n.locCode m.locCode with hle | hle
  · exact hb.ptr_unique hrm hrd (key hn.1 hm.1 hinn hinm hn.2.2.1 hzn hle).symm
  · exact hb.ptr_unique hrm hrd (key hm.1 hn.1 hinm hinn hm.2.2.1 hzm hle)

/-- C1, witness: the amended claim at a `4 x 4` frame buffer. -/
theorem coverage_exactly_one_leaf_witness :
    ∃ t, QuadTree.QuadTree 16 4 4 = some (.done t) ∧
      ∀ x y : Int, 0 ≤ x → x < 4 → 0 ≤ y → y < 4 →
        ∃! p : NodePtr, ∃ n, t.read p = some n ∧ n.childExists = 0 ∧ n.box.contains x y :=
  coverage_exactly_one_leaf 4 4 16 (by decide) (by decide) (by decide) (by decide) (by decide)

theorem big_tree_no_leaf_at_40000 :
    (buildQuadTree 17 65536 1).returned (fun t => liveAll t fun n =>
      !(n.childExists == 0 && decide (n.box.contains 40000 0))) = true := by
  decide!

/-- C1, counterexample: for a `65536 x 1` frame buffer no amount of fuel makes
construction return a tree in which every pixel has exactly one leaf; in the
tree it returns, no leaf contains pixel `(40000, 0)`. -/
theorem coverage_fails_65536 :
    ¬ ∃ fuel t, QuadTree.QuadTree fuel 65536 1 = some (.done t) ∧
      ∀ x y : Int, 0 ≤ x → x < 65536 → 0 ≤ y → y < 1 →
        ∃! p : NodePtr, ∃ n, t.read p = some n ∧ n.childExists = 0 ∧ n.box.contains x y := by
  rintro ⟨fuel, t, hq, hcov⟩
  obtain ⟨t1, h1, hall⟩ := returned_sound big_tree_no_leaf_at_40000
  have heq := buildQuadTree_unique (quadTree_eq_some hq) h1
  subst heq
  obtain ⟨p, ⟨n, hrd, hz, hin⟩, -⟩ := hcov 40000 0 (by decide) (by decide) (by decide) (by decide)
  have := liveAll_sound hall hrd
  simp [hz, hin] at this

/-! ## Invariants of every run, returned or not -/

theorem andThen_preserves {I : QuadTree → Prop} {s : Step} {f : QuadTree → Step}
    (hs : I s.state) (hf : ∀ t, I t → I (f t).state) : I (s.andThen f).state := by
  cases s with
  | done t => exact hf t hs
  | stuck w t => exact hs

theorem createChild_preserves {I : QuadTree → Prop} {B : QuadBoundingBox}
    (hstep : ∀ (t : QuadTree) (r : NodePtr) (n : QuadTreeNode) (i : Nat), I t →
      t.read r = some n → i < 4 → skipQuadrant B i = false →
      I { t.write r { n with childExists := uint8 (n.childExists ||| (1 <<< i)) } with
          nodes := (t.write r { n with childExists := uint8 (n.childExists ||| (1 <<< i)) }
            ).nodes.assign (uint32 ((n.locCode <<< 2) ||| i))
              (.val ⟨childBox B i, n.z, uint32 ((n.locCode <<< 2) ||| i), 0⟩) })
    (r : NodePtr) {i : Nat} (hi : i < 4) {t : QuadTree} (ht : I t) :
    I (createChild B r i t).state := by
  cases hs : skipQuadrant B i with
  | true => rw [createChild_skip B hs]; exact ht
  | false =>
    cases hr : t.read r with
    | none =>
      simp only [createChild, hs, hr, Bool.false_eq_true, if_false]
      exact ht
    | some n =>
      rw [createChild_eq B hr hs]
      exact hstep t r n i ht hr hi hs

theorem descend_preserves {I : QuadTree → Prop} {self : NodePtr → QuadTree → Step}
    (hlook : ∀ (t : QuadTree) (k : Nat), I t → I (lookupNode t k).1)
    (hself : ∀ r t, I t → I (self r t).state) (r : NodePtr) (i : Nat) {t : QuadTree}
    (ht : I t) : I (descend self r i t).state := by
  unfold descend
  cases hr : t.read r with
  | none => exact ht
  | some n =>
    simp only
    split
    · exact hself _ _ (hlook _ _ ht)
    · exact ht

/-- A property `I` of trees that every assignment made by `splitNode` keeps,
given a property `J` of the box of any node read in such a tree, holds in the
state in which a run ends, whether the run returned or stopped. -/
theorem splitNode_preserves {I : QuadTree → Prop} {J : QuadBoundingBox → Prop}
    (hread : ∀ (t : QuadTree) (r : NodePtr) (n : QuadTreeNode), I t → t.read r = some n →
      J n.box)
    (hstep : ∀ (B : QuadBoundingBox) (t : QuadTree) (r : NodePtr) (n : QuadTreeNode) (i : Nat),
      J B → I t → t.read r = some n → i < 4 → skipQuadrant B i = false →
      I { t.write r { n with childExists := uint8 (n.childExists ||| (1 <<< i)) } with
          nodes := (t.write r { n with childExists := uint8 (n.childExists ||| (1 <<< i)) }
            ).nodes.assign (uint32 ((n.locCode <<< 2) ||| i))
              (.val ⟨childBox B i, n.z, uint32 ((n.locCode <<< 2) ||| i), 0⟩) })
    (hlook : ∀ (t : QuadTree) (k : Nat), I t → I (lookupNode t k).1) :
    ∀ (fuel : Nat) (r : NodePtr) (t : QuadTree), I t → I (splitNode fuel r t).state := by
  intro fuel
  induction fuel with
  | zero => intro r t ht; exact ht
  | succ fuel ih =>
    intro r t ht
    cases hr : t.read r with
    | none => simp only [splitNode, hr]; exact ht
    | some n =>
      rw [splitNode_succ hr]
      by_cases hl : leafTest n.box
      · rw [if_pos hl]; exact ht
      · rw [if_neg hl]
        have hJ := hread t r n ht hr
        have hc : ∀ i, i < 4 → ∀ t, I t → I (createChild n.box r i t).state :=
          fun i hi t ht => createChild_preserves (hstep n.box · · · · hJ) r hi ht
        have hd : ∀ i, ∀ t, I t → I (descend (splitNode fuel) r i t).state :=
          fun i t ht => descend_preserves hlook ih r i ht
        simp only [List.foldl]
        refine andThen_preserves (andThen_preserves (andThen_preserves ?_ (hd 0)) (hd 1)) (hd 2)
        exact andThen_preserves (andThen_preserves (andThen_preserves
          (andThen_preserves (s := .done t) ht (hc 0 (by decide))) (hc 1 (by decide)))
          (hc 2 (by decide))) (hc 3 (by decide))

theorem everyBox_read {P : QuadBoundingBox → Prop} {t : QuadTree} (h : EveryBox P t)
    {r : NodePtr} {n : QuadTreeNode} (hr : t.read r = some n) : P n.box := by
  cases r with
  | null => cases hr
  | root => rw [read_root] at hr; cases hr; exact h.1
  | entry k => exact h.2 _ (mem_of_find (find_of_read_entry hr)) n rfl

theorem everyBox_lookup {P : QuadBoundingBox → Prop} {t : QuadTree} (h : EveryBox P t)
    (k : Nat) : EveryBox P (lookupNode t k).1 := by
  unfold lookupNode
  split
  · exact h
  · refine ⟨h.1, ?_⟩
    intro e he n hn
    simp only [NodeMap.assign, List.mem_cons] at he
    rcases he with rfl | he
    · cases hn
    · exact h.2 e he n hn

/-- Every box that a run of `splitNode` stores is a `BoxOK` box, if those it
started from are. -/
theorem splitNode_everyBox_ok (fuel : Nat) (r : NodePtr) {t : QuadTree}
    (h : EveryBox BoxOK t) : EveryBox BoxOK (splitNode fuel r t).state := by
  refine splitNode_preserves (I := EveryBox BoxOK) (J := BoxOK)
    (fun t r n ht hr => everyBox_read ht hr) ?_ (fun t k ht => everyBox_lookup ht k) fuel r t h
  intro B t r n i hB ht hr hi hs
  have hn := everyBox_read ht hr
  cases r with
  | null => cases hr
  | root =>
    refine ⟨hn, ?_⟩
    intro e he m hm
    simp only [QuadTree.write, NodeMap.assign, List.mem_cons] at he
    rcases he with rfl | he
    · cases hm; exact childBox_ok hB hi hs
    · exact ht.2 e he m hm
  | entry k =>
    refine ⟨ht.1, ?_⟩
    intro e he m hm
    simp only [QuadTree.write, NodeMap.assign, List.mem_cons] at he
    rcases he with rfl | rfl | he
    · cases hm; exact childBox_ok hB hi hs
    · cases hm; exact hn
    · exact ht.2 e he m hm

/-! ## C2 and C9: the `4 x 4` frame buffer -/

theorem tree_4x4_fourth_quadrant :
    (buildQuadTree 16 4 4).returned (fun t =>
      decide (t.read (.entry 7) = some ⟨⟨2, 4, 2, 4, 3, 3⟩, FLT_MIN, 7, 0⟩)) = true := by
  decide!

/-- C2, the code at the failing input: in the tree of `QuadTree(4, 4)` the node
of code 7, the fourth quadrant of the root, is a leaf (`childExists = 0`) whose
region `[2, 4) x [2, 4)` is two pixels wide and two pixels high. -/
theorem leaf_of_two_pixels_4x4 :
    ∃ t n, QuadTree.QuadTree 16 4 4 = some (.done t) ∧ t.read (.entry 7) = some n ∧
      n.childExists = 0 ∧ n.box.xr - n.box.xl = 2 ∧ n.box.yr - n.box.yl = 2 := by
  obtain ⟨t, ht, hP⟩ := returned_sound tree_4x4_fourth_quadrant
  refine ⟨t, _, by rw [quadTree_of_small (by decide) (by decide) (by decide) (by decide), ht], of_decide_eq_true hP,
    rfl, by decide, by decide⟩

theorem tree_4x4_nodes :
    (buildQuadTree 16 4 4).returned (fun t =>
      decide (t.root.box = ⟨0, 4, 0, 4, 2, 2⟩) && decide (t.nodes.keys.length + 1 = 17) &&
      [4, 5, 6, 7].all (fun k => (t.read (.entry k)).any fun n =>
        decide (n.box.xr - n.box.xl = 2 ∧ n.box.yr - n.box.yl = 2)) &&
      [28, 29, 30, 31].all (fun k => decide (t.nodes.find k = none))) = true := by
  decide!

/-- C9, the code at the failing input: `QuadTree(4, 4)` builds the root
`[0, 4) x [0, 4)` with centre `(2, 2)` and four first-level nodes of `2 x 2`
pixels, but the fourth of them (code 7) gets no children (codes 28 to 31 are
absent), and the tree has `1 + 4 + 12 = 17` nodes, not 21. -/
theorem seventeen_nodes_4x4 :
    ∃ t, QuadTree.QuadTree 16 4 4 = some (.done t) ∧ t.root.box = ⟨0, 4, 0, 4, 2, 2⟩ ∧
      t.nodes.keys.length + 1 = 17 ∧
      (∀ k ∈ [4, 5, 6, 7], ∃ n, t.read (.entry k) = some n ∧
        n.box.xr - n.box.xl = 2 ∧ n.box.yr - n.box.yl = 2) ∧
      (∀ k ∈ [28, 29, 30, 31], t.nodes.find k = none) := by
  obtain ⟨t, ht, hP⟩ := returned_sound tree_4x4_nodes
  simp only [Bool.and_eq_true, decide_eq_true_eq, List.all_eq_true] at hP
  obtain ⟨⟨⟨h1, h2⟩, h3⟩, h4⟩ := hP
  refine ⟨t, by rw [quadTree_of_small (by decide) (by decide) (by decide) (by decide), ht], h1, h2, ?_, h4⟩
  intro k hk
  have hk3 := h3 k hk
  cases hr : t.read (.entry k) with
  | none => rw [hr] at hk3; cases hk3
  | some n =>
    rw [hr] at hk3
    exact ⟨n, rfl, of_decide_eq_true hk3⟩

/-! ## C6 and C7: `lookupNode` -/

theorem lookupNode_ptr (t : QuadTree) (locCode : Nat) :
    (lookupNode t locCode).2 = .entry locCode := by
  unfold lookupNode
  split <;> rfl

theorem lookupNode_present {t : QuadTree} {locCode : Nat} (h : t.nodes.find locCode ≠ none) :
    (lookupNode t locCode).1 = t := by
  unfold lookupNode
  split
  · rfl
  · rename_i hn; exact absurd hn h

theorem lookupNode_absent {t : QuadTree} {locCode : Nat} (h : t.nodes.find locCode = none) :
    (lookupNode t locCode).1 = { t with nodes := t.nodes.assign locCode .uninit } := by
  unfold lookupNode
  rw [h]

theorem not_mem_keys_of_find_none {m : NodeMap} {k : Nat} (h : m.find k = none) :
    k ∉ m.map Prod.fst := by
  induction m with
  | nil => simp
  | cons p rest ih =>
    obtain ⟨k1, v⟩ := p
    rw [find_cons] at h
    by_cases hk : k1 = k
    · simp [hk] at h
    · simp only [hk, if_false] at h
      simp only [List.map_cons, List.mem_cons, not_or]
      exact ⟨Ne.symm hk, ih h⟩

theorem tree_2x1_lookups :
    (buildQuadTree 16 2 1).returned (fun t =>
      [0, 6, 16].all fun c =>
        decide (t.nodes.find c = none) && decide ((lookupNode t c).2 ≠ .null) &&
          decide ((lookupNode t c).1.nodes.find c = some .uninit)) = true := by
  decide!

/-- C6, counterexample: in the tree of `QuadTree(2, 1)` the codes 0 (the
would-be parent of the root), 6 (a skipped quadrant) and 16 (below the leaf
level) were not created, yet `lookupNode` returns a non-null pointer for each
and the map then has a slot for it. -/
theorem lookupNode_no_not_found :
    ∃ t, QuadTree.QuadTree 16 2 1 = some (.done t) ∧
      ∀ c ∈ [0, 6, 16], t.nodes.find c = none ∧ (lookupNode t c).2 ≠ .null ∧
        (lookupNode t c).1.nodes.find c = some .uninit := by
  obtain ⟨t, ht, hP⟩ := returned_sound tree_2x1_lookups
  simp only [Bool.and_eq_true, decide_eq_true_eq, List.all_eq_true] at hP
  refine ⟨t, by rw [quadTree_of_small (by decide) (by decide) (by decide) (by decide), ht], ?_⟩
  intro c hc
  exact ⟨(hP c hc).1.1, (hP c hc).1.2, (hP c hc).2⟩

/-- C7, as amended: for every tree state and every `locCode`, `lookupNode`
leaves the tree as it is when the map has the key; when it has not, the call
adds the key, bound to a default-constructed node, and leaves the root, the
size and the slot of every other key unchanged. -/
theorem lookupNode_effect (t : QuadTree) (locCode : Nat) :
    (t.nodes.find locCode ≠ none → (lookupNode t locCode).1 = t) ∧
    (t.nodes.find locCode = none →
      (lookupNode t locCode).1.root = t.root ∧ (lookupNode t locCode).1.width = t.width ∧
      (lookupNode t locCode).1.height = t.height ∧
      (∀ k, k ≠ locCode → (lookupNode t locCode).1.nodes.find k = t.nodes.find k) ∧
      (lookupNode t locCode).1.nodes.find locCode = some .uninit ∧
      (lookupNode t locCode).1.nodes.keys = locCode :: t.nodes.keys) := by
  refine ⟨lookupNode_present, ?_⟩
  intro h
  rw [lookupNode_absent h]
  refine ⟨rfl, rfl, rfl, ?_, by simp [find_assign], ?_⟩
  · intro k hk
    simp [find_assign, Ne.symm hk]
  · simp only [NodeMap.keys, NodeMap.assign, List.map_cons]
    exact List.dedup_cons_of_not_mem (not_mem_keys_of_find_none h)

theorem tree_1x1_lookup :
    (buildQuadTree 16 1 1).returned (fun t =>
      decide (t.nodes.keys = []) && decide ((lookupNode t 5).1.nodes.keys = [5])) = true := by
  decide!

/-- C7, counterexample: the tree of `QuadTree(1, 1)` has an empty node map, and
after `lookupNode(5)` the map has the key 5. -/
theorem lookupNode_adds_key :
    ∃ t, QuadTree.QuadTree 16 1 1 = some (.done t) ∧ t.nodes.keys = [] ∧
      (lookupNode t 5).1.nodes.keys = [5] := by
  obtain ⟨t, ht, hP⟩ := returned_sound tree_1x1_lookup
  simp only [Bool.and_eq_true, decide_eq_true_eq] at hP
  exact ⟨t, by rw [quadTree_of_small (by decide) (by decide) (by decide) (by decide), ht], hP.1, hP.2⟩

/-! ## C8: construction with a non-positive size -/

/-- No run of `splitNode` changes the size of the tree or the box of the root. -/
theorem splitNode_root_fixed (fuel : Nat) (r : NodePtr) (t : QuadTree) :
    (splitNode fuel r t).state.width = t.width ∧ (splitNode fuel r t).state.height = t.height ∧
      (splitNode fuel r t).state.root.box = t.root.box := by
  refine splitNode_preserves
    (I := fun t1 => t1.width = t.width ∧ t1.height = t.height ∧ t1.root.box = t.root.box)
    (J := fun _ => True) (fun _ _ _ _ _ => trivial) ?_ ?_ fuel r t ⟨rfl, rfl, rfl⟩
  · intro B t1 r1 n i _ ht hr _ _
    cases r1 with
    | null => cases hr
    | root =>
      rw [read_root] at hr
      cases hr
      exact ht
    | entry k => exact ht
  · intro t1 k ht
    unfold lookupNode
    split <;> exact ht

theorem quadTree_of_nonneg {fuel : Nat} {W H : Int} (h : 0 ≤ int32 (W * H)) :
    QuadTree.QuadTree fuel W H = some (buildQuadTree fuel W H) := by
  unfold QuadTree.QuadTree
  rw [if_neg (not_lt.2 h)]

/-- C8, as amended: construction does not check its arguments. For `int`
arguments with `width ≤ 0` or `height ≤ 0` it fails only when the `int`
product `width * height` is negative, where the array allocation throws;
otherwise it goes on to build, and the state it ends in has a root of region
`[0, width) x [0, height)`, which contains no pixel; when also `width ≤ 1` and
`height ≤ 1` it returns the tree of that root alone. -/
theorem nonpositive_size_not_checked (W H : Int) (fuel : Nat)
    (hW : -2 ^ 31 ≤ W ∧ W < 2 ^ 31) (hH : -2 ^ 31 ≤ H ∧ H < 2 ^ 31) (h : W ≤ 0 ∨ H ≤ 0) :
    (int32 (W * H) < 0 → QuadTree.QuadTree fuel W H = none) ∧
    (0 ≤ int32 (W * H) →
      ∃ s, QuadTree.QuadTree fuel W H = some s ∧ s.state.width = W ∧ s.state.height = H ∧
        s.state.root.box = ⟨0, W, 0, H, (int32 (W + 1)).tdiv 2, (int32 (H + 1)).tdiv 2⟩ ∧
        (∀ x y, ¬ s.state.root.box.contains x y) ∧
        (W ≤ 1 → H ≤ 1 → 1 ≤ fuel →
          s = .done ⟨W, H,
            ⟨⟨0, W, 0, H, (int32 (W + 1)).tdiv 2, (int32 (H + 1)).tdiv 2⟩, FLT_MIN, 1, 0⟩,
            []⟩)) := by
  constructor
  · intro hneg
    simp only [QuadTree.QuadTree, hneg, if_true]
  · intro hpos
    refine ⟨buildQuadTree fuel W H, quadTree_of_nonneg hpos, ?_⟩
    have hfix := splitNode_root_fixed fuel .root
      ⟨W, H, ⟨rootBox W H, FLT_MIN, 1, 0⟩, []⟩
    refine ⟨hfix.1, hfix.2.1, hfix.2.2, ?_, ?_⟩
    · intro x y hxy
      have hb : (buildQuadTree fuel W H).state.root.box = rootBox W H := hfix.2.2
      rw [hb] at hxy
      simp only [rootBox, QuadBoundingBox.contains] at hxy
      omega
    intro hW1 hH1 hfuel
    obtain ⟨f, rfl⟩ : ∃ f, fuel = f + 1 := ⟨fuel - 1, by omega⟩
    have hl : leafTest (rootBox W H) := by
      refine (leafTest_iff ?_ ?_ ?_ ?_).2 ?_
      · simp only [rootBox]; omega
      · simp only [rootBox]; omega
      · simp only [rootBox]; omega
      · simp only [rootBox]; omega
      · constructor <;> simp only [rootBox] <;> omega
    show splitNode (f + 1) .root ⟨W, H, ⟨rootBox W H, FLT_MIN, 1, 0⟩, []⟩ = _
    rw [splitNode_succ (n := ⟨rootBox W H, FLT_MIN, 1, 0⟩) (read_root _)]
    exact if_pos hl

/-- C8, witness: the amended claim at `width = 0`, `height = 5`. -/
theorem nonpositive_size_not_checked_witness :
    (int32 (0 * 5) < 0 → QuadTree.QuadTree 16 0 5 = none) ∧
    (0 ≤ int32 (0 * 5) →
      ∃ s, QuadTree.QuadTree 16 0 5 = some s ∧ s.state.width = 0 ∧ s.state.height = 5 ∧
        s.state.root.box = ⟨0, 0, 0, 5, (int32 (0 + 1)).tdiv 2, (int32 (5 + 1)).tdiv 2⟩ ∧
        (∀ x y, ¬ s.state.root.box.contains x y) ∧
        ((0 : Int) ≤ 1 → (5 : Int) ≤ 1 → 1 ≤ 16 →
          s = .done ⟨0, 5,
            ⟨⟨0, 0, 0, 5, (int32 (0 + 1)).tdiv 2, (int32 (5 + 1)).tdiv 2⟩, FLT_MIN, 1, 0⟩,
            []⟩)) :=
  nonpositive_size_not_checked 0 5 16 (by decide) (by decide) (Or.inl (by decide))

theorem tree_0x5 :
    (buildQuadTree 16 0 5).returned (fun t =>
      decide (t.root.box = ⟨0, 0, 0, 5, 0, 3⟩) && decide (t.root.childExists = 5) &&
        decide (t.nodes.keys.length = 8)) = true := by
  decide!

/-- C8, counterexample: `QuadTree(0, 5)` is not rejected: it returns a tree
whose root has the empty region `[0, 0) x [0, 5)` and two children, with eight
nodes in the map. -/
theorem zero_width_builds_tree :
    ∃ t, QuadTree.QuadTree 16 0 5 = some (.done t) ∧ t.root.box = ⟨0, 0, 0, 5, 0, 3⟩ ∧
      t.root.childExists = 5 ∧ t.nodes.keys.length = 8 := by
  obtain ⟨t, ht, hP⟩ := returned_sound tree_0x5
  simp only [Bool.and_eq_true, decide_eq_true_eq] at hP
  exact ⟨t, by rw [quadTree_of_small (by decide) (by decide) (by decide) (by decide), ht], hP.1.1, hP.1.2, hP.2⟩

/-! ## C4: parent recovery -/

theorem lt_of_div_pow_eq_one {k j : Nat} (h : k / 4 ^ j = 1) : k < 2 * 4 ^ j := by
  have hpos : 0 < 4 ^ j := Nat.pow_pos (by decide)
  have := (Nat.div_lt_iff_lt_mul hpos (x := k) (y := 2)).1 (by omega)
  omega

theorem Built.code_lt {t : QuadTree} (hb : Built t) {k : Nat} {Bk : QuadBoundingBox}
    (h : boxUnder 1 t.root.box k = some Bk) : ∃ j, j ≤ 15 ∧ k / 4 ^ j = 1 ∧ k < 2 ^ 31 := by
  obtain ⟨j, hj, hdiv, -⟩ := boxUnder_level hb.1 hb.2.1 h
  refine ⟨j, hj, hdiv, ?_⟩
  have h1 := lt_of_div_pow_eq_one hdiv
  have h2 : 4 ^ j ≤ 4 ^ 15 := Nat.pow_le_pow_right (by decide) hj
  have h3 : (2 : Nat) * 4 ^ 15 = 2 ^ 31 := by norm_num
  omega

/-- In the constructed tree, below the first level, the slot of `k / 4` holds
the node that created the node of `k`. -/
theorem Built.parent_slot {t : QuadTree} (hb : Built t) {k : Nat} {n : QuadTreeNode}
    (hr : t.read (.entry k) = some n) (hk : 16 ≤ k) :
    ∃ m, getParentNode t (.entry k) = some (t, .entry (k / 4)) ∧
      t.read (.entry (k / 4)) = some m ∧ m.locCode = k / 4 ∧ n.locCode = k ∧
      n.locCode = uint32 ((m.locCode <<< 2) ||| (k % 4)) ∧ n.box = childBox m.box (k % 4) ∧
      n.z = m.z ∧ m.childExists &&& (1 <<< (k % 4)) ≠ 0 ∧ BoxOK m.box ∧ ¬ isLeafBox m.box := by
  obtain ⟨hbox, hz, -, hp⟩ := hb.read_inv hr
  have hloc : n.locCode = k := by
    rcases hp with ⟨h, -⟩ | ⟨h, -⟩
    · cases h
    · exact (NodePtr.entry.inj h).symm
  rw [hloc] at hbox
  obtain ⟨Bp, hpb, hl, h3, hs, hnb⟩ := boxUnder_inv (by omega : k ≠ 1) hbox
  have h3' : (k / 4) % 4 ≠ 3 := by
    rcases h3 with h | h
    · omega
    · exact h
  have hfind : t.nodes.find (k / 4) = some (.val (specNode Bp t.root.z (k / 4))) :=
    hb.find_iff.2 ⟨by omega, Bp, hpb, rfl⟩
  obtain ⟨j, -, -, hlt⟩ := hb.code_lt hbox
  refine ⟨specNode Bp t.root.z (k / 4), ?_, read_entry_of_find hfind, rfl, hloc, ?_, hnb, hz,
    ?_, boxUnder_ok hb.1 hpb, hl⟩
  · simp only [getParentNode, hr, hloc, shiftRight_two]
    have : lookupNode t (k / 4) = (t, .entry (k / 4)) := by
      simp only [lookupNode, hfind]
    rw [this]
  · rw [hloc]
    simp only [specNode]
    rw [shift_or _ _ (Nat.mod_lt _ (by decide)), uint32, Nat.mod_eq_of_lt (by omega)]
    omega
  · simp only [specNode, h3', if_false, maskAfterSplit, hl]
    exact (childMask_bit Bp (Nat.mod_lt _ (by decide))).2 hs

/-- C4, as amended: in the tree built for `1 ≤ width, height ≤ 32768`, for
every node `n` of the map whose location code is at least 16 (a node below the
first level), `getParentNode(n)` changes nothing and returns the node from
which `n` was created (`n` has its code shifted by the quadrant, the box of
that quadrant and its `z`, and its bit is set in the mask), and the region of
that node strictly contains the region of `n`. -/
theorem parent_recovery (W H : Int) (fuel : Nat) (hW : 1 ≤ W) (hW' : W ≤ 32768)
    (hH : 1 ≤ H) (hH' : H ≤ 32768) (hfuel : 16 ≤ fuel) :
    ∃ t, QuadTree.QuadTree fuel W H = some (.done t) ∧
      ∀ (k : Nat) (n : QuadTreeNode), t.read (.entry k) = some n → 16 ≤ n.locCode →
        ∃ q m, getParentNode t (.entry k) = some (t, q) ∧ t.read q = some m ∧
          (∃ i, i < 4 ∧ n.locCode = uint32 ((m.locCode <<< 2) ||| i) ∧
            n.box = childBox m.box i ∧ n.z = m.z ∧ m.childExists &&& (1 <<< i) ≠ 0) ∧
          (∀ x y, n.box.contains x y → m.box.contains x y) ∧
          ∃ x y, m.box.contains x y ∧ ¬ n.box.contains x y := by
  obtain ⟨t, ht, -, -, -, -, hb⟩ := buildQuadTree_built hW hH hW' hH' hfuel
  refine ⟨t, by rw [quadTree_of_small (by omega) (by omega) (by omega) (by omega), ht], ?_⟩
  intro k n hr hk
  have hloc : n.locCode = k := by
    rcases (hb.read_inv hr).2.2.2 with ⟨h, -⟩ | ⟨h, -⟩
    · cases h
    · exact (NodePtr.entry.inj h).symm
  rw [hloc] at hk
  obtain ⟨m, hg, hm, -, -, hcode, hbox, hz, hbit, hok, hl⟩ := hb.parent_slot hr hk
  have hi : k % 4 < 4 := Nat.mod_lt _ (by decide)
  refine ⟨.entry (k / 4), m, hg, hm, ⟨k % 4, hi, hcode, hbox, hz, hbit⟩, ?_, ?_⟩
  · intro x y hxy
    rw [hbox] at hxy
    exact childBox_sub hok hi hxy
  · rw [hbox]
    exact childBox_strict hok hl hi

/-- C4, witness: the amended claim at a `4 x 4` frame buffer. -/
theorem parent_recovery_witness :
    ∃ t, QuadTree.QuadTree 16 4 4 = some (.done t) ∧
      ∀ (k : Nat) (n : QuadTreeNode), t.read (.entry k) = some n → 16 ≤ n.locCode →
        ∃ q m, getParentNode t (.entry k) = some (t, q) ∧ t.read q = some m ∧
          (∃ i, i < 4 ∧ n.locCode = uint32 ((m.locCode <<< 2) ||| i) ∧
            n.box = childBox m.box i ∧ n.z = m.z ∧ m.childExists &&& (1 <<< i) ≠ 0) ∧
          (∀ x y, n.box.contains x y → m.box.contains x y) ∧
          ∃ x y, m.box.contains x y ∧ ¬ n.box.contains x y :=
  parent_recovery 4 4 16 (by decide) (by decide) (by decide) (by decide) (by decide)

theorem tree_2x2_first_level :
    (buildQuadTree 16 2 2).returned (fun t =>
      decide (t.read (.entry 4) = some ⟨⟨0, 1, 0, 1, 1, 1⟩, FLT_MIN, 4, 0⟩) &&
        decide (t.nodes.find 1 = none)) = true := by
  decide!

theorem big_tree_slots :
    (buildQuadTree 17 65536 1).returned (fun t =>
      decide (t.read (.entry 16) = some ⟨⟨4, 5, 0, 1, 5, 1⟩, FLT_MIN, 16, 0⟩) &&
        decide (t.read (.entry 4) = some ⟨⟨2, 3, 0, 1, 3, 1⟩, FLT_MIN, 4, 0⟩) &&
        decide (t.read (.entry 1) = some ⟨⟨1, 2, 0, 1, 2, 1⟩, FLT_MIN, 1, 0⟩) &&
        decide (t.read (.entry 0) = some ⟨⟨0, 1, 0, 1, 1, 1⟩, FLT_MIN, 0, 0⟩)) = true := by
  decide!

theorem getParentNode_of_read {t : QuadTree} {p : NodePtr} {n : QuadTreeNode}
    (h : t.read p = some n) : getParentNode t p = some (lookupNode t (n.locCode / 4)) := by
  simp only [getParentNode, h, shiftRight_two]

theorem lookupNode_of_read {t : QuadTree} {k : Nat} {n : QuadTreeNode}
    (h : t.read (.entry k) = some n) : lookupNode t k = (t, .entry k) := by
  simp only [lookupNode, find_of_read_entry h]

/-- C4, counterexample: in the tree of `QuadTree(2, 2)` the node of code 4, a
child of the root, gets from `getParentNode` a pointer to a fresh slot whose
node is indeterminate, not the root; and in the tree of `QuadTree(65536, 1)`
the node of code 16 gets a node whose region `[2, 3) x [0, 1)` does not contain
its own region `[4, 5) x [0, 1)`. -/
theorem parent_recovery_fails :
    (¬ ∃ fuel t, QuadTree.QuadTree fuel 2 2 = some (.done t) ∧
      ∀ p n, t.read p = some n → p ≠ .root →
        ∃ t1 q m, getParentNode t p = some (t1, q) ∧ t1.read q = some m) ∧
    (¬ ∃ fuel t, QuadTree.QuadTree fuel 65536 1 = some (.done t) ∧
      ∀ p n, t.read p = some n → p ≠ .root →
        ∃ t1 q m, getParentNode t p = some (t1, q) ∧ t1.read q = some m ∧
          ∀ x y, n.box.contains x y → m.box.contains x y) := by
  constructor
  · rintro ⟨fuel, t, hq, hall⟩
    obtain ⟨t1, h1, hP⟩ := returned_sound tree_2x2_first_level
    have heq := buildQuadTree_unique (quadTree_eq_some hq) h1
    subst heq
    simp only [Bool.and_eq_true, decide_eq_true_eq] at hP
    obtain ⟨t2, q, m, hg, hm⟩ := hall _ _ hP.1 (by simp)
    rw [getParentNode_of_read hP.1] at hg
    have hl : lookupNode t (4 / 4) = ({ t with nodes := t.nodes.assign 1 .uninit }, .entry 1) := by
      simp only [lookupNode, Nat.reduceDiv, hP.2]
    rw [hl] at hg
    cases hg
    simp [QuadTree.read, find_assign] at hm
  · rintro ⟨fuel, t, hq, hall⟩
    obtain ⟨t1, h1, hP⟩ := returned_sound big_tree_slots
    have heq := buildQuadTree_unique (quadTree_eq_some hq) h1
    subst heq
    simp only [Bool.and_eq_true, decide_eq_true_eq] at hP
    obtain ⟨⟨⟨h16, h4⟩, -⟩, -⟩ := hP
    obtain ⟨t2, q, m, hg, hm, hsub⟩ := hall _ _ h16 (by simp)
    rw [getParentNode_of_read h16] at hg
    have hl : lookupNode t (16 / 4) = (t, .entry 4) := lookupNode_of_read h4
    rw [hl] at hg
    cases hg
    rw [h4] at hm
    cases hm
    have := hsub 4 0 (by decide)
    revert this
    decide

/-! ## C5: tree depth -/

theorem depthLoop_one (fuel depth : Nat) : depthLoop fuel 1 depth = some depth := by
  cases fuel <;> simp [depthLoop]

theorem depthLoop_zero (fuel depth : Nat) : depthLoop fuel 0 depth = none := by
  induction fuel generalizing depth with
  | zero => simp [depthLoop]
  | succ f ih => simp [depthLoop, ih]

/-- The loop returns the number of shifts by two bits that take the code to 1,
given fuel for that many rounds. -/
theorem depthLoop_eq : ∀ (j fuel k depth : Nat), k / 4 ^ j = 1 → j ≤ fuel →
    depthLoop fuel k depth = some (depth + j) := by
  intro j
  induction j with
  | zero =>
    intro fuel k depth hk _
    simp only [pow_zero, Nat.div_one] at hk
    subst hk
    exact depthLoop_one fuel depth
  | succ j ih =>
    intro fuel k depth hk hf
    obtain ⟨f, rfl⟩ : ∃ f, fuel = f + 1 := ⟨fuel - 1, by omega⟩
    rw [div_pow_succ] at hk
    have hne : k ≠ 1 := by
      rintro rfl
      simp at hk
    simp only [depthLoop, hne, if_false, shiftRight_two]
    rw [ih f (k / 4) (depth + 1) hk (by omega)]
    congr 1
    omega

theorem getNodeTreeDepth_of_read {t : QuadTree} {p : NodePtr} {n : QuadTreeNode}
    (h : t.read p = some n) (fuel : Nat) :
    getNodeTreeDepth fuel t p = depthLoop fuel n.locCode 0 := by
  simp only [getNodeTreeDepth, h]

/-- C5, as amended: in the tree built for `1 ≤ width, height ≤ 32768`,
`getNodeTreeDepth(root) = 0`; every node of the map has as depth the number of
shifts by two bits that take its code to 1; a child of the root (code 4 to 7)
has depth 1; and for every node `n` of code at least 16,
`getNodeTreeDepth(n) = getNodeTreeDepth(getParentNode(n)) + 1`. The loop is
given fuel for 15 rounds or more. -/
theorem depth_of_parent (W H : Int) (fuel : Nat) (hW : 1 ≤ W) (hW' : W ≤ 32768)
    (hH : 1 ≤ H) (hH' : H ≤ 32768) (hfuel : 16 ≤ fuel) :
    ∃ t, QuadTree.QuadTree fuel W H = some (.done t) ∧
      (∀ rounds, getNodeTreeDepth rounds t .root = some 0) ∧
      ∀ (k : Nat) (n : QuadTreeNode) (rounds : Nat), t.read (.entry k) = some n →
        15 ≤ rounds →
        (∃ d, getNodeTreeDepth rounds t (.entry k) = some d ∧ n.locCode / 4 ^ d = 1) ∧
        (n.locCode < 8 → getNodeTreeDepth rounds t (.entry k) = some 1) ∧
        (16 ≤ n.locCode →
          ∃ q d, getParentNode t (.entry k) = some (t, q) ∧
            getNodeTreeDepth rounds t q = some d ∧
            getNodeTreeDepth rounds t (.entry k) = some (d + 1)) := by
  obtain ⟨t, ht, -, -, -, -, hb⟩ := buildQuadTree_built hW hH hW' hH' hfuel
  refine ⟨t, by rw [quadTree_of_small (by omega) (by omega) (by omega) (by omega), ht], ?_, ?_⟩
  · intro rounds
    rw [getNodeTreeDepth_of_read (read_root t), hb.2.2.1]
    exact depthLoop_one _ _
  · intro k n rounds hr hrounds
    obtain ⟨hbox, -, -, hp⟩ := hb.read_inv hr
    have hloc : n.locCode = k := by
      rcases hp with ⟨h, -⟩ | ⟨h, -⟩
      · cases h
      · exact (NodePtr.entry.inj h).symm
    have hne : n.locCode ≠ 1 := by
      rcases hp with ⟨h, -⟩ | ⟨-, h⟩
      · cases h
      · exact h
    obtain ⟨j, hj, hdiv, -⟩ := hb.code_lt hbox
    have hdepth : getNodeTreeDepth rounds t (.entry k) = some j := by
      rw [getNodeTreeDepth_of_read hr, depthLoop_eq j rounds _ 0 hdiv (by omega)]
      simp
    have hj0 : j ≠ 0 := by
      rintro rfl
      simp at hdiv
      exact hne hdiv
    refine ⟨⟨j, hdepth, hdiv⟩, ?_, ?_⟩
    · intro h8
      rw [hdepth]
      have h4 := lt_of_div_pow_eq_one hdiv
      have : j = 1 := by
        by_contra hj1
        obtain ⟨i, rfl⟩ : ∃ i, j = i + 2 := ⟨j - 2, by omega⟩
        have h16 : 1 ≤ n.locCode / 4 ^ (i + 2) := by omega
        have hpos : 0 < 4 ^ (i + 2) := Nat.pow_pos (by decide)
        have hle := (Nat.le_div_iff_mul_le hpos).1 h16
        have : 4 ^ 2 ≤ 4 ^ (i + 2) := Nat.pow_le_pow_right (by decide) (by omega)
        omega
      rw [this]
    · intro h16
      rw [hloc] at h16
      obtain ⟨m, hg, hm, hmloc, -⟩ := hb.parent_slot hr h16
      obtain ⟨i, rfl⟩ : ∃ i, j = i + 1 := ⟨j - 1, by omega⟩
      refine ⟨.entry (k / 4), i, hg, ?_, hdepth⟩
      rw [getNodeTreeDepth_of_read hm, hmloc]
      rw [hloc, div_pow_succ] at hdiv
      rw [depthLoop_eq i rounds _ 0 hdiv (by omega)]
      simp

/-- C5, witness: the amended claim at a `4 x 4` frame buffer. -/
theorem depth_of_parent_witness :
    ∃ t, QuadTree.QuadTree 16 4 4 = some (.done t) ∧
      (∀ rounds, getNodeTreeDepth rounds t .root = some 0) ∧
      ∀ (k : Nat) (n : QuadTreeNode) (rounds : Nat), t.read (.entry k) = some n →
        15 ≤ rounds →
        (∃ d, getNodeTreeDepth rounds t (.entry k) = some d ∧ n.locCode / 4 ^ d = 1) ∧
        (n.locCode < 8 → getNodeTreeDepth rounds t (.entry k) = some 1) ∧
        (16 ≤ n.locCode →
          ∃ q d, getParentNode t (.entry k) = some (t, q) ∧
            getNodeTreeDepth rounds t q = some d ∧
            getNodeTreeDepth rounds t (.entry k) = some (d + 1)) :=
  depth_of_parent 4 4 16 (by decide) (by decide) (by decide) (by decide) (by decide)

/-- C5, counterexample: in the tree of `QuadTree(2, 2)` the node of code 4 has
a parent, as `getParentNode` returns it, whose depth is not determinate; and in
the tree of `QuadTree(65536, 1)` the node stored under code 1 is not the root,
and for its parent, the node of code 0, the loop of `getNodeTreeDepth` never
ends. -/
theorem depth_of_parent_fails :
    (¬ ∃ fuel t, QuadTree.QuadTree fuel 2 2 = some (.done t) ∧
      ∀ p n, t.read p = some n → p ≠ .root →
        ∃ t1 q rounds d, getParentNode t p = some (t1, q) ∧
          getNodeTreeDepth rounds t1 q = some d ∧
          getNodeTreeDepth rounds t p = some (d + 1)) ∧
    (¬ ∃ fuel t, QuadTree.QuadTree fuel 65536 1 = some (.done t) ∧
      ∀ p n, t.read p = some n → p ≠ .root →
        ∃ t1 q rounds d, getParentNode t p = some (t1, q) ∧
          getNodeTreeDepth rounds t1 q = some d ∧
          getNodeTreeDepth rounds t p = some (d + 1)) := by
  constructor
  · rintro ⟨fuel, t, hq, hall⟩
    obtain ⟨t1, h1, hP⟩ := returned_sound tree_2x2_first_level
    have heq := buildQuadTree_unique (quadTree_eq_some hq) h1
    subst heq
    simp only [Bool.and_eq_true, decide_eq_true_eq] at hP
    obtain ⟨t2, q, rounds, d, hg, hd, -⟩ := hall _ _ hP.1 (by simp)
    rw [getParentNode_of_read hP.1] at hg
    have hl : lookupNode t (4 / 4) = ({ t with nodes := t.nodes.assign 1 .uninit }, .entry 1) := by
      simp only [lookupNode, Nat.reduceDiv, hP.2]
    rw [hl] at hg
    cases hg
    simp [getNodeTreeDepth, QuadTree.read, find_assign] at hd
  · rintro ⟨fuel, t, hq, hall⟩
    obtain ⟨t1, h1, hP⟩ := returned_sound big_tree_slots
    have heq := buildQuadTree_unique (quadTree_eq_some hq) h1
    subst heq
    simp only [Bool.and_eq_true, decide_eq_true_eq] at hP
    obtain ⟨⟨-, hone⟩, hzero⟩ := hP
    obtain ⟨t2, q, rounds, d, hg, hd, -⟩ := hall _ _ hone (by simp)
    rw [getParentNode_of_read hone] at hg
    have hl : lookupNode t (1 / 4) = (t, .entry 0) := lookupNode_of_read hzero
    rw [hl] at hg
    cases hg
    rw [getNodeTreeDepth_of_read hzero, depthLoop_zero] at hd
    cases hd

/-! ## C3: location codes -/

theorem uint8_or_bit_ne_zero (x : Nat) {i : Nat} (hi : i < 4) : uint8 (x ||| (1 <<< i)) ≠ 0 := by
  intro h
  have hb : (uint8 (x ||| (1 <<< i))).testBit i = true := by
    simp only [uint8, Nat.testBit_mod_two_pow, Nat.testBit_or, Nat.one_shiftLeft,
      Nat.testBit_two_pow_self, Bool.or_true, Bool.and_true, decide_eq_true_eq]
    omega
  rw [h] at hb
  simp at hb

theorem insertsFresh_append {base a1 : NodeMap} :
    ∀ {a2 : NodeMap}, InsertsFresh base a1 → InsertsFresh (a1 ++ base) a2 →
      InsertsFresh base (a2 ++ a1) := by
  intro a2
  induction a2 with
  | nil => intro h1 _; exact h1
  | cons e rest ih =>
    intro h1 h2
    refine ⟨ih h1 h2.1, ?_⟩
    intro he
    have := h2.2 he
    show NodeMap.find (rest ++ a1 ++ base) e.1 = none
    rwa [List.append_assoc]

/-- One round of the first loop appends its assignments, and its insertion, if
any, goes to a key the map does not have. -/
theorem createChild_fresh {t a a1 : QuadTree} {r : NodePtr} {n : QuadTreeNode} {c m : Nat}
    (hloc : n.locCode = c) (hr : r = .root ∨ r = .entry c) (hc : 1 ≤ c)
    (hcode : 4 * c + 3 < 2 ^ 32) (hm : m < 4) (h : FirstLoopInv t r n c m a)
    (hfresh : ∀ k, Under c k → k ≠ c → t.nodes.find k = none)
    (he : createChild n.box r m a = .done a1) :
    ∃ added, a1.nodes = added ++ a.nodes ∧ InsertsFresh a.nodes added := by
  obtain ⟨-, -, hrd, -, -, hframe, -⟩ := h
  cases hs : skipQuadrant n.box m with
  | true =>
    rw [createChild_skip n.box hs] at he
    cases he
    exact ⟨[], rfl, trivial⟩
  | false =>
    rw [createChild_eq n.box hrd hs] at he
    cases he
    have hcm : uint32 ((c <<< 2) ||| m) = 4 * c + m := childCode c m hm hcode
    have hnone : a.nodes.find (4 * c + m) = none := by
      rw [hframe (4 * c + m) (by omega) (fun i hi _ => by omega)]
      exact hfresh _ (Under.of_child hm (Under.refl _)) (by omega)
    rcases hr with rfl | rfl
    · refine ⟨[(4 * c + m, .val ⟨childBox n.box m, n.z, 4 * c + m, 0⟩)], ?_, trivial, ?_⟩
      · simp only [QuadTree.write, NodeMap.assign, hloc, hcm, List.singleton_append]
      · intro _
        exact hnone
    · refine ⟨[(4 * c + m, .val ⟨childBox n.box m, n.z, 4 * c + m, 0⟩),
        (c, .val ⟨n.box, n.z, n.locCode,
          uint8 (partialMask n.box m ||| (1 <<< m))⟩)], ?_, ⟨trivial, ?_⟩, ?_⟩
      · simp only [QuadTree.write, NodeMap.assign, hloc, hcm, List.cons_append, List.nil_append]
      · intro hins
        simp only [isInsertion, beq_iff_eq] at hins
        exact absurd hins (uint8_or_bit_ne_zero _ hm)
      · intro _
        show NodeMap.find ((c, _) :: a.nodes) (4 * c + m) = none
        rw [find_cons, if_neg (by omega)]
        exact hnone

theorem log_trans {t a b : QuadTree}
    (h1 : ∃ x, a.nodes = x ++ t.nodes ∧ InsertsFresh t.nodes x)
    (h2 : ∃ y, b.nodes = y ++ a.nodes ∧ InsertsFresh a.nodes y) :
    ∃ z, b.nodes = z ++ t.nodes ∧ InsertsFresh t.nodes z := by
  obtain ⟨x, hx, fx⟩ := h1
  obtain ⟨y, hy, fy⟩ := h2
  refine ⟨y ++ x, by rw [hy, hx, List.append_assoc], ?_⟩
  rw [hx] at fy
  exact insertsFresh_append fx fy

/-- One round of the second loop appends its assignments, and none of its
insertions goes to a key the map already has. -/
theorem descend_fresh {e : Nat} {self : NodePtr → QuadTree → Step}
    (hfs : SplitsFresh e self) {t t1 tm t2 : QuadTree} {r : NodePtr} {n : QuadTreeNode}
    {c m : Nat} (hloc : n.locCode = c) (hc : 1 ≤ c)
    (hcode : (c + 1) * 4 ^ (e + 1) ≤ 2 ^ 32) (hB : BoxOK n.box) (hf : FitsIn (e + 1) n.box)
    (h1 : FirstLoopInv t r n c 4 t1) (hm : m < 3) (h : SecondLoopInv t t1 r n c m tm)
    (hfresh : ∀ k, Under c k → k ≠ c → t.nodes.find k = none)
    (he : descend self r m tm = .done t2) :
    ∃ added, t2.nodes = added ++ tm.nodes ∧ InsertsFresh tm.nodes added := by
  obtain ⟨-, -, hrd, -, hkids, -, hrest, -⟩ := h
  have hfit := childCode_fits hcode
  have hcm : uint32 ((c <<< 2) ||| m) = 4 * c + m := childCode c m (by omega) hfit
  cases hs : skipQuadrant n.box m with
  | true =>
    have hbit : ¬ (childMask n.box &&& (1 <<< m) ≠ 0) := by
      rw [childMask_bit n.box (by omega : m < 4), hs]; simp
    rw [descend_of_no_bit hrd hbit] at he
    cases he
    exact ⟨[], rfl, trivial⟩
  | false =>
    have hbit : childMask n.box &&& (1 <<< m) ≠ 0 := (childMask_bit n.box (by omega)).2 hs
    have hchild := hkids m (le_refl _) (by omega) hs
    have hdesc : descend self r m tm = self (.entry (4 * c + m)) tm := by
      have := @descend_of_bit self tm r _ m _ hrd hbit
        (by simp only [hloc, hcm]; exact hchild)
      simpa only [hloc, hcm] using this
    rw [hdesc] at he
    refine hfs tm (.entry (4 * c + m)) ⟨childBox n.box m, n.z, 4 * c + m, 0⟩ (4 * c + m)
      (read_entry_of_find hchild) rfl rfl (Or.inr rfl) (by omega)
      (childCode_bound (by omega) hcode) (childBox_ok hB (by omega) hs)
      (childBox_fits hB hf (by omega)) ?_ t2 he
    intro k hu hne
    have hkc : k ≠ c := by
      have := hu.le
      omega
    have hnot : ¬ ∃ j, j < m ∧ Under (4 * c + j) k := by
      rintro ⟨j, hj, huj⟩
      have := Under.sibling hc (by omega) (by omega) huj hu
      omega
    rw [hrest k hkc hnot, firstLoop_untouched h1 hc (by omega) hkc hu (fun h => absurd h hne)]
    exact hfresh k (Under.of_child (by omega) hu) hkc

/-- With enough fuel and no 32-bit overflow below it, no insertion made by
`splitNode` overwrites a node. -/
theorem splitNode_fresh (e : Nat) : ∀ fuel, e < fuel → SplitsFresh e (splitNode fuel) := by
  induction e with
  | zero =>
    intro fuel hfuel t r n c hread hloc hce hr hc hcode hB hf hfresh t1 ht1
    obtain ⟨fuel, rfl⟩ : ∃ f, fuel = f + 1 := ⟨fuel - 1, by omega⟩
    rw [splitNode_succ_ok hread hB, if_pos (fitsIn_zero_leaf hf)] at ht1
    cases ht1
    exact ⟨[], rfl, trivial⟩
  | succ e ih =>
    intro fuel hfuel t r n c hread hloc hce hr hc hcode hB hf hfresh t1 ht1
    obtain ⟨fuel, rfl⟩ : ∃ f, fuel = f + 1 := ⟨fuel - 1, by omega⟩
    by_cases hl : isLeafBox n.box
    · rw [splitNode_succ_ok hread hB, if_pos hl] at ht1
      cases ht1
      exact ⟨[], rfl, trivial⟩
    · have hself := splitNode_spec e fuel (by omega)
      have hfs := ih fuel (by omega)
      have hfit := childCode_fits hcode
      have i0 := firstLoop_start c hread hce
      obtain ⟨a1, c1, i1⟩ := firstLoop_step hloc hr hc hfit (by decide) i0
      obtain ⟨a2, c2, i2⟩ := firstLoop_step hloc hr hc hfit (by decide) i1
      obtain ⟨a3, c3, i3⟩ := firstLoop_step hloc hr hc hfit (by decide) i2
      obtain ⟨a4, c4, i4⟩ := firstLoop_step hloc hr hc hfit (by decide) i3
      have j0 := secondLoop_start hc i4
      obtain ⟨b1, d1, j1⟩ := secondLoop_step hself hloc hr hc hcode hB hf hl i4 (by decide) j0
      obtain ⟨b2, d2, j2⟩ := secondLoop_step hself hloc hr hc hcode hB hf hl i4 (by decide) j1
      obtain ⟨b3, d3, j3⟩ := secondLoop_step hself hloc hr hc hcode hB hf hl i4 (by decide) j2
      have hrun : splitNode (fuel + 1) r t = .done b3 := by
        rw [splitNode_succ_ok hread hB, if_neg hl]
        simp only [List.foldl, Step.andThen, c1, c2, c3, c4, d1, d2, d3]
      rw [hrun] at ht1
      cases ht1
      have l1 := createChild_fresh hloc hr hc hfit (by decide) i0 hfresh c1
      have l2 := createChild_fresh hloc hr hc hfit (by decide) i1 hfresh c2
      have l3 := createChild_fresh hloc hr hc hfit (by decide) i2 hfresh c3
      have l4 := createChild_fresh hloc hr hc hfit (by decide) i3 hfresh c4
      have m1 := descend_fresh hfs hloc hc hcode hB hf i4 (by decide) j0 hfresh d1
      have m2 := descend_fresh hfs hloc hc hcode hB hf i4 (by decide) j1 hfresh d2
      have m3 := descend_fresh hfs hloc hc hcode hB hf i4 (by decide) j2 hfresh d3
      exact log_trans (log_trans (log_trans (log_trans (log_trans (log_trans l1 l2) l3) l4) m1)
        m2) m3

theorem big_tree_code_one :
    (buildQuadTree 17 65536 1).returned (fun t =>
      decide (t.root.locCode = 1) &&
        decide (t.read (.entry 1) = some ⟨⟨1, 2, 0, 1, 2, 1⟩, FLT_MIN, 1, 0⟩)) = true := by
  decide!

/-- C3, as amended: in the tree built for `1 ≤ width, height ≤ 32768`, no two
distinct nodes (the root or a slot of the map) have the same location code,
the root is the only node with code 1, and no insertion
`nodes[nodeTemp->locCode] = *nodeTemp` that construction made went to a key
that the map already had. -/
theorem locCode_unique (W H : Int) (fuel : Nat) (hW : 1 ≤ W) (hW' : W ≤ 32768)
    (hH : 1 ≤ H) (hH' : H ≤ 32768) (hfuel : 16 ≤ fuel) :
    ∃ t, QuadTree.QuadTree fuel W H = some (.done t) ∧
      (∀ p q n m, t.read p = some n → t.read q = some m → p ≠ q → n.locCode ≠ m.locCode) ∧
      (∀ p n, t.read p = some n → n.locCode = 1 → p = .root) ∧
      InsertsFresh [] t.nodes := by
  obtain ⟨t, ht, -, -, -, -, hb⟩ := buildQuadTree_built hW hH hW' hH' hfuel
  refine ⟨t, by rw [quadTree_of_small (by omega) (by omega) (by omega) (by omega), ht], ?_, ?_, ?_⟩
  · intro p q n m hn hm hne hcode
    exact hne (hb.ptr_unique hn hm hcode)
  · intro p n hn hone
    rcases (hb.read_inv hn).2.2.2 with ⟨h, -⟩ | ⟨-, h⟩
    · exact h
    · exact absurd hone h
  · have hfit : FitsIn 15 (rootBox W H) := by
      constructor <;> simp only [rootBox] <;> norm_num <;> omega
    obtain ⟨added, hadd, hfr⟩ := splitNode_fresh 15 fuel (by omega)
      { width := W, height := H, root := ⟨rootBox W H, FLT_MIN, 1, 0⟩, nodes := [] } .root
      ⟨rootBox W H, FLT_MIN, 1, 0⟩ 1 rfl rfl rfl (Or.inl rfl) (le_refl _) (by norm_num)
      (rootBox_ok_small hW hH hW' hH') hfit (fun _ _ _ => rfl) t ht
    rw [hadd]
    simpa using hfr

/-- C3, witness: the amended claim at a `4 x 4` frame buffer. -/
theorem locCode_unique_witness :
    ∃ t, QuadTree.QuadTree 16 4 4 = some (.done t) ∧
      (∀ p q n m, t.read p = some n → t.read q = some m → p ≠ q → n.locCode ≠ m.locCode) ∧
      (∀ p n, t.read p = some n → n.locCode = 1 → p = .root) ∧
      InsertsFresh [] t.nodes :=
  locCode_unique 4 4 16 (by decide) (by decide) (by decide) (by decide) (by decide)

/-- C3, counterexample: for a `65536 x 1` frame buffer no amount of fuel makes
construction return a tree whose nodes have distinct location codes: in the
tree it returns, `uint32_t` wrap-around gave the node of region
`[1, 2) x [0, 1)`, sixteen levels down, the code 1 of the root. -/
theorem locCode_unique_fails :
    ¬ ∃ fuel t, QuadTree.QuadTree fuel 65536 1 = some (.done t) ∧
      ∀ p q n m, t.read p = some n → t.read q = some m → p ≠ q → n.locCode ≠ m.locCode := by
  rintro ⟨fuel, t, hq, hall⟩
  obtain ⟨t1, h1, hP⟩ := returned_sound big_tree_code_one
  have heq := buildQuadTree_unique (quadTree_eq_some hq) h1
  subst heq
  simp only [Bool.and_eq_true, decide_eq_true_eq] at hP
  exact hall .root (.entry 1) _ _ (read_root t) hP.2 (by simp) hP.1

/-! ## Construction returns for every size -/

theorem maskBit_iff (x i : Nat) : maskBit x i ↔ x.testBit i = true := by
  unfold maskBit
  rw [Nat.one_shiftLeft]
  constructor
  · intro h
    by_contra hb
    apply h
    apply Nat.eq_of_testBit_eq
    intro j
    simp only [Nat.testBit_and, Nat.testBit_two_pow, Nat.zero_testBit]
    by_cases hij : i = j
    · subst hij; simp [hb]
    · simp [hij]
  · intro h h0
    have := congrArg (fun y => y.testBit i) h0
    simp [h] at this

theorem maskBit_set (x : Nat) {i : Nat} (hi : i < 4) : maskBit (uint8 (x ||| (1 <<< i))) i := by
  rw [maskBit_iff]
  simp only [uint8, Nat.testBit_mod_two_pow, Nat.testBit_or, Nat.one_shiftLeft,
    Nat.testBit_two_pow_self, Bool.or_true, Bool.and_true, decide_eq_true_eq]
  omega

theorem maskBit_other (x : Nat) {i j : Nat} (hj : j < 4) (hne : i ≠ j) :
    maskBit (uint8 (x ||| (1 <<< i))) j ↔ maskBit x j := by
  rw [maskBit_iff, maskBit_iff]
  simp only [uint8, Nat.testBit_mod_two_pow, Nat.testBit_or, Nat.one_shiftLeft,
    Nat.testBit_two_pow_of_ne hne, Bool.or_false, Bool.and_eq_true, decide_eq_true_eq]
  constructor
  · exact fun h => h.2
  · exact fun h => ⟨by omega, h⟩

theorem not_maskBit_zero (i : Nat) : ¬ maskBit 0 i := by
  simp [maskBit]

theorem find_append (a b : NodeMap) (k : Nat) :
    NodeMap.find (a ++ b) k = match NodeMap.find a k with
      | some s => some s
      | none => NodeMap.find b k := by
  induction a with
  | nil => rfl
  | cons x a ih =>
    obtain ⟨k1, v⟩ := x
    simp only [List.cons_append, NodeMap.find]
    by_cases h : k1 = k
    · simp only [h, if_true]
    · simp only [h, if_false]; exact ih

theorem find_append_of_some {a : NodeMap} {k : Nat} {s : Slot} (h : NodeMap.find a k = some s)
    (b : NodeMap) : NodeMap.find (a ++ b) k = some s := by
  rw [find_append, h]

theorem find_append_ne_none {a b : NodeMap} {k : Nat}
    (h : NodeMap.find a k ≠ none ∨ NodeMap.find b k ≠ none) :
    NodeMap.find (a ++ b) k ≠ none := by
  rw [find_append]
  cases ha : NodeMap.find a k with
  | some s => simp
  | none =>
    rcases h with h | h
    · exact absurd ha h
    · simpa using h

theorem fitsIn_succ {e : Nat} {B : QuadBoundingBox} (h : FitsIn e B) : FitsIn (e + 1) B := by
  obtain ⟨h1, h2⟩ := h
  have hp : (2 : Int) ^ (e + 1) = 2 * 2 ^ e := by ring
  have hpos : (0 : Int) < 2 ^ e := by positivity
  exact ⟨by rw [hp]; omega, by rw [hp]; omega⟩

/-- What one quadrant that is not skipped leaves, whatever the keys are. -/
theorem createChild_after {s : QuadTree} {r : NodePtr} {cur : QuadTreeNode} {i : Nat}
    (B : QuadBoundingBox) (hread : s.read r = some cur) (hs : skipQuadrant B i = false) :
    ∃ s1 new, createChild B r i s = .done s1 ∧ s1.nodes = new ++ s.nodes ∧
      (∀ x ∈ new, x = (childKey cur.locCode i,
            Slot.val ⟨childBox B i, cur.z, childKey cur.locCode i, 0⟩) ∨
          (r = .entry x.1 ∧
            x.2 = Slot.val { cur with childExists := uint8 (cur.childExists ||| (1 <<< i)) })) ∧
      NodeMap.find new (childKey cur.locCode i) =
        some (.val ⟨childBox B i, cur.z, childKey cur.locCode i, 0⟩) ∧
      (r ≠ .entry (childKey cur.locCode i) →
        s1.read r = some { cur with childExists := uint8 (cur.childExists ||| (1 <<< i)) }) ∧
      (∀ p, p ≠ r → p ≠ .entry (childKey cur.locCode i) → s1.read p = s.read p) ∧
      (∀ k, s1.nodes.find k ≠ none →
        k = childKey cur.locCode i ∨ r = .entry k ∨ s.nodes.find k ≠ none) ∧
      s1.root.box = s.root.box := by
  cases r with
  | null => cases hread
  | root =>
    refine ⟨_, [(childKey cur.locCode i, Slot.val ⟨childBox B i, cur.z,
      childKey cur.locCode i, 0⟩)], createChild_eq B hread hs, rfl, ?_, ?_, ?_, ?_, ?_, ?_⟩
    · intro x hx
      simp only [List.mem_singleton] at hx
      exact Or.inl hx
    · simp only [NodeMap.find, if_true]
    · intro _; rfl
    · intro p hp hp1
      cases p with
      | null => rfl
      | root => exact absurd rfl hp
      | entry k =>
        have hk : childKey cur.locCode i ≠ k := fun h => hp1 (by rw [h])
        simp only [read_entry, QuadTree.write, NodeMap.assign, NodeMap.find, childKey] at hk ⊢
        rw [if_neg hk]
    · intro k hk
      by_cases h : childKey cur.locCode i = k
      · exact Or.inl h.symm
      · refine Or.inr (Or.inr ?_)
        simp only [QuadTree.write, NodeMap.assign, NodeMap.find, childKey] at hk h
        rw [if_neg h] at hk
        exact hk
    · rw [read_root] at hread
      cases hread
      rfl
  | entry kr =>
    refine ⟨_, [(childKey cur.locCode i, Slot.val ⟨childBox B i, cur.z,
      childKey cur.locCode i, 0⟩), (kr, Slot.val { cur with
        childExists := uint8 (cur.childExists ||| (1 <<< i)) })], createChild_eq B hread hs,
      rfl, ?_, ?_, ?_, ?_, ?_, rfl⟩
    · intro x hx
      simp only [List.mem_cons, List.mem_singleton, List.not_mem_nil, or_false] at hx
      rcases hx with rfl | rfl
      · exact Or.inl rfl
      · exact Or.inr ⟨rfl, rfl⟩
    · simp only [NodeMap.find, if_true]
    · intro hne
      have hk : childKey cur.locCode i ≠ kr := fun h => hne (by rw [h])
      simp only [read_entry, QuadTree.write, NodeMap.assign, NodeMap.find, childKey] at hk ⊢
      rw [if_neg hk]
      simp only [if_true]
    · intro p hp hp1
      cases p with
      | null => rfl
      | root => rfl
      | entry k =>
        have hk : childKey cur.locCode i ≠ k := fun h => hp1 (by rw [h])
        have hk1 : kr ≠ k := fun h => hp (by rw [h])
        simp only [read_entry, QuadTree.write, NodeMap.assign, NodeMap.find, childKey] at hk ⊢
        rw [if_neg hk, if_neg hk1]
    · intro k hk
      by_cases h : childKey cur.locCode i = k
      · exact Or.inl h.symm
      · by_cases h1 : kr = k
        · exact Or.inr (Or.inl (by rw [h1]))
        · refine Or.inr (Or.inr ?_)
          simp only [QuadTree.write, NodeMap.assign, NodeMap.find, childKey] at hk h
          rw [if_neg h, if_neg h1] at hk
          exact hk

theorem read_of_find_append {s : QuadTree} {new base : NodeMap} (h : s.nodes = new ++ base)
    {k : Nat} {n : QuadTreeNode} (hf : NodeMap.find new k = some (.val n)) :
    s.read (.entry k) = some n := by
  apply read_entry_of_find
  rw [h]
  exact find_append_of_some hf base

/-- Reading the state that one quadrant that is not skipped leaves. -/
theorem createChild_reads {s : QuadTree} {r : NodePtr} {cur : QuadTreeNode} {i : Nat}
    (B : QuadBoundingBox) (hread : s.read r = some cur) (hs : skipQuadrant B i = false) :
    ∃ s1 new, createChild B r i s = .done s1 ∧ s1.nodes = new ++ s.nodes ∧
      (∀ x ∈ new, x = (childKey cur.locCode i,
            Slot.val ⟨childBox B i, cur.z, childKey cur.locCode i, 0⟩) ∨
          (r = .entry x.1 ∧
            x.2 = Slot.val { cur with childExists := uint8 (cur.childExists ||| (1 <<< i)) })) ∧
      NodeMap.find new (childKey cur.locCode i) ≠ none ∧
      s1.read (.entry (childKey cur.locCode i)) =
        some ⟨childBox B i, cur.z, childKey cur.locCode i, 0⟩ ∧
      (r ≠ .entry (childKey cur.locCode i) →
        s1.read r = some { cur with childExists := uint8 (cur.childExists ||| (1 <<< i)) }) ∧
      (∀ p n1, s1.read p = some n1 →
        (p = .entry (childKey cur.locCode i) ∧
          n1 = ⟨childBox B i, cur.z, childKey cur.locCode i, 0⟩) ∨
        (p = r ∧ r ≠ .entry (childKey cur.locCode i) ∧
          n1 = { cur with childExists := uint8 (cur.childExists ||| (1 <<< i)) }) ∨
        (p ≠ r ∧ p ≠ .entry (childKey cur.locCode i) ∧ s.read p = some n1)) ∧
      (∀ p, p ≠ r → p ≠ .entry (childKey cur.locCode i) → s1.read p = s.read p) ∧
      (∀ k, s1.nodes.find k ≠ none →
        k = childKey cur.locCode i ∨ r = .entry k ∨ s.nodes.find k ≠ none) ∧
      s1.root.box = s.root.box := by
  obtain ⟨s1, new, hrun, hn, hnew, hf, hrd, hoth, hpres, hroot⟩ := createChild_after B hread hs
  have hchild := read_of_find_append hn hf
  refine ⟨s1, new, hrun, hn, hnew, by rw [hf]; simp, hchild, hrd, ?_, hoth, hpres, hroot⟩
  intro p n1 hp
  by_cases h1 : p = .entry (childKey cur.locCode i)
  · subst h1
    rw [hchild] at hp
    exact Or.inl ⟨rfl, (Option.some.inj hp).symm⟩
  · by_cases h2 : p = r
    · subst h2
      rw [hrd h1] at hp
      exact Or.inr (Or.inl ⟨rfl, h1, (Option.some.inj hp).symm⟩)
    · rw [hoth p h2 h1] at hp
      exact Or.inr (Or.inr ⟨h2, h1, hp⟩)

theorem overwrote_mono {B : QuadBoundingBox} {r : NodePtr} {m : Nat} (h : Overwrote B r m) :
    Overwrote B r (m + 1) := by
  obtain ⟨k, hk, j, hj, hs, he⟩ := h
  exact ⟨k, hk, j, by omega, hs, he⟩

theorem overwrote_of_succ {B : QuadBoundingBox} {r : NodePtr} {m : Nat}
    (h : Overwrote B r (m + 1))
    (hm : skipQuadrant B m = true ∨ r ≠ .entry (childKey (codeOf r) m)) : Overwrote B r m := by
  obtain ⟨k, hk, j, hj, hs, he⟩ := h
  by_cases hjm : j = m
  · subst hjm
    rcases hm with hm | hm
    · rw [hm] at hs; cases hs
    · subst hk
      simp only [codeOf, he] at hm
      exact absurd rfl hm
  · exact ⟨k, hk, j, by omega, hs, he⟩

theorem leaf_of_skips {B : QuadBoundingBox} (hB : BoxOK B) (h1 : skipQuadrant B 1 = true)
    (h2 : skipQuadrant B 2 = true) : isLeafBox B := by
  obtain ⟨a1, a2, a3, a4, a5, a6⟩ := hB
  simp only [skipQuadrant_one, skipQuadrant_two, decide_eq_true_eq] at h1 h2
  constructor <;> omega

theorem firstLoopGen_start {t : QuadTree} {r : NodePtr} {n : QuadTreeNode} {e : Nat}
    (ht : Sound t) (hr : t.read r = some n) (hf : FitsIn (e + 1) n.box) :
    FirstLoopGen t r n e 0 t := by
  refine ⟨[], n, rfl, ht, hr, hf, Or.inr rfl, ?_, ?_, ?_⟩
  · intro x hx; cases hx
  · intro p n1 hp i hi hb
    exact Or.inr ⟨n1, hp, hb⟩
  · intro i hi hb
    refine Or.inr ⟨?_, Nat.zero_le _, hb⟩
    rintro ⟨k, -, j, hj, -⟩
    omega

theorem firstLoopGen_step {t : QuadTree} {r : NodePtr} {n : QuadTreeNode} {e m : Nat}
    {s : QuadTree} (ht : Sound t) (hr : t.read r = some n) (hB : BoxOK n.box)
    (hf : FitsIn (e + 1) n.box) (hl : ¬ isLeafBox n.box) (hm : m < 4)
    (h : FirstLoopGen t r n e m s) :
    ∃ s1, createChild n.box r m s = .done s1 ∧ FirstLoopGen t r n e (m + 1) s1 := by
  obtain ⟨added, cur, hnodes, hsound, hcur, hfit, hbox, hR, hbits, hQ⟩ := h
  cases hs : skipQuadrant n.box m with
  | true =>
    refine ⟨s, createChild_skip _ hs, added, cur, hnodes, hsound, hcur, hfit,
      hbox.imp overwrote_mono id, hR, hbits, ?_⟩
    intro i hi hb
    rcases hQ i hi hb with h | ⟨hno, hmi, hnb⟩
    · exact Or.inl h
    · refine Or.inr ⟨fun h => hno (overwrote_of_succ h (Or.inl hs)), ?_, hnb⟩
      by_contra hlt
      have him : i = m := by omega
      subst him
      rcases ht.2.2.2.1 r n hr i hi hnb with h | ⟨k, hk, j, hj, hkj⟩
      · rw [hs] at h; cases h
      · have hsj : skipQuadrant n.box j = true := by
          by_contra hne
          exact hno ⟨k, hk, j, hj, by simpa using hne, hkj⟩
        have hj1 : j = 0 ∨ (j = 1 ∧ i = 2) := by omega
        rcases hj1 with rfl | ⟨rfl, rfl⟩
        · rw [skipQuadrant_zero] at hsj; cases hsj
        · exact hl (leaf_of_skips hB hsj hs)
  | false =>
    have hloc : cur.locCode = codeOf r := hsound.1 r cur hcur
    obtain ⟨s1, new, hrun, hn1, hnew, hfnew, hchild, hrd, hcases, hoth, hpres, hroot⟩ :=
      createChild_reads n.box hcur hs
    generalize hcur1 : ({ cur with childExists := uint8 (cur.childExists ||| (1 <<< m)) } :
      QuadTreeNode) = cur1 at hnew hrd hcases
    have hc1 : cur1.locCode = codeOf r ∧ cur1.box = cur.box ∧
        cur1.childExists = uint8 (cur.childExists ||| (1 <<< m)) := by
      subst hcur1; exact ⟨hloc, rfl, rfl⟩
    clear hcur1
    rw [hloc] at hnew hfnew hchild hrd hcases hpres hoth
    generalize hchd : (⟨childBox n.box m, cur.z, childKey (codeOf r) m, 0⟩ : QuadTreeNode) = chd
      at hnew hchild hcases
    have hch : chd.locCode = childKey (codeOf r) m ∧ chd.box = childBox n.box m ∧
        chd.childExists = 0 := by
      subst hchd; exact ⟨rfl, rfl, rfl⟩
    clear hchd
    have hcb : BoxOK cur.box := everyBox_read hsound.2.2.2.2 hcur
    have hchfit : FitsIn e (childBox n.box m) := childBox_fits hB hf hm
    have hnodes1 : s1.nodes = (new ++ added) ++ t.nodes := by
      rw [hn1, hnodes, List.append_assoc]
    have hnobit : ∀ i, ¬ maskBit chd.childExists i := by
      intro i; rw [hch.2.2]; exact not_maskBit_zero i
    have hsound1 : Sound s1 := by
      refine ⟨?_, ?_, ?_, ?_, ?_, ?_⟩
      · intro p n1 hp
        rcases hcases p n1 hp with ⟨rfl, rfl⟩ | ⟨rfl, -, rfl⟩ | ⟨-, -, hp0⟩
        · exact hch.1
        · exact hc1.1
        · exact hsound.1 p n1 hp0
      · intro k hk
        by_cases hck : k = childKey (codeOf r) m
        · rw [hck]; exact ⟨_, hchild⟩
        · by_cases hrk : r = .entry k
          · have hne : r ≠ .entry (childKey (codeOf r) m) :=
              fun h => hck (NodePtr.entry.inj (hrk.symm.trans h))
            rw [← hrk]; exact ⟨_, hrd hne⟩
          · rcases hpres k hk with h | h | h
            · exact absurd h hck
            · exact absurd h hrk
            · obtain ⟨n0, hn0⟩ := hsound.2.1 k h
              refine ⟨n0, ?_⟩
              rw [hoth _ (fun h => hrk h.symm) (fun h => hck (NodePtr.entry.inj h))]
              exact hn0
      · intro k n1 hp j hj hkj hb
        rcases hcases _ n1 hp with ⟨-, rfl⟩ | ⟨hpr, hne, rfl⟩ | ⟨-, -, hp0⟩
        · exact hnobit j hb
        · rw [hc1.2.2] at hb
          by_cases hjm : m = j
          · subst hjm
            rw [← hpr] at hne
            simp only [codeOf, hkj] at hne
            exact hne rfl
          · rw [maskBit_other _ (by omega) hjm] at hb
            rw [← hpr] at hcur
            exact hsound.2.2.1 k cur hcur j hj hkj hb
        · exact hsound.2.2.1 k n1 hp0 j hj hkj hb
      · intro p n1 hp i hi hb
        rcases hcases p n1 hp with ⟨-, rfl⟩ | ⟨rfl, hne, rfl⟩ | ⟨-, -, hp0⟩
        · exact absurd hb (hnobit i)
        · rw [hc1.2.2] at hb
          rw [hc1.2.1]
          by_cases him : m = i
          · subst him
            rcases hbox with ⟨k, hk, j, hj, -, hkj⟩ | hbox
            · exact Or.inr ⟨k, hk, j, hj, hkj⟩
            · rw [hbox]; exact Or.inl hs
          · rw [maskBit_other _ (by omega) him] at hb
            exact hsound.2.2.2.1 p cur hcur i hi hb
        · exact hsound.2.2.2.1 p n1 hp0 i hi hb
      · exact hroot ▸ hsound.2.2.2.2.1
      · intro x hx mm hmm
        rw [hn1] at hx
        rcases List.mem_append.1 hx with hx | hx
        · rcases hnew x hx with rfl | ⟨-, hx2⟩
          · cases hmm; rw [hch.2.1]; exact childBox_ok hB hm hs
          · rw [hx2] at hmm; cases hmm; rw [hc1.2.1]; exact hcb
        · exact hsound.2.2.2.2.2 x hx mm hmm
    have hR1 : ∀ x ∈ new ++ added, ∀ mm, x.2 = Slot.val mm →
        FitsIn (e + 1) mm.box ∧ (r ≠ .entry x.1 → FitsIn e mm.box) := by
      intro x hx mm hmm
      rcases List.mem_append.1 hx with hx | hx
      · rcases hnew x hx with rfl | ⟨hx1, hx2⟩
        · cases hmm; rw [hch.2.1]; exact ⟨fitsIn_succ hchfit, fun _ => hchfit⟩
        · rw [hx2] at hmm; cases hmm; rw [hc1.2.1]
          exact ⟨hfit, fun h => absurd hx1 h⟩
      · exact hR x hx mm hmm
    have hbits1 : BitsFrom t (new ++ added) s1 := by
      intro p n1 hp i hi hb
      rcases hcases p n1 hp with ⟨-, rfl⟩ | ⟨rfl, hne, rfl⟩ | ⟨-, -, hp0⟩
      · exact absurd hb (hnobit i)
      · rw [hc1.2.2] at hb
        by_cases him : m = i
        · subst him
          exact Or.inl (find_append_ne_none (Or.inl hfnew))
        · rw [maskBit_other _ (by omega) him] at hb
          rcases hbits p cur hcur i hi hb with h | h
          · exact Or.inl (find_append_ne_none (Or.inr h))
          · exact Or.inr h
      · rcases hbits p n1 hp0 i hi hb with h | h
        · exact Or.inl (find_append_ne_none (Or.inr h))
        · exact Or.inr h
    refine ⟨s1, hrun, ?_⟩
    by_cases hself : r = .entry (childKey (codeOf r) m)
    · refine ⟨new ++ added, chd, hnodes1, hsound1, ?_, ?_, ?_, hR1, hbits1, ?_⟩
      · rw [← hself] at hchild; exact hchild
      · rw [hch.2.1]; exact fitsIn_succ hchfit
      · refine Or.inl ⟨childKey (codeOf r) m, hself, m, Nat.lt_succ_self m, hs, ?_⟩
        have hcode : codeOf r = childKey (codeOf r) m := congrArg codeOf hself
        exact congrArg (fun c => childKey c m) hcode.symm
      · intro i hi hb
        exact absurd hb (hnobit i)
    · refine ⟨new ++ added, cur1, hnodes1, hsound1, hrd hself, ?_, ?_, hR1, hbits1, ?_⟩
      · rw [hc1.2.1]; exact hfit
      · rw [hc1.2.1]; exact hbox.imp overwrote_mono id
      · intro i hi hb
        rw [hc1.2.2] at hb
        by_cases him : m = i
        · subst him
          exact Or.inl (find_append_ne_none (Or.inl hfnew))
        · rw [maskBit_other _ (by omega) him] at hb
          rcases hQ i hi hb with h | ⟨hno, hmi, hnb⟩
          · exact Or.inl (find_append_ne_none (Or.inr h))
          · exact Or.inr ⟨fun h => hno (overwrote_of_succ h (Or.inr hself)), by omega, hnb⟩

theorem secondLoopGen_start {t : QuadTree} {r : NodePtr} {n : QuadTreeNode} {e : Nat}
    {s : QuadTree} (h : FirstLoopGen t r n e 4 s) : SecondLoopGen t r e s := by
  obtain ⟨added, cur, hnodes, hsound, hcur, -, -, hR, hbits, hQ⟩ := h
  refine ⟨added, hnodes, hsound, hR, hbits, ⟨cur, hcur⟩, ?_⟩
  intro cur1 hcur1 i hi hb
  rw [hcur] at hcur1
  cases hcur1
  rcases hQ i hi hb with h | ⟨-, h, -⟩
  · exact h
  · omega

theorem secondLoopGen_step {e : Nat} {self : NodePtr → QuadTree → Step}
    (hself : Descends e self) {t : QuadTree} {r : NodePtr} {s : QuadTree} {i : Nat}
    (hi : i < 3) (h : SecondLoopGen t r e s) :
    ∃ s1, descend self r i s = .done s1 ∧ SecondLoopGen t r e s1 := by
  obtain ⟨added, hnodes, hsound, hR, hbits, ⟨cur, hcur⟩, hQ⟩ := h
  by_cases hb : maskBit cur.childExists i
  · have hloc : cur.locCode = codeOf r := hsound.1 r cur hcur
    have hfresh := hQ cur hcur i hi hb
    cases hfa : NodeMap.find added (childKey (codeOf r) i) with
    | none => exact absurd hfa hfresh
    | some sl =>
      have hfs : s.nodes.find (childKey (codeOf r) i) = some sl := by
        rw [hnodes]; exact find_append_of_some hfa _
      obtain ⟨c, hc⟩ := hsound.2.1 _ (by rw [hfs]; simp)
      have hsl : sl = .val c := by
        have := find_of_read_entry hc
        rw [hfs] at this
        exact Option.some.inj this
      subst hsl
      have hne : r ≠ .entry (childKey (codeOf r) i) := by
        intro hr
        have hcode : codeOf r = childKey (codeOf r) i := congrArg codeOf hr
        have hcur1 := hcur
        rw [hr] at hcur1
        exact hsound.2.2.1 _ cur hcur1 i hi (congrArg (fun c => childKey c i) hcode.symm) hb
      have hfit : FitsIn e c.box := (hR _ (mem_of_find hfa) c rfl).2 hne
      have hrun : descend self r i s = self (.entry (childKey (codeOf r) i)) s := by
        rw [← hloc]
        exact descend_of_bit hcur hb (by rw [hloc]; exact hfs)
      obtain ⟨s1, added1, hrun1, hsound1, hnodes1, hfit1, hbits1⟩ := hself s _ c hsound hc hfit
      refine ⟨s1, by rw [hrun, hrun1], added1 ++ added, ?_, hsound1, ?_, ?_, ?_, ?_⟩
      · rw [hnodes1, hnodes, List.append_assoc]
      · intro x hx mm hmm
        rcases List.mem_append.1 hx with hx | hx
        · have := hfit1 x hx mm hmm
          exact ⟨fitsIn_succ this, fun _ => this⟩
        · exact hR x hx mm hmm
      · intro p n1 hp j hj hbj
        rcases hbits1 p n1 hp j hj hbj with h | ⟨n0, hn0, hb0⟩
        · exact Or.inl (find_append_ne_none (Or.inl h))
        · rcases hbits p n0 hn0 j hj hb0 with h | h
          · exact Or.inl (find_append_ne_none (Or.inr h))
          · exact Or.inr h
      · cases r with
        | null => cases hcur
        | root => exact ⟨_, read_root s1⟩
        | entry kr =>
          apply hsound1.2.1
          rw [hnodes1]
          refine find_append_ne_none (Or.inr ?_)
          rw [find_of_read_entry hcur]
          simp
      · intro cur1 hcur1 j hj hbj
        rcases hbits1 r cur1 hcur1 j hj hbj with h | ⟨n0, hn0, hb0⟩
        · exact find_append_ne_none (Or.inl h)
        · exact find_append_ne_none (Or.inr (hQ n0 hn0 j hj hb0))
  · exact ⟨s, descend_of_no_bit hcur hb, added, hnodes, hsound, hR, hbits, ⟨cur, hcur⟩, hQ⟩

theorem splitBody_eq {self : NodePtr → QuadTree → Step} {r : NodePtr} {t : QuadTree}
    {n : QuadTreeNode} (hread : t.read r = some n) :
    splitBody self r t =
      if leafTest n.box then .done t
      else
        [0, 1, 2].foldl (fun (s : Step) i => s.andThen (descend self r i))
          ([0, 1, 2, 3].foldl (fun (s : Step) i => s.andThen (createChild n.box r i)) (.done t)) := by
  simp only [splitBody, hread]
  rfl

theorem splitNode_body (fuel : Nat) : splitNode (fuel + 1) = splitBody (splitNode fuel) := rfl

theorem bitsFrom_refl (t : QuadTree) : BitsFrom t [] t :=
  fun _ n1 hp _ _ hb => Or.inr ⟨n1, hp, hb⟩

/-- One more level of recursion handles boxes twice as wide. -/
theorem splitBody_descends {e : Nat} {self : NodePtr → QuadTree → Step}
    (hself : Descends e self) : Descends (e + 1) (splitBody self) := by
  intro t r n ht hr hf
  have hB : BoxOK n.box := everyBox_read ht.2.2.2.2 hr
  rw [splitBody_eq hr]
  by_cases hl : isLeafBox n.box
  · rw [if_pos ((leafTest_of_ok hB).2 hl)]
    exact ⟨t, [], rfl, ht, rfl, (fun x hx => by cases hx), bitsFrom_refl t⟩
  · rw [if_neg (fun h => hl ((leafTest_of_ok hB).1 h))]
    have step := fun m (hm : m < 4) s => firstLoopGen_step (s := s) ht hr hB hf hl hm
    obtain ⟨s1, e1, h1⟩ := step 0 (by decide) t (firstLoopGen_start ht hr hf)
    obtain ⟨s2, e2, h2⟩ := step 1 (by decide) s1 h1
    obtain ⟨s3, e3, h3⟩ := step 2 (by decide) s2 h2
    obtain ⟨s4, e4, h4⟩ := step 3 (by decide) s3 h3
    obtain ⟨s5, e5, h5⟩ := secondLoopGen_step hself (i := 0) (by decide) (secondLoopGen_start h4)
    obtain ⟨s6, e6, h6⟩ := secondLoopGen_step hself (i := 1) (by decide) h5
    obtain ⟨s7, e7, h7⟩ := secondLoopGen_step hself (i := 2) (by decide) h6
    obtain ⟨added, hnodes, hsound, hR, hbits, -, -⟩ := h7
    refine ⟨s7, added, ?_, hsound, hnodes, fun x hx mm hmm => (hR x hx mm hmm).1, hbits⟩
    simp only [List.foldl, Step.andThen, e1, e2, e3, e4, e5, e6, e7]

theorem splitBody_descends_zero (self : NodePtr → QuadTree → Step) :
    Descends 0 (splitBody self) := by
  intro t r n ht hr hf
  rw [splitBody_eq hr,
    if_pos ((leafTest_of_ok (everyBox_read ht.2.2.2.2 hr)).2 (fitsIn_zero_leaf hf))]
  exact ⟨t, [], rfl, ht, rfl, (fun x hx => by cases hx), bitsFrom_refl t⟩

/-- With fuel for `e + 1` nested calls `splitNode` returns on every node of a
sound tree whose box has sides of at most `2 ^ e` pixels. -/
theorem splitNode_descends : ∀ e, Descends e (splitNode (e + 1))
  | 0 => splitBody_descends_zero _
  | e + 1 => splitBody_descends (splitNode_descends e)

theorem leafCall_eq {r : NodePtr} {t : QuadTree} {n : QuadTreeNode} (hread : t.read r = some n) :
    leafCall r t = if leafTest n.box then .done t else .stuck .fuel t := by
  simp only [leafCall, hread]
  rfl

theorem leafCall_descends : Descends 0 leafCall := by
  intro t r n ht hr hf
  refine ⟨t, [], ?_, ht, rfl, (fun x hx => by cases hx), bitsFrom_refl t⟩
  rw [leafCall_eq hr,
    if_pos ((leafTest_of_ok (everyBox_read ht.2.2.2.2 hr)).2 (fitsIn_zero_leaf hf))]

theorem splitWithin_descends : ∀ e, Descends e (splitWithin e)
  | 0 => leafCall_descends
  | e + 1 => splitBody_descends (splitWithin_descends e)

theorem splitBody_mono {self self1 : NodePtr → QuadTree → Step}
    (hs : ∀ r t t1, self r t = .done t1 → self1 r t = .done t1) {r : NodePtr}
    {t t1 : QuadTree} (h : splitBody self r t = .done t1) : splitBody self1 r t = .done t1 := by
  cases hr : t.read r with
  | none => simp only [splitBody, hr] at h; cases h
  | some n =>
    rw [splitBody_eq hr] at h ⊢
    by_cases hl : leafTest n.box
    · rw [if_pos hl] at h ⊢; exact h
    · rw [if_neg hl] at h ⊢
      simp only [List.foldl] at h ⊢
      obtain ⟨t4, h3, e3⟩ := andThen_done h
      obtain ⟨t3, h2, e2⟩ := andThen_done h3
      obtain ⟨t2, h1, e1⟩ := andThen_done h2
      rw [h1]
      simp only [Step.andThen, descend_mono hs e1, descend_mono hs e2, descend_mono hs e3]

/-- A run within `depth` levels is a run of `splitNode` with fuel for one call
more. -/
theorem splitWithin_splitNode : ∀ (depth : Nat) (r : NodePtr) (t t1 : QuadTree),
    splitWithin depth r t = .done t1 → splitNode (depth + 1) r t = .done t1
  | 0, r, t, t1, h => by
    cases hr : t.read r with
    | none => simp only [splitWithin, leafCall, hr] at h; cases h
    | some n =>
      have h0 : leafCall r t = .done t1 := h
      rw [leafCall_eq hr] at h0
      rw [splitNode_succ hr]
      by_cases hl : leafTest n.box
      · rw [if_pos hl] at h0 ⊢
        exact h0
      · rw [if_neg hl] at h0
        cases h0
  | depth + 1, r, t, t1, h => by
    rw [splitNode_body]
    exact splitBody_mono (splitWithin_splitNode depth) h

theorem sound_initial {W H : Int} (hW : 1 ≤ W) (hH : 1 ≤ H) (hW' : W < 2 ^ 30)
    (hH' : H < 2 ^ 30) :
    Sound { width := W, height := H, root := ⟨rootBox W H, FLT_MIN, 1, 0⟩, nodes := [] } := by
  refine ⟨?_, ?_, ?_, ?_, rootBox_ok hW hH hW' hH', fun e he => by cases he⟩
  · intro p n hp
    cases p with
    | null => cases hp
    | root => rw [read_root] at hp; cases hp; rfl
    | entry k => simp [QuadTree.read, NodeMap.find] at hp
  · intro k hk
    exact absurd rfl hk
  · intro k n hp
    simp [QuadTree.read, NodeMap.find] at hp
  · intro p n hp i hi hb
    cases p with
    | null => cases hp
    | root => rw [read_root] at hp; cases hp; exact absurd hb (not_maskBit_zero i)
    | entry k => simp [QuadTree.read, NodeMap.find] at hp

theorem rootBox_fits {W H : Int} (hW : 1 ≤ W) (hH : 1 ≤ H) :
    FitsIn (Nat.clog 2 (max W H).toNat) (rootBox W H) := by
  have h := Nat.le_pow_clog (b := 2) (by decide) (max W H).toNat
  have h1 : ((max W H).toNat : Int) ≤ ((2 ^ Nat.clog 2 (max W H).toNat : Nat) : Int) :=
    Int.ofNat_le.2 h
  rw [Int.toNat_of_nonneg (by omega)] at h1
  push_cast at h1
  have hWm : W ≤ max W H := le_max_left W H
  have hHm : H ≤ max W H := le_max_right W H
  constructor <;> simp only [rootBox] <;> omega

/-- Construction returns for every `1 ≤ width, height < 2 ^ 30`, whether or
not location codes wrap: no call of `splitNode` nests deeper than
`ceil (log2 (max width height))` levels below the call on the root, and a call
at that level is stopped by the leaf test. -/
theorem buildQuadTree_returns {W H : Int} (hW : 1 ≤ W) (hH : 1 ≤ H) (hW' : W < 2 ^ 30)
    (hH' : H < 2 ^ 30) :
    ∃ t, buildWithin (Nat.clog 2 (max W H).toNat) W H = .done t ∧
      (∀ fuel, Nat.clog 2 (max W H).toNat < fuel → buildQuadTree fuel W H = .done t) ∧
      Sound t ∧ t.width = W ∧ t.height = H ∧ t.root.box = rootBox W H := by
  obtain ⟨t, added, hrun, hsound, -, -, -⟩ := splitWithin_descends (Nat.clog 2 (max W H).toNat)
    { width := W, height := H, root := ⟨rootBox W H, FLT_MIN, 1, 0⟩, nodes := [] } .root
    ⟨rootBox W H, FLT_MIN, 1, 0⟩ (sound_initial hW hH hW' hH') rfl (rootBox_fits hW hH)
  have hsplit := splitWithin_splitNode _ _ _ _ hrun
  have hfix := splitNode_root_fixed (Nat.clog 2 (max W H).toNat + 1) .root
    { width := W, height := H, root := ⟨rootBox W H, FLT_MIN, 1, 0⟩, nodes := [] }
  rw [hsplit] at hfix
  exact ⟨t, hrun, fun fuel hfuel => splitNode_mono (by omega) hsplit, hsound, hfix.1, hfix.2.1,
    hfix.2.2⟩

/-! ## Sizes at which `int` overflows -/

theorem rootBox_eq {W H : Int} (hW : 0 ≤ W) (hH : 0 ≤ H) (hW' : W + 1 < 2 ^ 31)
    (hH' : H + 1 < 2 ^ 31) : rootBox W H = ⟨0, W, 0, H, (W + 1).tdiv 2, (H + 1).tdiv 2⟩ := by
  norm_num at hW' hH'
  simp only [rootBox]
  rw [int32_eq (n := W + 1) (by norm_num; omega) (by norm_num; omega),
    int32_eq (n := H + 1) (by norm_num; omega) (by norm_num; omega)]

/-- Every state of a construction of `1 ≤ width, height < 2 ^ 30`, returned or
cut off, has only well-formed regions. -/
theorem buildQuadTree_everyBox {W H : Int} (hW : 1 ≤ W) (hH : 1 ≤ H) (hW' : W < 2 ^ 30)
    (hH' : H < 2 ^ 30) (fuel : Nat) : EveryBox BoxOK (buildQuadTree fuel W H).state :=
  splitNode_everyBox_ok fuel .root
    (t := { width := W, height := H, root := ⟨rootBox W H, FLT_MIN, 1, 0⟩, nodes := [] })
    ⟨rootBox_ok hW hH hW' hH', fun e he => by cases he⟩

/-- The tree of `QuadTree(2147483647, 1)`: the centre of the root is
`int32 (2147483647 + 1) / 2 = -1073741824`, and quadrant 0 of the root is
stored with the x-range `[0, -1073741824)`. -/
theorem tree_int_max :
    (buildQuadTree 2 2147483647 1).returned (fun t =>
      decide (t.root = ⟨⟨0, 2147483647, 0, 1, -1073741824, 1⟩, FLT_MIN, 1, 3⟩) &&
        decide (t.read (.entry 4) =
          some ⟨⟨0, -1073741824, 0, 1, -536870911, 1⟩, FLT_MIN, 4, 0⟩)) = true := by
  decide!

theorem tree_int_max_returns :
    ∃ t, (∀ fuel, 2 ≤ fuel → QuadTree.QuadTree fuel 2147483647 1 = some (.done t)) ∧
      t.root = ⟨⟨0, 2147483647, 0, 1, -1073741824, 1⟩, FLT_MIN, 1, 3⟩ ∧
      t.read (.entry 4) = some ⟨⟨0, -1073741824, 0, 1, -536870911, 1⟩, FLT_MIN, 4, 0⟩ := by
  obtain ⟨t, h1, hP⟩ := returned_sound tree_int_max
  simp only [Bool.and_eq_true, decide_eq_true_eq] at hP
  refine ⟨t, fun fuel hfuel => ?_, hP.1, hP.2⟩
  rw [quadTree_of_nonneg (by decide), buildQuadTree_mono hfuel h1]

theorem clog_int_max : Nat.clog 2 (max (2147483647 : Int) 3).toNat = 31 := by
  have h : (max (2147483647 : Int) 3).toNat = 2147483647 := by decide
  rw [h]
  apply le_antisymm
  · exact (Nat.le_pow_iff_clog_le (by decide)).1 (by norm_num)
  · exact (Nat.pow_lt_iff_lt_clog (by decide)).1 (by norm_num)

theorem tree_int_max_3 : (buildQuadTree 32 2147483647 3).outOfFuel = true := by
  decide!

theorem outOfFuel_sound {s : Step} (h : s.outOfFuel = true) : ∃ t, s = .stuck .fuel t := by
  cases s with
  | done t => cases h
  | stuck w t =>
    cases w with
    | fuel => exact ⟨t, rfl⟩
    | indeterminate => cases h

/-! ## C11: termination and depth bound -/

/-- C11, as amended: for every `1 ≤ width, height < 2 ^ 30`, the sizes at which
no centre overflows `int`, the recursion of `splitNode` from the root returns
and never nests deeper than `ceil (log2 (max width height))` levels: with only
that many levels of subdividing calls, a call at the last level being stopped
by the leaf test, it returns the very tree that `buildQuadTree` returns with
fuel for one call more, which is the tree of `QuadTree(width, height)` unless
the constructor fails on a negative `int` product `width * height`; so every
node it creates lies at most that many levels below the root. For at most
`32768 x 32768` pixels, where location codes do not wrap, the depth that
`getNodeTreeDepth` reads off the code of any node is at most that number too. -/
theorem splitNode_terminates (W H : Int) (hW : 1 ≤ W) (hH : 1 ≤ H) (hW' : W < 2 ^ 30)
    (hH' : H < 2 ^ 30) :
    ∃ t, buildWithin (Nat.clog 2 (max W H).toNat) W H = .done t ∧
      (∀ fuel, Nat.clog 2 (max W H).toNat < fuel →
        buildQuadTree fuel W H = .done t ∧
          (0 ≤ int32 (W * H) → QuadTree.QuadTree fuel W H = some (.done t)) ∧
          (int32 (W * H) < 0 → QuadTree.QuadTree fuel W H = none)) ∧
      (W ≤ 32768 → H ≤ 32768 → ∀ p n, t.read p = some n →
        ∃ d, d ≤ Nat.clog 2 (max W H).toNat ∧
          ∀ rounds, d ≤ rounds → getNodeTreeDepth rounds t p = some d) := by
  obtain ⟨t, hwithin, hret, -, -, -, hroot⟩ := buildQuadTree_returns hW hH hW' hH'
  refine ⟨t, hwithin, ?_, ?_⟩
  · intro fuel hfuel
    refine ⟨hret fuel hfuel, fun h0 => ?_, fun h => ?_⟩
    · rw [quadTree_of_nonneg h0, hret fuel hfuel]
    · unfold QuadTree.QuadTree
      rw [if_pos h]
  · intro hW2 hH2 p n hp
    obtain ⟨t1, ht1, -, -, -, -, hb⟩ := buildQuadTree_built hW hH hW2 hH2 (le_refl 16)
    have heq := buildQuadTree_unique (hret _ (Nat.lt_succ_self _)) ht1
    subst heq
    have hbox := (hb.read_inv hp).1
    rw [hroot] at hbox
    obtain ⟨j, hj, hk, -⟩ := boxUnder_level (rootBox_ok hW hH hW' hH') (rootBox_fits hW hH) hbox
    refine ⟨j, hj, fun rounds hr => ?_⟩
    rw [getNodeTreeDepth_of_read hp, depthLoop_eq j rounds n.locCode 0 hk hr, Nat.zero_add]

/-- C11, witness: the amended claim at a `5 x 3` frame buffer. -/
theorem splitNode_terminates_witness :
    ∃ t, buildWithin (Nat.clog 2 (max (5 : Int) 3).toNat) 5 3 = .done t ∧
      (∀ fuel, Nat.clog 2 (max (5 : Int) 3).toNat < fuel →
        buildQuadTree fuel 5 3 = .done t ∧
          (0 ≤ int32 ((5 : Int) * 3) → QuadTree.QuadTree fuel 5 3 = some (.done t)) ∧
          (int32 ((5 : Int) * 3) < 0 → QuadTree.QuadTree fuel 5 3 = none)) ∧
      ((5 : Int) ≤ 32768 → (3 : Int) ≤ 32768 → ∀ p n, t.read p = some n →
        ∃ d, d ≤ Nat.clog 2 (max (5 : Int) 3).toNat ∧
          ∀ rounds, d ≤ rounds → getNodeTreeDepth rounds t p = some d) :=
  splitNode_terminates 5 3 (by decide) (by decide) (by decide) (by decide)

/-- C11, counterexample: for `QuadTree(2147483647, 3)` the bound
`ceil (log2 (max width height))` is 31, the constructor does not fail
(`int32 (2147483647 * 3) = 2147483645`), and the recursion nests deeper than 31
levels: allowed 32 nested calls, the call on the root and 31 levels below it,
which is enough wherever the bound holds, `splitNode` is cut off on entering a
call one level further down. The centre of the root wraps around to
`-1073741824`, after which the regions no longer halve. -/
theorem splitNode_nests_deeper :
    Nat.clog 2 (max (2147483647 : Int) 3).toNat = 31 ∧
      QuadTree.QuadTree 32 2147483647 3 = some (buildQuadTree 32 2147483647 3) ∧
      (∃ t, buildQuadTree 32 2147483647 3 = .stuck .fuel t) ∧
      ¬ ∃ t, buildQuadTree (Nat.clog 2 (max (2147483647 : Int) 3).toNat + 1) 2147483647 3 =
        .done t := by
  obtain ⟨t, ht⟩ := outOfFuel_sound tree_int_max_3
  refine ⟨clog_int_max, quadTree_of_nonneg (by decide), ⟨t, ht⟩, ?_⟩
  rw [clog_int_max]
  rintro ⟨t1, h1⟩
  rw [ht] at h1
  cases h1

/-! ## C12: the root and the node map -/

/-- C12: for every frame buffer of `1 ≤ width, height ≤ 32768` pixels the
constructed tree has no entry under the code 1 of the root: the root is read
through `root` only, and `lookupNode(1)` adds a slot under key 1 and returns a
pointer to it, whose node is indeterminate, not the root. -/
theorem root_not_in_map (W H : Int) (fuel : Nat) (hW : 1 ≤ W) (hW' : W ≤ 32768)
    (hH : 1 ≤ H) (hH' : H ≤ 32768) (hfuel : 16 ≤ fuel) :
    ∃ t, QuadTree.QuadTree fuel W H = some (.done t) ∧ t.root.locCode = 1 ∧
      t.root.box = ⟨0, W, 0, H, (W + 1).tdiv 2, (H + 1).tdiv 2⟩ ∧
      t.nodes.find 1 = none ∧ 1 ∉ t.nodes.keys ∧
      (lookupNode t 1).2 = .entry 1 ∧ 1 ∈ (lookupNode t 1).1.nodes.keys ∧
      (lookupNode t 1).1.read (lookupNode t 1).2 = none := by
  obtain ⟨t, ht, -, -, hroot, -, hb⟩ := buildQuadTree_built hW hH hW' hH' hfuel
  have hf : t.nodes.find 1 = none := by rw [hb.2.2.2.2 1, if_pos rfl]
  have hl := lookupNode_absent hf
  rw [rootBox_eq (by omega) (by omega) (by norm_num; omega) (by norm_num; omega)] at hroot
  refine ⟨t, by rw [quadTree_of_small (by omega) (by omega) hW' hH', ht], hb.2.2.1, hroot, hf,
    fun h => not_mem_keys_of_find_none hf (List.mem_dedup.1 h), lookupNode_ptr t 1, ?_, ?_⟩
  · rw [hl]
    simp [NodeMap.keys, NodeMap.assign]
  · rw [hl, lookupNode_ptr]
    simp [QuadTree.read, NodeMap.assign, NodeMap.find]

/-- C12, witness: the `2 x 2` frame buffer. -/
theorem root_not_in_map_witness :
    ∃ t, QuadTree.QuadTree 16 2 2 = some (.done t) ∧ t.root.locCode = 1 ∧
      t.root.box = ⟨0, 2, 0, 2, ((2 : Int) + 1).tdiv 2, ((2 : Int) + 1).tdiv 2⟩ ∧
      t.nodes.find 1 = none ∧ 1 ∉ t.nodes.keys ∧
      (lookupNode t 1).2 = .entry 1 ∧ 1 ∈ (lookupNode t 1).1.nodes.keys ∧
      (lookupNode t 1).1.read (lookupNode t 1).2 = none :=
  root_not_in_map 2 2 16 (by decide) (by decide) (by decide) (by decide) (by decide)

/-! ## C13: inherited depth bound -/

/-- Every node that a run of `splitNode` stores has the `z` of the nodes it
started from. -/
theorem splitNode_z (z0 : Rat) (fuel : Nat) (r : NodePtr) {t : QuadTree}
    (h : t.root.z = z0 ∧ ∀ e ∈ t.nodes, ∀ n, e.2 = Slot.val n → n.z = z0) :
    (splitNode fuel r t).state.root.z = z0 ∧
      ∀ e ∈ (splitNode fuel r t).state.nodes, ∀ n, e.2 = Slot.val n → n.z = z0 := by
  have hread : ∀ (t : QuadTree) (r : NodePtr) (n : QuadTreeNode),
      (t.root.z = z0 ∧ ∀ e ∈ t.nodes, ∀ n, e.2 = Slot.val n → n.z = z0) →
      t.read r = some n → n.z = z0 := by
    intro t r n ht hr
    cases r with
    | null => cases hr
    | root => rw [read_root] at hr; cases hr; exact ht.1
    | entry k => exact ht.2 _ (mem_of_find (find_of_read_entry hr)) n rfl
  refine splitNode_preserves
    (I := fun t => t.root.z = z0 ∧ ∀ e ∈ t.nodes, ∀ n, e.2 = Slot.val n → n.z = z0)
    (J := fun _ => True) (fun _ _ _ _ _ => trivial) ?_ ?_ fuel r t h
  · intro B t r n i _ ht hr hi hs
    have hn := hread t r n ht hr
    cases r with
    | null => cases hr
    | root =>
      refine ⟨hn, ?_⟩
      intro e he m hm
      simp only [QuadTree.write, NodeMap.assign, List.mem_cons] at he
      rcases he with rfl | he
      · cases hm; exact hn
      · exact ht.2 e he m hm
    | entry k =>
      refine ⟨ht.1, ?_⟩
      intro e he m hm
      simp only [QuadTree.write, NodeMap.assign, List.mem_cons] at he
      rcases he with rfl | rfl | he
      · cases hm; exact hn
      · cases hm; exact hn
      · exact ht.2 e he m hm
  · intro t k ht
    unfold lookupNode
    split
    · exact ht
    · refine ⟨ht.1, ?_⟩
      intro e he n hn
      simp only [NodeMap.assign, List.mem_cons] at he
      rcases he with rfl | he
      · cases hn
      · exact ht.2 e he n hn

/-- C13: every child that `splitNode` creates gets the `z` its parent has at
that moment; so, whatever the width and the height, in every state in which
construction ends, returned or cut off, the root has `z = FLT_MIN`, every node
has the `z` of the root, and the `z` of a node is at least the `z` of each
child whose bit is set in its mask. Construction does end in a returned tree:
for `1 ≤ width, height < 2 ^ 30` whose `int` product is not negative, with
fuel for more than `ceil (log2 (max width height))` nested calls. -/
theorem depth_bound_inherited :
    (∀ (B : QuadBoundingBox) (s : QuadTree) (r : NodePtr) (parent : QuadTreeNode) (i : Nat),
      s.read r = some parent → skipQuadrant B i = false →
      ∃ s1 child, createChild B r i s = .done s1 ∧
        s1.read (.entry (uint32 ((parent.locCode <<< 2) ||| i))) = some child ∧
        child.z = parent.z) ∧
    (∀ (W H : Int) (fuel : Nat) (s : Step), QuadTree.QuadTree fuel W H = some s →
      s.state.root.z = FLT_MIN ∧
      (∀ p n, s.state.read p = some n → n.z = s.state.root.z) ∧
      (∀ p n i child, s.state.read p = some n → n.childExists &&& (1 <<< i) ≠ 0 →
        s.state.read (.entry (uint32 ((n.locCode <<< 2) ||| i))) = some child →
        child.z ≤ n.z)) ∧
    (∀ (W H : Int) (fuel : Nat), 1 ≤ W → W < 2 ^ 30 → 1 ≤ H → H < 2 ^ 30 →
      0 ≤ int32 (W * H) → Nat.clog 2 (max W H).toNat < fuel →
      ∃ t, QuadTree.QuadTree fuel W H = some (.done t)) := by
  refine ⟨?_, ?_, ?_⟩
  · intro B s r parent i hr hs
    obtain ⟨s1, new, hrun, -, -, -, hchild, -⟩ := createChild_reads B hr hs
    exact ⟨s1, _, hrun, hchild, rfl⟩
  · intro W H fuel s hs
    have hz := splitNode_z FLT_MIN fuel .root
      (t := { width := W, height := H, root := ⟨rootBox W H, FLT_MIN, 1, 0⟩, nodes := [] })
      ⟨rfl, fun e he => by cases he⟩
    have hrun : splitNode fuel .root
        { width := W, height := H, root := ⟨rootBox W H, FLT_MIN, 1, 0⟩, nodes := [] } = s :=
      quadTree_eq_some hs
    rw [hrun] at hz
    have hall : ∀ p n, s.state.read p = some n → n.z = FLT_MIN := by
      intro p n hp
      cases p with
      | null => cases hp
      | root => rw [read_root] at hp; cases hp; exact hz.1
      | entry k => exact hz.2 _ (mem_of_find (find_of_read_entry hp)) n rfl
    refine ⟨hz.1, ?_, ?_⟩
    · intro p n hp
      rw [hall p n hp]; exact hz.1.symm
    · intro p n i child hp _ hc
      rw [hall p n hp, hall _ child hc]
  · intro W H fuel hW hW' hH hH' h0 hfuel
    obtain ⟨t, -, hret, -⟩ := buildQuadTree_returns hW hH hW' hH'
    exact ⟨t, by rw [quadTree_of_nonneg h0, hret fuel hfuel]⟩

/-- C13, witness: the claim at a `4 x 4` frame buffer, whose construction
returns with 16 nested calls allowed. -/
theorem depth_bound_inherited_witness :
    ∃ t, QuadTree.QuadTree 16 4 4 = some (.done t) ∧ t.root.z = FLT_MIN ∧
      ∀ p n, t.read p = some n → n.z = t.root.z :=
  (depth_bound_inherited.2.2 4 4 16 (by decide) (by decide) (by decide) (by decide) (by decide)
    (lt_of_le_of_lt ((Nat.le_pow_iff_clog_le (by decide)).1 (by decide : _ ≤ 2 ^ 2))
      (by decide))).elim
    fun t ht => ⟨t, ht, (depth_bound_inherited.2.1 4 4 16 (.done t) ht).1,
      (depth_bound_inherited.2.1 4 4 16 (.done t) ht).2.1⟩

/-! ## C14: `Object3D::setParent` -/

/-- C14: on an object that has a parent `p`, `setParent(nullptr)` does not
complete: after taking the object out of the children of `p` it calls
`push_back` through the null pointer, and `_parent` is never cleared, so that
`getParent()` still gives `p`. -/
theorem setParent_null_dereferences (h : Heap) (self p : Nat) (stayInWorld : Bool)
    (hp : Object3D.getParent h self = some p) :
    ∃ h1, Object3D.setParent h self none stayInWorld = .nullDereference h1 ∧
      Object3D.getParent h1 self = some p ∧ self ∉ (h1 p)._children ∧
      ∀ h2, Object3D.setParent h self none stayInWorld ≠ .returned h2 := by
  have hpar : (h self)._parent = some p := hp
  have hrun : Object3D.setParent h self none stayInWorld =
      .nullDereference (h.store p { h p with
        _children := (h p)._children.filter (fun c => c != self) }) := by
    cases stayInWorld <;> simp [Object3D.setParent, hpar]
  refine ⟨_, hrun, ?_, ?_, ?_⟩
  · simp only [Object3D.getParent, Heap.store]
    split
    · rename_i hs; rw [hs] at hpar; exact hpar
    · exact hpar
  · simp [Heap.store, List.mem_filter]
  · intro h2 hc
    rw [hrun] at hc
    cases hc

/-- C14, witness: the object at address 2, the only child of the object at 1. -/
theorem setParent_null_dereferences_witness :
    ∃ h1, Object3D.setParent (fun a => if a = 2 then ⟨some 1, []⟩ else ⟨none, [2]⟩) 2 none false =
        .nullDereference h1 ∧
      Object3D.getParent h1 2 = some 1 ∧ 2 ∉ (h1 1)._children ∧
      ∀ h2, Object3D.setParent (fun a => if a = 2 then ⟨some 1, []⟩ else ⟨none, [2]⟩) 2 none
        false ≠ .returned h2 :=
  setParent_null_dereferences (fun a => if a = 2 then ⟨some 1, []⟩ else ⟨none, [2]⟩) 2 1 false rfl

/-! ## C15: child regions -/

/-- In a built tree the child codes of a node that is not a leaf do not wrap. -/
theorem Built.child_code {t : QuadTree} (hb : Built t) {p : NodePtr} {n : QuadTreeNode}
    (hp : t.read p = some n) (hl : ¬ isLeafBox n.box) {i : Nat} (hi : i < 4) :
    uint32 ((n.locCode <<< 2) ||| i) = 4 * n.locCode + i ∧ 1 ≤ n.locCode ∧
      4 * n.locCode + i ≠ 1 := by
  have hbox := (hb.read_inv hp).1
  obtain ⟨j, hj, hk, hfit⟩ := boxUnder_level hb.1 hb.2.1 hbox
  have hj14 : j ≤ 14 := by
    by_contra hlt
    have h15 : 15 - j = 0 := by omega
    rw [h15] at hfit
    exact hl (fitsIn_zero_leaf hfit)
  have hlt := lt_of_div_pow_eq_one hk
  have hpow : 4 ^ j ≤ 4 ^ 14 := Nat.pow_le_pow_right (by decide) hj14
  have hpos : 0 < 4 ^ j := Nat.pow_pos (by decide)
  have h1 : 1 ≤ n.locCode := by
    by_contra h0
    have : n.locCode = 0 := by omega
    rw [this, Nat.zero_div] at hk
    cases hk
  refine ⟨childCode _ _ hi (by norm_num at hpow ⊢; omega), h1, by omega⟩

/-- In a built tree, quadrant `i` of a node that `splitNode` subdivided is in
the map, under the child code, exactly when it was not skipped, and the mask
of the node says so. -/
theorem Built.children {t : QuadTree} (hb : Built t) {p : NodePtr} {n : QuadTreeNode}
    (hp : t.read p = some n) (hl : ¬ isLeafBox n.box) (h3 : n.locCode % 4 ≠ 3) {i : Nat}
    (hi : i < 4) :
    (n.childExists &&& (1 <<< i) ≠ 0 ↔ skipQuadrant n.box i = false) ∧
    (t.nodes.find (uint32 ((n.locCode <<< 2) ||| i)) ≠ none ↔ skipQuadrant n.box i = false) ∧
    (skipQuadrant n.box i = false →
      t.read (.entry (uint32 ((n.locCode <<< 2) ||| i))) =
        some (specNode (childBox n.box i) t.root.z (uint32 ((n.locCode <<< 2) ||| i)))) := by
  obtain ⟨hbox, -, hmask, -⟩ := hb.read_inv hp
  obtain ⟨hcode, h1, hne1⟩ := hb.child_code hp hl hi
  rw [hcode]
  have hfind := hb.2.2.2.2 (4 * n.locCode + i)
  rw [if_neg hne1] at hfind
  refine ⟨?_, ?_, ?_⟩
  · rw [hmask, if_neg h3, maskAfterSplit, if_neg hl]
    exact childMask_bit n.box hi
  · constructor
    · intro hf
      by_contra hs
      rw [hfind] at hf
      cases hbu : boxUnder 1 t.root.box (4 * n.locCode + i) with
      | none => rw [hbu] at hf; exact hf rfl
      | some Bk =>
        obtain ⟨Bp, hBp, -, -, hskip, -⟩ := boxUnder_inv hne1 hbu
        have e1 : (4 * n.locCode + i) / 4 = n.locCode := by omega
        have e2 : (4 * n.locCode + i) % 4 = i := by omega
        rw [e1, hbox] at hBp
        cases hBp
        rw [e2] at hskip
        exact hs hskip
    · intro hs
      rw [hfind, boxUnder_child (le_refl 1) hbox hl (Or.inr h3) hi hs]
      simp
  · intro hs
    apply read_entry_of_find
    rw [hfind, boxUnder_child (le_refl 1) hbox hl (Or.inr h3) hi hs]
    rfl

/-- While no centre overflows, the switch of `splitNode` computes the region
that the specification gives the quadrant. -/
theorem childBox_isQuadrantOf {B : QuadBoundingBox} (hB : BoxOK B) {i : Nat} (hi : i < 4) :
    IsQuadrantOf B i (childBox B i) := by
  obtain ⟨h1, h2, h3, h4, h5, h6, h7, h8⟩ := hB
  norm_num at h7 h8
  have tx0 : centerOf B.xl B.centerX = (B.xl + B.centerX + 1).tdiv 2 :=
    centerOf_eq (by norm_num; omega) (by norm_num; omega)
  have tx1 : centerOf B.centerX B.xr = (B.centerX + B.xr + 1).tdiv 2 :=
    centerOf_eq (by norm_num; omega) (by norm_num; omega)
  have ty0 : centerOf B.yl B.centerY = (B.yl + B.centerY + 1).tdiv 2 :=
    centerOf_eq (by norm_num; omega) (by norm_num; omega)
  have ty1 : centerOf B.centerY B.yr = (B.centerY + B.yr + 1).tdiv 2 :=
    centerOf_eq (by norm_num; omega) (by norm_num; omega)
  rcases four_cases hi with rfl | rfl | rfl | rfl <;>
    simp [IsQuadrantOf, childBox, Nat.testBit, tx0, tx1, ty0, ty1]

theorem big_tree_root :
    (buildQuadTree 17 65536 1).returned (fun t =>
      decide (t.root = ⟨⟨0, 65536, 0, 1, 32768, 1⟩, FLT_MIN, 1, 3⟩) &&
        decide (t.read (.entry 4) = some ⟨⟨2, 3, 0, 1, 3, 1⟩, FLT_MIN, 4, 0⟩)) = true := by
  decide!

/-- C15, as amended: in the tree built for `1 ≤ width, height ≤ 32768`, where
no slot is assigned twice, for every node and every quadrant `i` that was
created for it, bit `i` being set in its mask, the node stored under the code
`(locCode << 2) | i` has that code and the region that the specification gives
quadrant `i` of the region of the node. The same holds of each single pass of
the first loop of `splitNode`, in any state of any tree: when it creates
quadrant `i` of a node whose region `B` is well formed below `2 ^ 30`, so that
no centre overflows `int`, the child it stores under `(locCode << 2) | i` has
that code and the region of quadrant `i` of `B`. -/
theorem child_regions (W H : Int) (fuel : Nat) (hW : 1 ≤ W) (hW' : W ≤ 32768)
    (hH : 1 ≤ H) (hH' : H ≤ 32768) (hfuel : 16 ≤ fuel) :
    (∃ t, QuadTree.QuadTree fuel W H = some (.done t) ∧
      ∀ p n i, t.read p = some n → i < 4 → n.childExists &&& (1 <<< i) ≠ 0 →
        ∃ child, t.read (.entry (uint32 ((n.locCode <<< 2) ||| i))) = some child ∧
          child.locCode = uint32 ((n.locCode <<< 2) ||| i) ∧
          IsQuadrantOf n.box i child.box) ∧
    ∀ (B : QuadBoundingBox) (s : QuadTree) (r : NodePtr) (parent : QuadTreeNode) (i : Nat),
      BoxOK B → s.read r = some parent → i < 4 → skipQuadrant B i = false →
      ∃ s1 child, createChild B r i s = .done s1 ∧
        s1.read (.entry (uint32 ((parent.locCode <<< 2) ||| i))) = some child ∧
        child.locCode = uint32 ((parent.locCode <<< 2) ||| i) ∧ IsQuadrantOf B i child.box := by
  constructor
  · obtain ⟨t, ht, -, -, -, -, hb⟩ := buildQuadTree_built hW hH hW' hH' hfuel
    refine ⟨t, by rw [quadTree_of_small (by omega) (by omega) hW' hH', ht], ?_⟩
    have hok : EveryBox BoxOK t := by
      have h := buildQuadTree_everyBox hW hH (by norm_num; omega) (by norm_num; omega) fuel
      rw [ht] at h
      exact h
    intro p n i hp hi hbit
    have hmask := (hb.read_inv hp).2.2.1
    have h3 : n.locCode % 4 ≠ 3 := by
      intro h
      rw [hmask, if_pos h] at hbit
      simp at hbit
    have hl : ¬ isLeafBox n.box := by
      intro h
      rw [hmask, if_neg h3, maskAfterSplit, if_pos h] at hbit
      simp at hbit
    obtain ⟨h1, -, h2⟩ := hb.children hp hl h3 hi
    exact ⟨_, h2 (h1.1 hbit), rfl, childBox_isQuadrantOf (everyBox_read hok hp) hi⟩
  · intro B s r parent i hB hr hi hs
    obtain ⟨s1, new, hrun, -, -, -, hchild, -⟩ := createChild_reads B hr hs
    exact ⟨s1, _, hrun, hchild, rfl, childBox_isQuadrantOf hB hi⟩

/-- C15, witness: the amended claim with the finished tree of a `4 x 4` frame
buffer. -/
theorem child_regions_witness :
    (∃ t, QuadTree.QuadTree 16 4 4 = some (.done t) ∧
      ∀ p n i, t.read p = some n → i < 4 → n.childExists &&& (1 <<< i) ≠ 0 →
        ∃ child, t.read (.entry (uint32 ((n.locCode <<< 2) ||| i))) = some child ∧
          child.locCode = uint32 ((n.locCode <<< 2) ||| i) ∧
          IsQuadrantOf n.box i child.box) ∧
    ∀ (B : QuadBoundingBox) (s : QuadTree) (r : NodePtr) (parent : QuadTreeNode) (i : Nat),
      BoxOK B → s.read r = some parent → i < 4 → skipQuadrant B i = false →
      ∃ s1 child, createChild B r i s = .done s1 ∧
        s1.read (.entry (uint32 ((parent.locCode <<< 2) ||| i))) = some child ∧
        child.locCode = uint32 ((parent.locCode <<< 2) ||| i) ∧ IsQuadrantOf B i child.box :=
  child_regions 4 4 16 (by decide) (by decide) (by decide) (by decide) (by decide)

/-- C15, counterexample: once codes wrap, the slot of a child need not hold
the child when construction is over. In the tree of `QuadTree(65536, 1)` the root, of region
`[0, 65536) x [0, 1)`, has bit 0 set in its mask, but the node stored under
its child code 4 has the x-range `[2, 3)`, not `[0, 32768)`; a node fifteen
levels further down, whose code wrapped around to 4, was stored over the
child. -/
theorem child_slot_reassigned_65536 :
    ¬ ∃ fuel t, QuadTree.QuadTree fuel 65536 1 = some (.done t) ∧
      ∀ p n i, t.read p = some n → i < 4 → n.childExists &&& (1 <<< i) ≠ 0 →
        ∃ child, t.read (.entry (uint32 ((n.locCode <<< 2) ||| i))) = some child ∧
          IsQuadrantOf n.box i child.box := by
  rintro ⟨fuel, t, hq, hall⟩
  obtain ⟨t1, h1, hP⟩ := returned_sound big_tree_root
  have heq := buildQuadTree_unique (quadTree_eq_some hq) h1
  subst heq
  simp only [Bool.and_eq_true, decide_eq_true_eq] at hP
  obtain ⟨hroot, h4⟩ := hP
  have hr : t.read .root = some ⟨⟨0, 65536, 0, 1, 32768, 1⟩, FLT_MIN, 1, 3⟩ := by
    rw [read_root, hroot]
  obtain ⟨child, hc, hq⟩ := hall .root _ 0 hr (by decide) (by decide)
  have hk : uint32 (((1 : Nat) <<< 2) ||| 0) = 4 := by decide
  simp only [hk] at hc
  rw [h4] at hc
  cases hc
  have := hq.2.1
  revert this
  simp

/-! ## C16: the child mask -/

theorem skipQuadrant_iff (B : QuadBoundingBox) {i : Nat} (hi : i < 4) :
    skipQuadrant B i = false ↔
      ¬ (i % 2 = 1 ∧ B.xr ≤ B.centerX) ∧ ¬ (2 ≤ i ∧ B.yr ≤ B.centerY) := by
  rcases four_cases hi with rfl | rfl | rfl | rfl
  · simp [skipQuadrant_zero]
  · simp [skipQuadrant_one]
  · simp [skipQuadrant_two]
  · simp [skipQuadrant_three]

theorem tree_65537_slot_zero :
    (buildQuadTree 18 65537 1).returned (fun t =>
      decide (t.read (.entry 0) = some ⟨⟨0, 1, 0, 1, 1, 1⟩, FLT_MIN, 0, 2⟩)) = true := by
  decide!

/-- C16, as amended: in the tree built for `1 ≤ width, height ≤ 32768`, a node
whose region is at most 1 pixel on both axes, which the leaf test stops, has
`childExists = 0`; and for a node that was subdivided, one whose region is
larger and that is not a quadrant-3 child, bit `i` of `childExists` is set if
and only if the map has a node under the code `(locCode << 2) | i`, which is
so if and only if quadrant `i` is not degenerate: not (`i` odd and
`xr ≤ centerX`) and not (`i ≥ 2` and `yr ≤ centerY`). -/
theorem child_mask (W H : Int) (fuel : Nat) (hW : 1 ≤ W) (hW' : W ≤ 32768)
    (hH : 1 ≤ H) (hH' : H ≤ 32768) (hfuel : 16 ≤ fuel) :
    ∃ t, QuadTree.QuadTree fuel W H = some (.done t) ∧
      ∀ p n, t.read p = some n →
        (isLeafBox n.box → n.childExists = 0) ∧
        (¬ isLeafBox n.box → n.locCode % 4 ≠ 3 → ∀ i, i < 4 →
          (n.childExists &&& (1 <<< i) ≠ 0 ↔
            t.nodes.find (uint32 ((n.locCode <<< 2) ||| i)) ≠ none) ∧
          (t.nodes.find (uint32 ((n.locCode <<< 2) ||| i)) ≠ none ↔
            ¬ (i % 2 = 1 ∧ n.box.xr ≤ n.box.centerX) ∧
              ¬ (2 ≤ i ∧ n.box.yr ≤ n.box.centerY)) ∧
          (t.nodes.find (uint32 ((n.locCode <<< 2) ||| i)) ≠ none →
            ∃ child, t.read (.entry (uint32 ((n.locCode <<< 2) ||| i))) = some child ∧
              child.locCode = uint32 ((n.locCode <<< 2) ||| i))) := by
  obtain ⟨t, ht, -, -, -, -, hb⟩ := buildQuadTree_built hW hH hW' hH' hfuel
  refine ⟨t, by rw [quadTree_of_small (by omega) (by omega) (by omega) (by omega), ht], ?_⟩
  intro p n hp
  constructor
  · intro hl
    exact (hb.leaf_iff hp).2 (Or.inl hl)
  · intro hl h3 i hi
    obtain ⟨h1, h2, h4⟩ := hb.children hp hl h3 hi
    exact ⟨h1.trans h2.symm, h2.trans (skipQuadrant_iff n.box hi), fun hf => ⟨_, h4 (h2.1 hf), rfl⟩⟩

/-- C16, witness: the amended claim at the odd `3 x 3` frame buffer. -/
theorem child_mask_witness :
    ∃ t, QuadTree.QuadTree 16 3 3 = some (.done t) ∧
      ∀ p n, t.read p = some n →
        (isLeafBox n.box → n.childExists = 0) ∧
        (¬ isLeafBox n.box → n.locCode % 4 ≠ 3 → ∀ i, i < 4 →
          (n.childExists &&& (1 <<< i) ≠ 0 ↔
            t.nodes.find (uint32 ((n.locCode <<< 2) ||| i)) ≠ none) ∧
          (t.nodes.find (uint32 ((n.locCode <<< 2) ||| i)) ≠ none ↔
            ¬ (i % 2 = 1 ∧ n.box.xr ≤ n.box.centerX) ∧
              ¬ (2 ≤ i ∧ n.box.yr ≤ n.box.centerY)) ∧
          (t.nodes.find (uint32 ((n.locCode <<< 2) ||| i)) ≠ none →
            ∃ child, t.read (.entry (uint32 ((n.locCode <<< 2) ||| i))) = some child ∧
              child.locCode = uint32 ((n.locCode <<< 2) ||| i))) :=
  child_mask 3 3 16 (by decide) (by decide) (by decide) (by decide) (by decide)

/-- C16, counterexample: in the tree of `QuadTree(65537, 1)` the node under
code 0 has the 1-pixel region `[0, 1) x [0, 1)` and `childExists = 2`. So a
node that the leaf test stops has a mask that is not 0; its bit 1 is set
although quadrant 1 is degenerate for it (`xr ≤ centerX`); and its bit 0 is
clear although the map has a node under the code `(0 << 2) | 0`. The call on
the slot of key 0, sixteen levels down, stored its quadrant 0 under the
wrapped code 0, over the node it was subdividing, and then set bit 1 in it. -/
theorem child_mask_fails :
    (¬ ∃ fuel t, QuadTree.QuadTree fuel 65537 1 = some (.done t) ∧
      ∀ p n, t.read p = some n → isLeafBox n.box → n.childExists = 0) ∧
    (¬ ∃ fuel t, QuadTree.QuadTree fuel 65537 1 = some (.done t) ∧
      ∀ p n i, t.read p = some n → i < 4 → n.childExists &&& (1 <<< i) ≠ 0 →
        ¬ (i % 2 = 1 ∧ n.box.xr ≤ n.box.centerX) ∧
          ¬ (2 ≤ i ∧ n.box.yr ≤ n.box.centerY)) ∧
    (¬ ∃ fuel t, QuadTree.QuadTree fuel 65537 1 = some (.done t) ∧
      ∀ p n i, t.read p = some n → i < 4 → n.childExists ≠ 0 →
        t.nodes.find (uint32 ((n.locCode <<< 2) ||| i)) ≠ none →
        n.childExists &&& (1 <<< i) ≠ 0) := by
  refine ⟨?_, ?_, ?_⟩
  · rintro ⟨fuel, t, hq, hall⟩
    obtain ⟨t1, h1, hP⟩ := returned_sound tree_65537_slot_zero
    have heq := buildQuadTree_unique (quadTree_eq_some hq) h1
    subst heq
    simp only [decide_eq_true_eq] at hP
    have := hall _ _ hP (by decide)
    revert this
    decide
  · rintro ⟨fuel, t, hq, hall⟩
    obtain ⟨t1, h1, hP⟩ := returned_sound tree_65537_slot_zero
    have heq := buildQuadTree_unique (quadTree_eq_some hq) h1
    subst heq
    simp only [decide_eq_true_eq] at hP
    have := (hall _ _ 1 hP (by decide) (by decide)).1
    revert this
    decide
  · rintro ⟨fuel, t, hq, hall⟩
    obtain ⟨t1, h1, hP⟩ := returned_sound tree_65537_slot_zero
    have heq := buildQuadTree_unique (quadTree_eq_some hq) h1
    subst heq
    simp only [decide_eq_true_eq] at hP
    have hk : uint32 (((0 : Nat) <<< 2) ||| 0) = 0 := by decide
    have hf : t.nodes.find (uint32 (((0 : Nat) <<< 2) ||| 0)) ≠ none := by
      rw [hk, find_of_read_entry hP]
      simp
    have := hall _ _ 0 hP (by decide) (by decide) hf
    revert this
    decide

/-! ## C17: the bounding-region invariant -/

/-- C17, as amended: for every `1 ≤ width, height < 2 ^ 30`, the sizes at which
no centre overflows `int`, construction returns, unless the constructor fails
on a negative `int` product `width * height`, a tree whose root has centre
`((width + 1) / 2, (height + 1) / 2)` and in which every node, the root or a
node of the map, has `xl ≤ centerX ≤ xr`, `yl ≤ centerY ≤ yr`,
`centerX = (xl + xr + 1) / 2` and `centerY = (yl + yr + 1) / 2`; all values
being non-negative, the truncating division of C++ and the flooring one
agree. -/
theorem bounding_region_invariant (W H : Int) (hW : 1 ≤ W) (hH : 1 ≤ H) (hW' : W < 2 ^ 30)
    (hH' : H < 2 ^ 30) :
    ∃ t, (∀ fuel, Nat.clog 2 (max W H).toNat < fuel →
        buildQuadTree fuel W H = .done t ∧
          (0 ≤ int32 (W * H) → QuadTree.QuadTree fuel W H = some (.done t)) ∧
          (int32 (W * H) < 0 → QuadTree.QuadTree fuel W H = none)) ∧
      t.root.box.centerX = (W + 1) / 2 ∧ t.root.box.centerY = (H + 1) / 2 ∧
      t.root.box.centerX = (W + 1).tdiv 2 ∧ t.root.box.centerY = (H + 1).tdiv 2 ∧
      ∀ p n, t.read p = some n →
        n.box.xl ≤ n.box.centerX ∧ n.box.centerX ≤ n.box.xr ∧
        n.box.yl ≤ n.box.centerY ∧ n.box.centerY ≤ n.box.yr ∧
        n.box.centerX = (n.box.xl + n.box.xr + 1) / 2 ∧
        n.box.centerY = (n.box.yl + n.box.yr + 1) / 2 ∧
        n.box.centerX = (n.box.xl + n.box.xr + 1).tdiv 2 ∧
        n.box.centerY = (n.box.yl + n.box.yr + 1).tdiv 2 := by
  obtain ⟨t, -, hret, hsound, -, -, hroot⟩ := buildQuadTree_returns hW hH hW' hH'
  have hW1 := hW'
  have hH1 := hH'
  norm_num at hW1 hH1
  rw [rootBox_eq (by omega) (by omega) (by norm_num; omega) (by norm_num; omega)] at hroot
  refine ⟨t, ?_, ?_, ?_, ?_, ?_, ?_⟩
  · intro fuel hfuel
    refine ⟨hret fuel hfuel, fun h0 => ?_, fun h => ?_⟩
    · rw [quadTree_of_nonneg h0, hret fuel hfuel]
    · unfold QuadTree.QuadTree
      rw [if_pos h]
  · rw [hroot]; exact tdiv_two (by omega)
  · rw [hroot]; exact tdiv_two (by omega)
  · rw [hroot]
  · rw [hroot]
  · intro p n hp
    obtain ⟨h1, h2, h3, h4, h5, h6, -, -⟩ := everyBox_read hsound.2.2.2.2 hp
    refine ⟨by omega, by omega, by omega, by omega, h5, h6, ?_, ?_⟩
    · rw [tdiv_two (by omega)]; exact h5
    · rw [tdiv_two (by omega)]; exact h6

/-- C17, witness: the amended claim at the odd `3 x 3` frame buffer. -/
theorem bounding_region_invariant_witness :
    ∃ t, (∀ fuel, Nat.clog 2 (max (3 : Int) 3).toNat < fuel →
        buildQuadTree fuel 3 3 = .done t ∧
          (0 ≤ int32 ((3 : Int) * 3) → QuadTree.QuadTree fuel 3 3 = some (.done t)) ∧
          (int32 ((3 : Int) * 3) < 0 → QuadTree.QuadTree fuel 3 3 = none)) ∧
      t.root.box.centerX = ((3 : Int) + 1) / 2 ∧ t.root.box.centerY = ((3 : Int) + 1) / 2 ∧
      t.root.box.centerX = ((3 : Int) + 1).tdiv 2 ∧ t.root.box.centerY = ((3 : Int) + 1).tdiv 2 ∧
      ∀ p n, t.read p = some n →
        n.box.xl ≤ n.box.centerX ∧ n.box.centerX ≤ n.box.xr ∧
        n.box.yl ≤ n.box.centerY ∧ n.box.centerY ≤ n.box.yr ∧
        n.box.centerX = (n.box.xl + n.box.xr + 1) / 2 ∧
        n.box.centerY = (n.box.yl + n.box.yr + 1) / 2 ∧
        n.box.centerX = (n.box.xl + n.box.xr + 1).tdiv 2 ∧
        n.box.centerY = (n.box.yl + n.box.yr + 1).tdiv 2 :=
  bounding_region_invariant 3 3 (by decide) (by decide) (by decide) (by decide)

/-- C17, counterexample: in the tree that `QuadTree(2147483647, 1)` returns
the centre of the root is not `(width + 1) / 2 = 1073741824` and does not lie
in `[xl, xr]`: the sum `2147483647 + 1` wraps around to `-2147483648` in
`int`, so `centerX = -1073741824`, below `xl = 0`. -/
theorem root_centre_at_int_max :
    ∃ t, (∀ fuel, 2 ≤ fuel → QuadTree.QuadTree fuel 2147483647 1 = some (.done t)) ∧
      t.root.box.xl = 0 ∧ t.root.box.xr = 2147483647 ∧ t.root.box.centerX = -1073741824 ∧
      ¬ t.root.box.xl ≤ t.root.box.centerX ∧
      t.root.box.centerX ≠ ((2147483647 : Int) + 1) / 2 ∧
      t.root.box.centerX ≠ (t.root.box.xl + t.root.box.xr + 1) / 2 := by
  obtain ⟨t, hret, hroot, -⟩ := tree_int_max_returns
  refine ⟨t, hret, ?_, ?_, ?_, ?_, ?_, ?_⟩ <;> rw [hroot] <;> decide

/-! ## C18: the leaves of the code as written -/

theorem four_pow (j : Nat) : 4 ^ j = 2 ^ (2 * j) := by
  rw [pow_mul]; rfl

theorem div_four_pow_eq_one_iff (lc j : Nat) :
    lc / 4 ^ j = 1 ↔ lc ≠ 0 ∧ Nat.log2 lc = 2 * j := by
  have hpos : 0 < 4 ^ j := Nat.pow_pos (by decide)
  have h1 : lc / 4 ^ j = 1 ↔ 4 ^ j ≤ lc ∧ lc < 2 * 4 ^ j := by
    constructor
    · intro h
      have a : 1 ≤ lc / 4 ^ j := by omega
      have b : lc / 4 ^ j < 2 := by omega
      rw [Nat.le_div_iff_mul_le hpos] at a
      rw [Nat.div_lt_iff_lt_mul hpos] at b
      omega
    · rintro ⟨a, b⟩
      have a1 : 1 ≤ lc / 4 ^ j := by rw [Nat.le_div_iff_mul_le hpos]; omega
      have b1 : lc / 4 ^ j < 2 := by rw [Nat.div_lt_iff_lt_mul hpos]; omega
      omega
  rw [h1, four_pow]
  constructor
  · rintro ⟨a, b⟩
    have hne : lc ≠ 0 := by
      have : 0 < 2 ^ (2 * j) := Nat.pow_pos (by decide)
      omega
    refine ⟨hne, ?_⟩
    have a1 := (Nat.le_log2 hne).2 a
    have b1 : lc.log2 < 2 * j + 1 := (Nat.log2_lt hne).2 (by rw [pow_succ]; omega)
    omega
  · rintro ⟨hne, hl⟩
    have a := Nat.log2_self_le hne
    have b := Nat.lt_log2_self (n := lc)
    rw [hl] at a b
    rw [pow_succ] at b
    exact ⟨a, by omega⟩

/-- A loop that returns was taken to code 1 by the shifts it counted. -/
theorem depthLoop_some : ∀ (rounds lc depth d : Nat), depthLoop rounds lc depth = some d →
    ∃ j, j ≤ rounds ∧ lc / 4 ^ j = 1 ∧ d = depth + j := by
  intro rounds
  induction rounds with
  | zero =>
    intro lc depth d h
    simp only [depthLoop] at h
    split at h
    · rename_i h1
      cases h
      exact ⟨0, le_refl _, by simpa using h1, rfl⟩
    · cases h
  | succ f ih =>
    intro lc depth d h
    simp only [depthLoop] at h
    split at h
    · rename_i h1
      cases h
      exact ⟨0, Nat.zero_le _, by simpa using h1, rfl⟩
    · obtain ⟨j, hj, hk, hd⟩ := ih _ _ _ h
      rw [shiftRight_two] at hk
      exact ⟨j + 1, by omega, by rw [div_pow_succ]; exact hk, by omega⟩

/-- C19: the loop of `getNodeTreeDepth` on a node of code `lc` returns, given
enough rounds, exactly when `lc` is not 0 and its highest set bit, bit
`log2 lc`, is at an even position; it then returns `log2 lc / 2`. For code 0
and for every code whose highest set bit is at an odd position, such as 2 and
3, no number of rounds makes it return: `lc` is never 1 after any number of
shifts by two bits, and it becomes 0. -/
theorem getNodeTreeDepth_total (t : QuadTree) (p : NodePtr) (n : QuadTreeNode)
    (hp : t.read p = some n) :
    ((∃ rounds d, getNodeTreeDepth rounds t p = some d) ↔
      n.locCode ≠ 0 ∧ Nat.log2 n.locCode % 2 = 0) ∧
    (∀ rounds d, getNodeTreeDepth rounds t p = some d → d = Nat.log2 n.locCode / 2) ∧
    (n.locCode ≠ 0 → Nat.log2 n.locCode % 2 = 0 → ∀ rounds, Nat.log2 n.locCode / 2 ≤ rounds →
      getNodeTreeDepth rounds t p = some (Nat.log2 n.locCode / 2)) ∧
    (n.locCode = 0 ∨ Nat.log2 n.locCode % 2 = 1 →
      (∀ rounds, getNodeTreeDepth rounds t p = none) ∧
      (∀ j, n.locCode >>> (2 * j) ≠ 1) ∧ ∃ j, n.locCode >>> (2 * j) = 0) := by
  have hg : ∀ rounds, getNodeTreeDepth rounds t p = depthLoop rounds n.locCode 0 :=
    getNodeTreeDepth_of_read hp
  have hsome : ∀ rounds d, getNodeTreeDepth rounds t p = some d →
      n.locCode ≠ 0 ∧ Nat.log2 n.locCode = 2 * d := by
    intro rounds d h
    rw [hg] at h
    obtain ⟨j, -, hk, hd⟩ := depthLoop_some _ _ _ _ h
    rw [Nat.zero_add] at hd
    subst hd
    exact (div_four_pow_eq_one_iff _ _).1 hk
  have hret : n.locCode ≠ 0 → Nat.log2 n.locCode % 2 = 0 → ∀ rounds,
      Nat.log2 n.locCode / 2 ≤ rounds →
      getNodeTreeDepth rounds t p = some (Nat.log2 n.locCode / 2) := by
    intro hne hev rounds hr
    have hk := (div_four_pow_eq_one_iff n.locCode (Nat.log2 n.locCode / 2)).2 ⟨hne, by omega⟩
    rw [hg, depthLoop_eq _ rounds _ 0 hk hr, Nat.zero_add]
  refine ⟨⟨?_, ?_⟩, ?_, hret, ?_⟩
  · rintro ⟨rounds, d, h⟩
    obtain ⟨hne, hl⟩ := hsome rounds d h
    exact ⟨hne, by omega⟩
  · rintro ⟨hne, hev⟩
    exact ⟨_, _, hret hne hev _ (le_refl _)⟩
  · intro rounds d h
    have := (hsome rounds d h).2
    omega
  · intro hodd
    have hnever : ∀ j, n.locCode / 4 ^ j ≠ 1 := by
      intro j hj
      obtain ⟨hne, hl⟩ := (div_four_pow_eq_one_iff _ _).1 hj
      rcases hodd with h | h
      · exact hne h
      · omega
    refine ⟨?_, ?_, ?_⟩
    · intro rounds
      cases h : getNodeTreeDepth rounds t p with
      | none => rfl
      | some d =>
        rw [hg] at h
        obtain ⟨j, -, hk, -⟩ := depthLoop_some _ _ _ _ h
        exact absurd hk (hnever j)
    · intro j
      rw [Nat.shiftRight_eq_div_pow, ← four_pow]
      exact hnever j
    · refine ⟨n.locCode.log2 + 1, ?_⟩
      rw [Nat.shiftRight_eq_div_pow]
      apply Nat.div_eq_of_lt
      calc n.locCode < 2 ^ (n.locCode.log2 + 1) := Nat.lt_log2_self
        _ ≤ 2 ^ (2 * (n.locCode.log2 + 1)) := Nat.pow_le_pow_right (by decide) (by omega)

/-- C19, witness: a node of code 8, whose highest set bit is bit 3. -/
theorem getNodeTreeDepth_total_witness :
    ((∃ rounds d, getNodeTreeDepth rounds
        ⟨1, 1, ⟨⟨0, 1, 0, 1, 1, 1⟩, FLT_MIN, 1, 0⟩, [(8, .val ⟨⟨0, 1, 0, 1, 1, 1⟩, FLT_MIN, 8, 0⟩)]⟩
        (.entry 8) = some d) ↔
      (8 : Nat) ≠ 0 ∧ Nat.log2 8 % 2 = 0) ∧
    (∀ rounds d, getNodeTreeDepth rounds
        ⟨1, 1, ⟨⟨0, 1, 0, 1, 1, 1⟩, FLT_MIN, 1, 0⟩, [(8, .val ⟨⟨0, 1, 0, 1, 1, 1⟩, FLT_MIN, 8, 0⟩)]⟩
        (.entry 8) = some d → d = Nat.log2 8 / 2) ∧
    ((8 : Nat) ≠ 0 → Nat.log2 8 % 2 = 0 → ∀ rounds, Nat.log2 8 / 2 ≤ rounds →
      getNodeTreeDepth rounds
        ⟨1, 1, ⟨⟨0, 1, 0, 1, 1, 1⟩, FLT_MIN, 1, 0⟩, [(8, .val ⟨⟨0, 1, 0, 1, 1, 1⟩, FLT_MIN, 8, 0⟩)]⟩
        (.entry 8) = some (Nat.log2 8 / 2)) ∧
    ((8 : Nat) = 0 ∨ Nat.log2 8 % 2 = 1 →
      (∀ rounds, getNodeTreeDepth rounds
        ⟨1, 1, ⟨⟨0, 1, 0, 1, 1, 1⟩, FLT_MIN, 1, 0⟩, [(8, .val ⟨⟨0, 1, 0, 1, 1, 1⟩, FLT_MIN, 8, 0⟩)]⟩
        (.entry 8) = none) ∧
      (∀ j, 8 >>> (2 * j) ≠ 1) ∧ ∃ j, 8 >>> (2 * j) = 0) :=
  getNodeTreeDepth_total
    ⟨1, 1, ⟨⟨0, 1, 0, 1, 1, 1⟩, FLT_MIN, 1, 0⟩, [(8, .val ⟨⟨0, 1, 0, 1, 1, 1⟩, FLT_MIN, 8, 0⟩)]⟩
    (.entry 8) ⟨⟨0, 1, 0, 1, 1, 1⟩, FLT_MIN, 8, 0⟩ rfl

/-! ## C6: what `lookupNode` returns in a constructed tree -/

theorem createChild_linked (B : QuadBoundingBox) (r : NodePtr) {i : Nat} (_ : i < 4)
    {s : QuadTree} (hs : Linked s) : Linked (createChild B r i s).state := by
  cases hsk : skipQuadrant B i with
  | true => rw [createChild_skip B hsk]; exact hs
  | false =>
    cases hcur : s.read r with
    | none =>
      simp only [createChild, hsk, hcur, Bool.false_eq_true, if_false]
      exact hs
    | some cur =>
      have hloc : cur.locCode = codeOf r := hs.1 r cur hcur
      obtain ⟨s1, new, hrun, hn1, hnew, hfnew, hchild, hrd, hcases, hoth, hpres, hroot⟩ :=
        createChild_reads B hcur hsk
      rw [hrun]
      show Linked s1
      generalize hcur1 : ({ cur with childExists := uint8 (cur.childExists ||| (1 <<< i)) } :
        QuadTreeNode) = cur1 at hnew hrd hcases
      have hc1 : cur1.locCode = codeOf r ∧
          cur1.childExists = uint8 (cur.childExists ||| (1 <<< i)) := by
        subst hcur1; exact ⟨hloc, rfl⟩
      clear hcur1
      rw [hloc] at hnew hfnew hchild hrd hcases hpres hoth
      generalize hchd : (⟨childBox B i, cur.z, childKey (codeOf r) i, 0⟩ : QuadTreeNode) = chd
        at hnew hchild hcases
      have hch : chd.locCode = childKey (codeOf r) i ∧ chd.childExists = 0 := by
        subst hchd; exact ⟨rfl, rfl⟩
      clear hchd
      have hgrow : ∀ k, s.nodes.find k ≠ none → s1.nodes.find k ≠ none := by
        intro k hk
        rw [hn1]
        exact find_append_ne_none (Or.inr hk)
      refine ⟨?_, ?_, ?_⟩
      · intro p n1 hp
        rcases hcases p n1 hp with ⟨rfl, rfl⟩ | ⟨rfl, -, rfl⟩ | ⟨-, -, hp0⟩
        · exact hch.1
        · exact hc1.1
        · exact hs.1 p n1 hp0
      · intro k hk
        by_cases hck : k = childKey (codeOf r) i
        · rw [hck]; exact ⟨_, hchild⟩
        · by_cases hrk : r = .entry k
          · have hne : r ≠ .entry (childKey (codeOf r) i) :=
              fun h => hck (NodePtr.entry.inj (hrk.symm.trans h))
            rw [← hrk]; exact ⟨_, hrd hne⟩
          · rcases hpres k hk with h | h | h
            · exact absurd h hck
            · exact absurd h hrk
            · obtain ⟨n0, hn0⟩ := hs.2.1 k h
              refine ⟨n0, ?_⟩
              rw [hoth _ (fun h => hrk h.symm) (fun h => hck (NodePtr.entry.inj h))]
              exact hn0
      · intro p n1 hp j hj hb
        rcases hcases p n1 hp with ⟨-, rfl⟩ | ⟨rfl, -, rfl⟩ | ⟨-, -, hp0⟩
        · rw [hch.2] at hb; exact absurd hb (not_maskBit_zero j)
        · rw [hc1.2] at hb
          by_cases hij : i = j
          · subst hij
            rw [hn1]
            exact find_append_ne_none (Or.inl hfnew)
          · rw [maskBit_other _ hj hij] at hb
            exact hgrow _ (hs.2.2 p cur hcur j hj hb)
        · exact hgrow _ (hs.2.2 p n1 hp0 j hj hb)

theorem descend_linked {self : NodePtr → QuadTree → Step}
    (hself : ∀ r t, Linked t → Linked (self r t).state) (r : NodePtr) {i : Nat} (hi : i < 4)
    {t : QuadTree} (ht : Linked t) : Linked (descend self r i t).state := by
  cases hr : t.read r with
  | none => simp only [descend, hr]; exact ht
  | some n =>
    by_cases hb : maskBit n.childExists i
    · have hp := ht.2.2 r n hr i hi hb
      rw [← ht.1 r n hr] at hp
      cases hf : t.nodes.find (childKey n.locCode i) with
      | none => exact absurd hf hp
      | some sl =>
        rw [descend_of_bit hr hb hf]
        exact hself _ _ ht
    · rw [descend_of_no_bit hr hb]; exact ht

/-- Every state of a run of `splitNode` from a linked tree is linked. -/
theorem splitNode_linked : ∀ (fuel : Nat) (r : NodePtr) (t : QuadTree), Linked t →
    Linked (splitNode fuel r t).state := by
  intro fuel
  induction fuel with
  | zero => intro r t ht; exact ht
  | succ fuel ih =>
    intro r t ht
    cases hr : t.read r with
    | none => simp only [splitNode, hr]; exact ht
    | some n =>
      rw [splitNode_succ hr]
      by_cases hl : leafTest n.box
      · rw [if_pos hl]; exact ht
      · rw [if_neg hl]
        have hc : ∀ i, i < 4 → ∀ t, Linked t → Linked (createChild n.box r i t).state :=
          fun i hi t ht => createChild_linked n.box r hi ht
        have hd : ∀ i, i < 4 → ∀ t, Linked t → Linked (descend (splitNode fuel) r i t).state :=
          fun i hi t ht => descend_linked ih r hi ht
        simp only [List.foldl]
        refine andThen_preserves (andThen_preserves (andThen_preserves ?_ (hd 0 (by decide)))
          (hd 1 (by decide))) (hd 2 (by decide))
        exact andThen_preserves (andThen_preserves (andThen_preserves
          (andThen_preserves (s := .done t) ht (hc 0 (by decide))) (hc 1 (by decide)))
          (hc 2 (by decide))) (hc 3 (by decide))

theorem buildQuadTree_linked (fuel : Nat) (W H : Int) : Linked (buildQuadTree fuel W H).state := by
  refine splitNode_linked fuel .root _ ⟨?_, ?_, ?_⟩
  · intro p n hp
    cases p with
    | null => cases hp
    | root => rw [read_root] at hp; cases hp; rfl
    | entry k => simp [QuadTree.read, NodeMap.find] at hp
  · intro k hk
    exact absurd rfl hk
  · intro p n hp i hi hb
    cases p with
    | null => cases hp
    | root => rw [read_root] at hp; cases hp; exact absurd hb (not_maskBit_zero i)
    | entry k => simp [QuadTree.read, NodeMap.find] at hp

/-- C6, as amended: in every state in which construction ends, whatever the
width and height, `lookupNode(locCode)` returns a pointer to the map slot of
`locCode`, never a null pointer or any other signal; when the map has the key,
the tree is unchanged and the slot holds the node with exactly that location
code; when it has not, the slot is added to the map and holds a
default-constructed node, whose fields are indeterminate. -/
theorem lookupNode_returns_slot (W H : Int) (fuel : Nat) (s : Step)
    (hs : QuadTree.QuadTree fuel W H = some s) :
    ∀ locCode : Nat,
      (lookupNode s.state locCode).2 = .entry locCode ∧
      (s.state.nodes.find locCode ≠ none →
        (lookupNode s.state locCode).1 = s.state ∧
          ∃ n, s.state.read (.entry locCode) = some n ∧ n.locCode = locCode) ∧
      (s.state.nodes.find locCode = none →
        (lookupNode s.state locCode).1.nodes.find locCode = some .uninit ∧
          (lookupNode s.state locCode).1.read (.entry locCode) = none) := by
  have hl : Linked s.state := by
    rw [← quadTree_eq_some hs]
    exact buildQuadTree_linked fuel W H
  intro locCode
  refine ⟨lookupNode_ptr _ locCode, ?_, ?_⟩
  · intro h
    obtain ⟨n, hn⟩ := hl.2.1 locCode h
    exact ⟨lookupNode_present h, n, hn, hl.1 _ n hn⟩
  · intro h
    rw [lookupNode_absent h]
    constructor
    · simp [find_assign]
    · simp [QuadTree.read, find_assign]

/-- C6, witness: the amended claim at the tree that construction returns for a
`4 x 4` frame buffer. -/
theorem lookupNode_returns_slot_witness :
    ∃ t, QuadTree.QuadTree 16 4 4 = some (.done t) ∧
      ∀ locCode : Nat,
        (lookupNode t locCode).2 = .entry locCode ∧
        (t.nodes.find locCode ≠ none →
          (lookupNode t locCode).1 = t ∧
            ∃ n, t.read (.entry locCode) = some n ∧ n.locCode = locCode) ∧
        (t.nodes.find locCode = none →
          (lookupNode t locCode).1.nodes.find locCode = some .uninit ∧
            (lookupNode t locCode).1.read (.entry locCode) = none) := by
  obtain ⟨t, ht, -⟩ := buildQuadTree_built (W := 4) (H := 4) (by decide) (by decide) (by decide)
    (by decide) (le_refl 16)
  have hq : QuadTree.QuadTree 16 4 4 = some (.done t) := by
    rw [quadTree_of_small (by decide) (by decide) (by decide) (by decide), ht]
  exact ⟨t, hq, lookupNode_returns_slot 4 4 16 (.done t) hq⟩

/-! ## C10: no degenerate node -/

/-- C10, as amended: for every `1 ≤ width, height < 2 ^ 30`, the sizes at which
no centre overflows `int`, construction fails only on a negative `int` product
`width * height`, before any node exists; otherwise, in the state in which it
ends, for any fuel and whether it returned or was cut off, the root and every
node that was ever assigned into the map have a non-empty region, `xl < xr`
and `yl < yr`, and with fuel for more than `ceil (log2 (max width height))`
nested calls it returns. -/
theorem no_degenerate_node (W H : Int) (fuel : Nat) (hW : 1 ≤ W) (hH : 1 ≤ H)
    (hW' : W < 2 ^ 30) (hH' : H < 2 ^ 30) :
    (int32 (W * H) < 0 → QuadTree.QuadTree fuel W H = none) ∧
    (0 ≤ int32 (W * H) →
      ∃ s, QuadTree.QuadTree fuel W H = some s ∧
        (s.state.root.box.xl < s.state.root.box.xr ∧
          s.state.root.box.yl < s.state.root.box.yr) ∧
        (∀ e ∈ s.state.nodes, ∀ n, e.2 = Slot.val n →
          n.box.xl < n.box.xr ∧ n.box.yl < n.box.yr) ∧
        (Nat.clog 2 (max W H).toNat < fuel → ∃ t, s = .done t)) := by
  constructor
  · intro h
    unfold QuadTree.QuadTree
    rw [if_pos h]
  · intro h0
    refine ⟨buildQuadTree fuel W H, quadTree_of_nonneg h0, ?_⟩
    have h := buildQuadTree_everyBox hW hH hW' hH' fuel
    refine ⟨⟨h.1.2.1, h.1.2.2.2.1⟩,
      fun e he n hn => ⟨(h.2 e he n hn).2.1, (h.2 e he n hn).2.2.2.1⟩, ?_⟩
    intro hfuel
    obtain ⟨t, -, hret, -⟩ := buildQuadTree_returns hW hH hW' hH'
    exact ⟨t, hret fuel hfuel⟩

/-- C10, witness: the amended claim at the odd `3 x 3` frame buffer. -/
theorem no_degenerate_node_witness :
    (int32 ((3 : Int) * 3) < 0 → QuadTree.QuadTree 16 3 3 = none) ∧
    (0 ≤ int32 ((3 : Int) * 3) →
      ∃ s, QuadTree.QuadTree 16 3 3 = some s ∧
        (s.state.root.box.xl < s.state.root.box.xr ∧
          s.state.root.box.yl < s.state.root.box.yr) ∧
        (∀ e ∈ s.state.nodes, ∀ n, e.2 = Slot.val n →
          n.box.xl < n.box.xr ∧ n.box.yl < n.box.yr) ∧
        (Nat.clog 2 (max (3 : Int) 3).toNat < 16 → ∃ t, s = .done t)) :=
  no_degenerate_node 3 3 16 (by decide) (by decide) (by decide) (by decide)

/-- C10, counterexample: `QuadTree(2147483647, 1)` returns a tree with a
degenerate node. The centre of the root is `(width + 1) / 2` computed in
`int`, where `2147483647 + 1` wraps around to `-2147483648`, so it is
`-1073741824`; quadrant 0 of the root, which is never skipped, is stored under
code 4 with the x-range `[0, -1073741824)`, for which `xl < xr` fails. -/
theorem degenerate_node_at_int_max :
    ∃ t n, (∀ fuel, 2 ≤ fuel → QuadTree.QuadTree fuel 2147483647 1 = some (.done t)) ∧
      t.read (.entry 4) = some n ∧ n.box.xl = 0 ∧ n.box.xr = -1073741824 ∧
      ¬ n.box.xl < n.box.xr := by
  obtain ⟨t, hret, -, h4⟩ := tree_int_max_returns
  exact ⟨t, _, hret, h4, rfl, rfl, by decide⟩
